import Mathlib

/-!
Verification of the isekai materialization core against its design document.

The development shallowly embeds the Python sources:
  * `src/isekai/types.py`   — keys, references, spec (de)serialization;
  * `src/isekai/loaders.py` — the two-pass object materializer;
  * `src/isekai/operations/load.py` — the phase loop and its failure handling;
  * `src/isekai/graphs.py`  — Tarjan strongly-connected-components decomposition.

Python strings are modelled as `List Char` (`Str`), Python dicts as ordered
association lists (Python dicts preserve insertion order; dict equality in
Python ignores order, which never matters below because every comparison is
between dicts built in the same order).  Fallible Python code (functions that
raise `ValueError`) is modelled with `Except String`.
-/

set_option linter.unusedSectionVars false

namespace Isekai

/-- Python `str`, modelled as its list of characters. -/
abbrev Str := List Char

/-- `p.isPrefixOf s` for our string model: Python `s.startswith(p)`. -/
def hasPfx : Str → Str → Bool
  | [], _ => true
  | _ :: _, [] => false
  | c :: p, d :: s => c = d && hasPfx p s

/-- Python `s.removeprefix(p)`, used only where `s.startswith(p)` holds. -/
def dropPfx (p s : Str) : Str := s.drop p.length

/-- Python `s.split(sep, 1)` for a one-character separator: `none` when the
separator does not occur, otherwise the parts before and after its first
occurrence. -/
def splitOnce (sep : Char) : Str → Option (Str × Str)
  | [] => none
  | c :: rest =>
    if c = sep then some ([], rest)
    else (splitOnce sep rest).map (fun p => (c :: p.1, p.2))

/-- Python `s.split("::", 1)`: split at the first occurrence of two adjacent
colons. -/
def splitDC : Str → Option (Str × Str)
  | [] => none
  | [c] => if c = ':' then none else none
  | c :: d :: rest =>
    if c = ':' && d = ':' then some ([], rest)
    else (splitDC (d :: rest)).map (fun p => (c :: p.1, p.2))

/-- Python `s.split(sep)` (split at every occurrence; `"" → [""]`). -/
def splitAll (sep : Char) : Str → List Str
  | [] => [[]]
  | c :: rest =>
    if c = sep then [] :: splitAll sep rest
    else match splitAll sep rest with
      | [] => [[c]]
      | p :: ps => (c :: p) :: ps

/-- Python `sep.join(parts)` for a one-character separator. -/
def joinSep (sep : Char) (parts : List Str) : Str :=
  match parts with
  | [] => []
  | p :: ps => p ++ (ps.map (fun q => sep :: q)).flatten

/-- `src/isekai/types.py` — `Key`: an immutable `(type, value)` pair. -/
structure Key where
  type : Str
  value : Str
deriving DecidableEq, Repr

/-- `Key.__str__`: `f"{self.type}:{self.value}"`. -/
def Key.toStr (k : Key) : Str := k.type ++ ':' :: k.value

/-- `Key.from_string`: split at the first `:`; no separator or an empty value
raises `ValueError`. -/
def Key.fromString (s : Str) : Except String Key :=
  match splitOnce ':' s with
  | none => .error "Invalid key format"
  | some (t, v) => if v = [] then .error "Invalid key format" else .ok ⟨t, v⟩

/-- Reference token prefix of `ResourceRef` (Python `"isekai-resource-ref:\\"`). -/
def resPfx : Str := "isekai-resource-ref:\\".toList

/-- Reference token prefix of `BlobRef`. -/
def blobPfx : Str := "isekai-blob-ref:\\".toList

/-- Reference token prefix of `ModelRef`. -/
def modelPfx : Str := "isekai-model-ref:\\".toList

/-- `BlobRef`: a reference to a blob resource, identified by its `Key`. -/
structure BlobRef where
  key : Key
deriving DecidableEq, Repr

/-- `BlobRef.__str__` (inherited `BaseRef.__str__`). -/
def BlobRef.toStr (r : BlobRef) : Str := blobPfx ++ r.key.toStr

/-- `BlobRef.from_string` (inherited `BaseRef.from_string`). -/
def BlobRef.fromString (s : Str) : Except String BlobRef :=
  if hasPfx blobPfx s then (Key.fromString (dropPfx blobPfx s)).map BlobRef.mk
  else .error "Invalid ref"

/-- `ResourceRef`: a reference to a resource `Key` with an optional attribute
path.  The Python object stores the path in the instance slot named
`ref_attr_path` (any other attribute access is intercepted by `__getattr__`). -/
structure ResourceRef where
  key : Key
  ref_attr_path : List Str
deriving DecidableEq, Repr

/-- `ResourceRef.__str__`. -/
def ResourceRef.toStr (r : ResourceRef) : Str :=
  resPfx ++ r.key.toStr ++
    (if r.ref_attr_path = [] then []
     else ':' :: ':' :: joinSep '.' r.ref_attr_path)

/-- `ResourceRef.from_string`. -/
def ResourceRef.fromString (s : Str) : Except String ResourceRef :=
  if hasPfx resPfx s then
    let rest := dropPfx resPfx s
    match splitDC rest with
    | some (keyStr, attrStr) =>
      (Key.fromString keyStr).map (fun k => ⟨k, splitAll '.' attrStr⟩)
    | none => (Key.fromString rest).map (fun k => ⟨k, []⟩)
  else .error "Invalid ref"

/-! ### ASCII model of `urllib.parse` helpers used by `ModelRef`

`urlencode` quotes via `quote_plus`; `parse_qs` unquotes via `unquote_plus`;
`ModelRef.from_string` additionally applies `unquote` to each parsed value.
The model below is exact for ASCII strings (Python encodes characters above
`0x7f` through UTF-8, which no token produced by this code base contains). -/

/-- The hexadecimal digits used by `urllib.parse.quote` (upper case). -/
def hexDigit (n : Nat) : Char :=
  if n < 10 then Char.ofNat (48 + n) else Char.ofNat (55 + n)

/-- Value of a hexadecimal digit character, `none` for a non-digit. -/
def hexVal (c : Char) : Option Nat :=
  if '0' ≤ c && c ≤ '9' then some (c.toNat - 48)
  else if 'A' ≤ c && c ≤ 'F' then some (c.toNat - 55)
  else if 'a' ≤ c && c ≤ 'f' then some (c.toNat - 87)
  else none

/-- Characters `quote_plus` leaves unescaped: ASCII letters, digits, `_.-~`. -/
def safeChar (c : Char) : Bool :=
  c.isAlpha || c.isDigit || c = '_' || c = '.' || c = '-' || c = '~'

/-- `urllib.parse.quote_plus` on one character. -/
def quotePlusChar (c : Char) : Str :=
  if c = ' ' then ['+']
  else if safeChar c then [c]
  else '%' :: hexDigit (c.toNat / 16) :: [hexDigit (c.toNat % 16)]

/-- `urllib.parse.quote_plus` (ASCII model). -/
def quotePlus (s : Str) : Str := (s.map quotePlusChar).flatten

/-- `urllib.parse.unquote` (ASCII model): decode `%XX` escapes, leave malformed
escapes in place. -/
def unquote : Str → Str
  | [] => []
  | c :: rest =>
    if c = '%' then
      match rest with
      | a :: b :: rest2 =>
        match hexVal a, hexVal b with
        | some x, some y => Char.ofNat (16 * x + y) :: unquote rest2
        | _, _ => '%' :: unquote (a :: b :: rest2)
      | [a] => ['%', a]
      | [] => ['%']
    else c :: unquote rest

/-- `urllib.parse.unquote_plus`: `+` becomes a space, then `%XX` decoding. -/
def unquotePlus (s : Str) : Str :=
  unquote (s.map (fun c => if c = '+' then ' ' else c))

/-- `urllib.parse.urlencode` on an ordered mapping of strings. -/
def urlencode (kvs : List (Str × Str)) : Str :=
  joinSep '&' (kvs.map (fun p => quotePlus p.1 ++ '=' :: quotePlus p.2))

/-- `urllib.parse.parse_qsl` with default arguments: split on `&`, drop chunks
without `=` and pairs with an empty value, unquote names and values. -/
def parseQsl (qs : Str) : List (Str × Str) :=
  (splitAll '&' qs).foldr
    (fun chunk acc =>
      if chunk = [] then acc
      else match splitOnce '=' chunk with
        | none => acc
        | some (n, v) =>
          if v = [] then acc else (unquotePlus n, unquotePlus v) :: acc)
    []

/-- First value recorded for each name, names in first-seen order: the effect
of `parse_qs` grouping followed by Python `{k: f(v[0]) for k, v in parsed.items()}`. -/
def firstPerKeyAux (seen : List Str) : List (Str × Str) → List (Str × Str)
  | [] => []
  | (k, v) :: rest =>
    if k ∈ seen then firstPerKeyAux seen rest
    else (k, v) :: firstPerKeyAux (k :: seen) rest

/-- First value recorded for each name, names in first-seen order. -/
def firstPerKey (l : List (Str × Str)) : List (Str × Str) := firstPerKeyAux [] l

/-- `ModelRef`: a reference to a pre-existing database object, carrying a
target type name, ordered lookup parameters and an optional attribute path
(instance slots `ref_content_type`, `ref_lookup_kwargs`, `ref_attr_path`).
Lookup values are modelled as strings, the form `from_string` produces and
`urlencode` serializes. -/
structure ModelRef where
  ref_content_type : Str
  ref_lookup_kwargs : List (Str × Str)
  ref_attr_path : List Str
deriving DecidableEq, Repr

/-- `ModelRef.__str__`. -/
def ModelRef.toStr (r : ModelRef) : Str :=
  modelPfx ++ r.ref_content_type ++ '?' :: urlencode r.ref_lookup_kwargs ++
    (if r.ref_attr_path = [] then []
     else ':' :: ':' :: joinSep '.' r.ref_attr_path)

/-- `ModelRef.from_string`. -/
def ModelRef.fromString (s : Str) : Except String ModelRef :=
  if hasPfx modelPfx s then
    let rest := dropPfx modelPfx s
    let qa : Str × List Str :=
      match splitDC rest with
      | some (q, a) => (q, splitAll '.' a)
      | none => (rest, [])
    match splitOnce '?' qa.1 with
    | some (ct, qs) =>
      .ok ⟨ct, (firstPerKey (parseQsl qs)).map (fun p => (p.1, unquote p.2)), qa.2⟩
    | none => .error "Invalid ModelRef format (missing query params)"
  else .error "Invalid ref"

/-! ### Spec attribute trees (`Spec` in `src/isekai/types.py`) -/

/-- A Python value appearing in a `Spec` attribute tree: literals (string,
int, bool, `None`), nested dicts / lists / tuples, and the three reference
kinds. -/
inductive Value : Type where
  | vstr : Str → Value
  | vint : Int → Value
  | vbool : Bool → Value
  | vnone : Value
  | vlist : List Value → Value
  | vtuple : List Value → Value
  | vdict : List (Str × Value) → Value
  | vres : ResourceRef → Value
  | vblob : BlobRef → Value
  | vmodel : ModelRef → Value

mutual
/-- Structural equality test on attribute-tree values (Python `==`). -/
def valueBeq : Value → Value → Bool
  | .vstr a, .vstr b => a = b
  | .vint a, .vint b => a = b
  | .vbool a, .vbool b => a = b
  | .vnone, .vnone => true
  | .vlist a, .vlist b => valueListBeq a b
  | .vtuple a, .vtuple b => valueListBeq a b
  | .vdict a, .vdict b => valueKVsBeq a b
  | .vres a, .vres b => a = b
  | .vblob a, .vblob b => a = b
  | .vmodel a, .vmodel b => a = b
  | _, _ => false

/-- Pointwise equality test on value lists. -/
def valueListBeq : List Value → List Value → Bool
  | [], [] => true
  | a :: as_, b :: bs => valueBeq a b && valueListBeq as_ bs
  | _, _ => false

/-- Pointwise equality test on dict items. -/
def valueKVsBeq : List (Str × Value) → List (Str × Value) → Bool
  | [], [] => true
  | (k, a) :: as_, (l, b) :: bs => k = l && valueBeq a b && valueKVsBeq as_ bs
  | _, _ => false
end

mutual
theorem valueBeq_iff : (a b : Value) → (valueBeq a b = true ↔ a = b)
  | .vstr _, b => by cases b <;> simp [valueBeq]
  | .vint _, b => by cases b <;> simp [valueBeq]
  | .vbool _, b => by cases b <;> simp [valueBeq]
  | .vnone, b => by cases b <;> simp [valueBeq]
  | .vlist a, b => by
    cases b <;> simp [valueBeq]
    exact valueListBeq_iff a _
  | .vtuple a, b => by
    cases b <;> simp [valueBeq]
    exact valueListBeq_iff a _
  | .vdict a, b => by
    cases b <;> simp [valueBeq]
    exact valueKVsBeq_iff a _
  | .vres _, b => by cases b <;> simp [valueBeq]
  | .vblob _, b => by cases b <;> simp [valueBeq]
  | .vmodel _, b => by cases b <;> simp [valueBeq]

theorem valueListBeq_iff : (a b : List Value) → (valueListBeq a b = true ↔ a = b)
  | [], b => by cases b <;> simp [valueListBeq]
  | x :: xs, b => by
    cases b with
    | nil => simp [valueListBeq]
    | cons y ys =>
      simp [valueListBeq, valueBeq_iff x y, valueListBeq_iff xs ys]

theorem valueKVsBeq_iff : (a b : List (Str × Value)) → (valueKVsBeq a b = true ↔ a = b)
  | [], b => by cases b <;> simp [valueKVsBeq]
  | (k, x) :: xs, b => by
    cases b with
    | nil => simp [valueKVsBeq]
    | cons p ys =>
      obtain ⟨l, y⟩ := p
      simp [valueKVsBeq, valueBeq_iff x y, valueKVsBeq_iff xs ys, and_assoc,
        Prod.ext_iff]
end

instance : DecidableEq Value := fun a b =>
  decidable_of_iff _ (valueBeq_iff a b)

instance : DecidableEq (List Value) := fun a b =>
  decidable_of_iff _ (valueListBeq_iff a b)

instance : DecidableEq (List (Str × Value)) := fun a b =>
  decidable_of_iff _ (valueKVsBeq_iff a b)

/-- `Spec`: a target type name plus an ordered attribute mapping. -/
structure Spec where
  content_type : Str
  attributes : List (Str × Value)

/-- The plain nested structure `Spec.to_dict` produces and `Spec.from_dict`
consumes (same shape as `Spec`; reference objects appear only as their string
tokens after serialization). -/
structure SpecDict where
  content_type : Str
  attributes : List (Str × Value)

mutual
/-- `serialize_value` inside `Spec.to_dict`: references become their token
strings, dicts and sequences are rebuilt (tuples become lists), everything
else passes through. -/
def serializeValue : Value → Value
  | .vres r => .vstr r.toStr
  | .vblob r => .vstr r.toStr
  | .vmodel r => .vstr r.toStr
  | .vdict kvs => .vdict (serializeKVs kvs)
  | .vlist vs => .vlist (serializeList vs)
  | .vtuple vs => .vlist (serializeList vs)
  | .vstr s => .vstr s
  | .vint n => .vint n
  | .vbool b => .vbool b
  | .vnone => .vnone

/-- `serialize_value` mapped over a list. -/
def serializeList : List Value → List Value
  | [] => []
  | v :: vs => serializeValue v :: serializeList vs

/-- `serialize_value` mapped over a dict's items. -/
def serializeKVs : List (Str × Value) → List (Str × Value)
  | [] => []
  | (k, v) :: kvs => (k, serializeValue v) :: serializeKVs kvs
end

/-- `Spec.to_dict`. -/
def Spec.toDict (s : Spec) : SpecDict :=
  ⟨s.content_type, serializeKVs s.attributes⟩

/-- The string branch of `deserialize_value` in `Spec.from_dict`: try the
three reference parsers keyed on the token prefix; a `ValueError` (or an
unrecognized prefix) leaves the string unchanged. -/
def deserializeStr (s : Str) : Value :=
  if hasPfx resPfx s then
    match ResourceRef.fromString s with
    | .ok r => .vres r
    | .error _ => .vstr s
  else if hasPfx blobPfx s then
    match BlobRef.fromString s with
    | .ok r => .vblob r
    | .error _ => .vstr s
  else if hasPfx modelPfx s then
    match ModelRef.fromString s with
    | .ok r => .vmodel r
    | .error _ => .vstr s
  else .vstr s

mutual
/-- `deserialize_value` inside `Spec.from_dict`. -/
def deserializeValue : Value → Value
  | .vstr s => deserializeStr s
  | .vdict kvs => .vdict (deserializeKVs kvs)
  | .vlist vs => .vlist (deserializeList vs)
  | .vtuple vs => .vlist (deserializeList vs)
  | .vint n => .vint n
  | .vbool b => .vbool b
  | .vnone => .vnone
  | .vres r => .vres r
  | .vblob r => .vblob r
  | .vmodel r => .vmodel r

/-- `deserialize_value` mapped over a list. -/
def deserializeList : List Value → List Value
  | [] => []
  | v :: vs => deserializeValue v :: deserializeList vs

/-- `deserialize_value` mapped over a dict's items. -/
def deserializeKVs : List (Str × Value) → List (Str × Value)
  | [] => []
  | (k, v) :: kvs => (k, deserializeValue v) :: deserializeKVs kvs
end

/-- `Spec.from_dict`. -/
def Spec.fromDict (d : SpecDict) : Spec :=
  ⟨d.content_type, deserializeKVs d.attributes⟩

/-- A dependency-creating reference collected by `Spec.find_refs`
(`BaseRef` — in practice `BlobRef` — or `ResourceRef`; never `ModelRef`). -/
inductive DepRef : Type where
  | res : ResourceRef → DepRef
  | blob : BlobRef → DepRef
deriving DecidableEq, Repr

/-- `str()` of a collected reference, the deduplication key of `find_refs`. -/
def DepRef.toStr : DepRef → Str
  | .res r => r.toStr
  | .blob r => r.toStr

mutual
/-- `collect_refs` inside `Spec.find_refs`: state is the `seen` token set and
the collected list (appended in first-seen order). -/
def collectRefs : Value → List Str × List DepRef → List Str × List DepRef
  | .vres r, st =>
    if r.toStr ∈ st.1 then st else (r.toStr :: st.1, st.2 ++ [.res r])
  | .vblob r, st =>
    if r.toStr ∈ st.1 then st else (r.toStr :: st.1, st.2 ++ [.blob r])
  | .vdict kvs, st => collectRefsKVs kvs st
  | .vlist vs, st => collectRefsList vs st
  | .vtuple vs, st => collectRefsList vs st
  | _, st => st

/-- `collect_refs` folded over a list's items. -/
def collectRefsList : List Value → List Str × List DepRef → List Str × List DepRef
  | [], st => st
  | v :: vs, st => collectRefsList vs (collectRefs v st)

/-- `collect_refs` folded over a dict's values. -/
def collectRefsKVs : List (Str × Value) → List Str × List DepRef → List Str × List DepRef
  | [], st => st
  | (_, v) :: kvs, st => collectRefsKVs kvs (collectRefs v st)
end

/-- `Spec.find_refs`. -/
def Spec.findRefs (s : Spec) : List DepRef :=
  (collectRefs (.vdict s.attributes) ([], [])).2

end Isekai

namespace Isekai
instance : DecidableEq Spec := fun a b =>
  decidable_of_iff (a.content_type = b.content_type ∧ a.attributes = b.attributes)
    (by cases a; cases b; simp)

instance : DecidableEq SpecDict := fun a b =>
  decidable_of_iff (a.content_type = b.content_type ∧ a.attributes = b.attributes)
    (by cases a; cases b; simp)
end Isekai

namespace Isekai

/-! ### Lemmas about the string helpers -/

theorem resPfx_chars :
    resPfx = ['i', 's', 'e', 'k', 'a', 'i', '-', 'r', 'e', 's', 'o', 'u', 'r', 'c', 'e', '-', 'r', 'e', 'f', ':', '\\'] := by
  decide

theorem blobPfx_chars :
    blobPfx = ['i', 's', 'e', 'k', 'a', 'i', '-', 'b', 'l', 'o', 'b', '-', 'r', 'e', 'f', ':', '\\'] := by
  decide

theorem modelPfx_chars :
    modelPfx = ['i', 's', 'e', 'k', 'a', 'i', '-', 'm', 'o', 'd', 'e', 'l', '-', 'r', 'e', 'f', ':', '\\'] := by
  decide

theorem hasPfx_self_append (p s : Str) : hasPfx p (p ++ s) = true := by
  induction p with
  | nil => rfl
  | cons c p ih => simp [hasPfx, ih]

theorem dropPfx_self_append (p s : Str) : dropPfx p (p ++ s) = s := by
  simp [dropPfx]

theorem hasPfx_res_of_blob (s : Str) : hasPfx resPfx (blobPfx ++ s) = false := by
  simp [resPfx_chars, blobPfx_chars, hasPfx]

theorem hasPfx_res_of_model (s : Str) : hasPfx resPfx (modelPfx ++ s) = false := by
  simp [resPfx_chars, modelPfx_chars, hasPfx]

theorem hasPfx_blob_of_res (s : Str) : hasPfx blobPfx (resPfx ++ s) = false := by
  simp [blobPfx_chars, resPfx_chars, hasPfx]

theorem hasPfx_blob_of_model (s : Str) : hasPfx blobPfx (modelPfx ++ s) = false := by
  simp [blobPfx_chars, modelPfx_chars, hasPfx]

theorem hasPfx_model_of_res (s : Str) : hasPfx modelPfx (resPfx ++ s) = false := by
  simp [modelPfx_chars, resPfx_chars, hasPfx]

theorem hasPfx_model_of_blob (s : Str) : hasPfx modelPfx (blobPfx ++ s) = false := by
  simp [modelPfx_chars, blobPfx_chars, hasPfx]

theorem splitOnce_of_not_mem {sep : Char} {s : Str} (h : sep ∉ s) :
    splitOnce sep s = none := by
  induction s with
  | nil => rfl
  | cons c rest ih =>
    simp only [List.mem_cons, not_or] at h
    simp [splitOnce, Ne.symm h.1, ih h.2]

theorem splitOnce_append {sep : Char} {a : Str} (b : Str) (h : sep ∉ a) :
    splitOnce sep (a ++ sep :: b) = some (a, b) := by
  induction a with
  | nil => simp [splitOnce]
  | cons c rest ih =>
    simp only [List.mem_cons, not_or] at h
    simp [splitOnce, Ne.symm h.1, ih h.2]

end Isekai

namespace Isekai

/-- No two adjacent colons occur in `s`. -/
def noDD : Str → Bool
  | c :: d :: rest => !(c = ':' && d = ':') && noDD (d :: rest)
  | _ => true

theorem noDD_cons {c : Char} {s : Str} (h : noDD (c :: s) = true) : noDD s = true := by
  cases s with
  | nil => rfl
  | cons d rest => exact (Bool.and_eq_true_iff.mp h).2

theorem splitDC_of_noDD {s : Str} (h : noDD s = true) : splitDC s = none := by
  induction s with
  | nil => rfl
  | cons c rest ih =>
    cases rest with
    | nil => simp [splitDC]
    | cons d rest2 =>
      have h2 := (Bool.and_eq_true_iff.mp h).1
      simp only [Bool.not_and] at h2  -- hmm
      simp [splitDC, ih (noDD_cons h)]
      intro hc hd
      simp [hc, hd] at h2

theorem splitDC_append {a : Str} (b : Str) (ha : noDD a = true)
    (hl : a.getLast? ≠ some ':') :
    splitDC (a ++ ':' :: ':' :: b) = some (a, b) := by
  induction a with
  | nil => simp [splitDC]
  | cons c rest ih =>
    cases rest with
    | nil =>
      simp only [List.getLast?_singleton, ne_eq, Option.some.injEq] at hl
      simp [splitDC, hl]
    | cons d rest2 =>
      have h2 := (Bool.and_eq_true_iff.mp ha).1
      have hl2 : (d :: rest2).getLast? ≠ some ':' := by
        simpa [List.getLast?_cons_cons] using hl
      have := ih (noDD_cons ha) hl2
      simp only [List.cons_append] at this ⊢
      simp [splitDC, this]
      intro hc hd
      simp [hc, hd] at h2

end Isekai

namespace Isekai

theorem splitAll_of_not_mem {sep : Char} {s : Str} (h : sep ∉ s) :
    splitAll sep s = [s] := by
  induction s with
  | nil => rfl
  | cons c rest ih =>
    simp only [List.mem_cons, not_or] at h
    simp [splitAll, Ne.symm h.1, ih h.2]

theorem splitAll_append {sep : Char} {a : Str} (b : Str) (h : sep ∉ a) :
    splitAll sep (a ++ sep :: b) = a :: splitAll sep b := by
  induction a with
  | nil => simp [splitAll]
  | cons c rest ih =>
    simp only [List.mem_cons, not_or] at h
    simp only [List.cons_append]
    simp [splitAll, Ne.symm h.1, ih h.2]

theorem joinSep_cons₂ (sep : Char) (p q : Str) (qs : List Str) :
    joinSep sep (p :: q :: qs) = p ++ sep :: joinSep sep (q :: qs) := by
  simp [joinSep]

theorem splitAll_joinSep {sep : Char} {parts : List Str} (hne : parts ≠ [])
    (h : ∀ p ∈ parts, sep ∉ p) :
    splitAll sep (joinSep sep parts) = parts := by
  induction parts with
  | nil => exact absurd rfl hne
  | cons p ps ih =>
    cases ps with
    | nil =>
      simp [joinSep, splitAll_of_not_mem (h p (by simp))]
    | cons q qs =>
      rw [joinSep_cons₂, splitAll_append _ (h p (by simp))]
      rw [ih (by simp) (fun r hr => h r (by simp [hr]))]

theorem Key.fromString_toStr {k : Key} (ht : ':' ∉ k.type) (hv : k.value ≠ []) :
    Key.fromString k.toStr = .ok k := by
  simp [Key.fromString, Key.toStr, splitOnce_append _ ht, hv]

end Isekai

namespace Isekai

/-- Serialization-safe `Key`: the type part is colon-free and the value part
nonempty, so `Key.from_string (str(key))` recovers the key. -/
def wfKeyB (k : Key) : Bool := !(':' ∈ k.type) && k.value ≠ []

/-- Serialization-safe `BlobRef`. -/
def BlobRef.wfB (r : BlobRef) : Bool := wfKeyB r.key

/-- Serialization-safe `ResourceRef`: additionally the serialized key must not
contain `::` (it would be mistaken for the attribute-path separator), and when
an attribute path is present the key must not end in `:` and the path
components must be dot-free. -/
def ResourceRef.wfB (r : ResourceRef) : Bool :=
  wfKeyB r.key && noDD r.key.toStr &&
    (r.ref_attr_path.isEmpty ||
      (r.key.toStr.getLast? != some ':' &&
        r.ref_attr_path.all (fun p => !('.' ∈ p))))

theorem BlobRef.fromString_toStr_blob {r : BlobRef} (h : r.wfB = true) :
    BlobRef.fromString r.toStr = .ok r := by
  obtain ⟨ht, hv⟩ := Bool.and_eq_true_iff.mp h
  rw [Bool.not_eq_eq_eq_not, Bool.not_true, decide_eq_false_iff_not] at ht
  rw [decide_eq_true_iff] at hv
  simp [BlobRef.fromString, BlobRef.toStr, hasPfx_self_append, dropPfx_self_append,
    Key.fromString_toStr ht hv, Except.map]

theorem ResourceRef.fromString_toStr_res {r : ResourceRef} (h : r.wfB = true) :
    ResourceRef.fromString r.toStr = .ok r := by
  obtain ⟨k, path⟩ := r
  simp only [ResourceRef.wfB, Bool.and_eq_true_iff] at h
  obtain ⟨⟨hk, hdd⟩, hpath⟩ := h
  obtain ⟨ht, hv⟩ := Bool.and_eq_true_iff.mp hk
  rw [Bool.not_eq_eq_eq_not, Bool.not_true, decide_eq_false_iff_not] at ht
  rw [decide_eq_true_iff] at hv
  by_cases hp : path = []
  · simp [ResourceRef.fromString, ResourceRef.toStr, hp, hasPfx_self_append,
      dropPfx_self_append, splitDC_of_noDD hdd, Key.fromString_toStr ht hv,
      Except.map]
  · rw [Bool.or_eq_true_iff] at hpath
    rcases hpath with hpath | hpath
    · exact absurd (List.isEmpty_iff.mp hpath) hp
    · obtain ⟨hlast, hdots⟩ := Bool.and_eq_true_iff.mp hpath
      rw [bne_iff_ne] at hlast
      have hdots2 : ∀ p ∈ path, '.' ∉ p := by
        intro p hpmem
        have := List.all_eq_true.mp hdots p hpmem
        simpa using this
      simp only [ResourceRef.toStr, if_neg hp]
      have htok : resPfx ++ k.toStr ++ ':' :: ':' :: joinSep '.' path =
          resPfx ++ (k.toStr ++ ':' :: ':' :: joinSep '.' path) := by
        simp
      rw [htok, ResourceRef.fromString,
        if_pos (hasPfx_self_append _ _), dropPfx_self_append]
      simp only [splitDC_append _ hdd hlast, Key.fromString_toStr ht hv,
        splitAll_joinSep hp hdots2, Except.map]

end Isekai

namespace Isekai

/-- All characters are ASCII (the fragment on which the `urllib` model is
exact). -/
def allAscii (s : Str) : Bool := s.all (fun c => c.toNat < 128)

theorem hexVal_hexDigit {n : Nat} (h : n < 16) : hexVal (hexDigit n) = some n := by
  interval_cases n <;> decide

theorem safeChar_hexDigit {n : Nat} (h : n < 16) : safeChar (hexDigit n) = true := by
  interval_cases n <;> decide

theorem ne_of_safeChar {c d : Char} (hc : safeChar c = true) (hd : safeChar d = false) :
    c ≠ d := by
  intro h
  rw [h, hd] at hc
  cases hc

theorem mem_quotePlusChar {c d : Char} (hc : c.toNat < 128) (h : d ∈ quotePlusChar c) :
    d = '+' ∨ d = '%' ∨ safeChar d = true := by
  by_cases hsp : c = ' '
  · subst hsp
    simp [quotePlusChar] at h
    exact Or.inl h
  · by_cases hsafe : safeChar c = true
    · simp [quotePlusChar, hsp, hsafe] at h
      exact Or.inr (Or.inr (h ▸ hsafe))
    · have h16a : c.toNat / 16 < 16 := by omega
      have h16b : c.toNat % 16 < 16 := Nat.mod_lt _ (by omega)
      simp [quotePlusChar, hsp, hsafe] at h
      rcases h with h | h | h
      · exact Or.inr (Or.inl h)
      · exact Or.inr (Or.inr (h ▸ safeChar_hexDigit h16a))
      · exact Or.inr (Or.inr (h ▸ safeChar_hexDigit h16b))

theorem notMem_quotePlus {b : Char} {s : Str} (hb : safeChar b = false)
    (hb1 : b ≠ '+') (hb2 : b ≠ '%') (hs : allAscii s = true) : b ∉ quotePlus s := by
  intro hmem
  simp only [quotePlus, List.mem_flatten, List.mem_map] at hmem
  obtain ⟨l, ⟨c, hcmem, rfl⟩, hbl⟩ := hmem
  have hc : c.toNat < 128 := by
    have := List.all_eq_true.mp hs c hcmem
    simpa using this
  rcases mem_quotePlusChar hc hbl with h | h | h
  · exact hb1 h
  · exact hb2 h
  · rw [h] at hb; cases hb

theorem unquote_cons_of_ne {c : Char} (t : Str) (h : c ≠ '%') :
    unquote (c :: t) = c :: unquote t := by
  rw [unquote.eq_def]
  simp only [h, if_false, ite_false]

theorem unquotePlus_quotePlus {s : Str} (hs : allAscii s = true) :
    unquotePlus (quotePlus s) = s := by
  induction s with
  | nil => rfl
  | cons c rest ih =>
    have hrest : allAscii rest = true := by
      simp only [allAscii, List.all_cons, Bool.and_eq_true_iff] at hs
      exact hs.2
    have hc : c.toNat < 128 := by
      simp only [allAscii, List.all_cons, Bool.and_eq_true_iff] at hs
      simpa using hs.1
    have hq : quotePlus (c :: rest) = quotePlusChar c ++ quotePlus rest := by
      simp [quotePlus]
    rw [hq]
    unfold unquotePlus at ih ⊢
    rw [List.map_append]
    by_cases hsp : c = ' '
    · subst hsp
      have hqc : quotePlusChar ' ' = ['+'] := by decide
      rw [hqc]
      have hm : List.map (fun c => if c = '+' then ' ' else c) ['+'] = [' '] := by
        decide
      rw [hm, List.singleton_append]
      rw [unquote_cons_of_ne _ (by decide), ih hrest]
    · by_cases hsafe : safeChar c = true
      · have : quotePlusChar c = [c] := by
          unfold quotePlusChar
          rw [if_neg hsp, if_pos hsafe]
        rw [this]
        simp only [List.map_cons, List.map_nil, List.cons_append, List.nil_append]
        rw [if_neg (ne_of_safeChar hsafe (by decide))]
        rw [unquote_cons_of_ne _ (ne_of_safeChar hsafe (by decide)), ih hrest]
      · have h16a : c.toNat / 16 < 16 := by omega
        have h16b : c.toNat % 16 < 16 := Nat.mod_lt _ (by omega)
        have hqc : quotePlusChar c =
            ['%', hexDigit (c.toNat / 16), hexDigit (c.toNat % 16)] := by
          unfold quotePlusChar
          rw [if_neg hsp, if_neg (by simpa using hsafe)]
        rw [hqc]
        simp only [List.map_cons, List.map_nil, List.cons_append, List.nil_append]
        rw [if_neg (by decide)]
        rw [if_neg (ne_of_safeChar (safeChar_hexDigit h16a) (by decide))]
        rw [if_neg (ne_of_safeChar (safeChar_hexDigit h16b) (by decide))]
        simp only [unquote]
        simp only [if_true]
        simp only [hexVal_hexDigit h16a, hexVal_hexDigit h16b]
        rw [Nat.div_add_mod c.toNat 16]
        rw [Char.ofNat_toNat, ih hrest]

end Isekai

namespace Isekai

theorem quotePlus_ne_nil {s : Str} (h : s ≠ []) : quotePlus s ≠ [] := by
  cases s with
  | nil => exact absurd rfl h
  | cons c rest =>
    simp only [quotePlus, List.map_cons, List.flatten_cons, ne_eq,
      List.append_eq_nil]
    intro hc
    have : quotePlusChar c ≠ [] := by
      unfold quotePlusChar
      split
      · simp
      · split <;> simp
    exact this hc.1

theorem parseQsl_urlencode {kvs : List (Str × Str)}
    (h : ∀ p ∈ kvs, p.2 ≠ [] ∧ allAscii p.1 = true ∧ allAscii p.2 = true) :
    parseQsl (urlencode kvs) = kvs := by
  induction kvs with
  | nil => rfl
  | cons kv rest ih =>
    obtain ⟨k, v⟩ := kv
    obtain ⟨hv, hk1, hv1⟩ := h (k, v) (by simp)
    have hchunk : '&' ∉ quotePlus k ++ '=' :: quotePlus v := by
      simp only [List.mem_append, List.mem_cons, not_or]
      exact ⟨notMem_quotePlus (by decide) (by decide) (by decide) hk1,
        by decide,
        notMem_quotePlus (by decide) (by decide) (by decide) hv1⟩
    cases rest with
    | nil =>
      simp only [urlencode, List.map_cons, List.map_nil, joinSep]
      simp only [List.map_nil, List.flatten_nil, List.append_nil]
      rw [parseQsl, splitAll_of_not_mem hchunk]
      simp only [List.foldr]
      rw [if_neg (by simp)]
      rw [splitOnce_append _ (notMem_quotePlus (by decide) (by decide) (by decide) hk1)]
      simp only []
      rw [if_neg (quotePlus_ne_nil hv)]
      rw [unquotePlus_quotePlus hk1, unquotePlus_quotePlus hv1]
    | cons kv2 rest2 =>
      have hjoin : urlencode ((k, v) :: kv2 :: rest2) =
          (quotePlus k ++ '=' :: quotePlus v) ++ '&' :: urlencode (kv2 :: rest2) := by
        simp only [urlencode, List.map_cons]
        rw [joinSep_cons₂]
      rw [hjoin]
      rw [parseQsl, splitAll_append _ hchunk]
      have ihres := ih (fun p hp => h p (by simp [hp]))
      rw [parseQsl] at ihres
      simp only [List.foldr]
      rw [if_neg (by simp)]
      rw [splitOnce_append _ (notMem_quotePlus (by decide) (by decide) (by decide) hk1)]
      simp only []
      rw [if_neg (quotePlus_ne_nil hv)]
      rw [unquotePlus_quotePlus hk1, unquotePlus_quotePlus hv1]
      rw [ihres]

/-- Keys of an ordered mapping are pairwise distinct. -/
def nodupKeysB : List (Str × Str) → Bool
  | [] => true
  | (k, _) :: rest => rest.all (fun p => p.1 != k) && nodupKeysB rest

theorem firstPerKeyAux_of_nodup {l : List (Str × Str)} (seen : List Str)
    (h : nodupKeysB l = true) (hs : ∀ p ∈ l, p.1 ∉ seen) :
    firstPerKeyAux seen l = l := by
  induction l generalizing seen with
  | nil => rfl
  | cons kv rest ih =>
    obtain ⟨k, v⟩ := kv
    obtain ⟨hall, hrest⟩ := Bool.and_eq_true_iff.mp h
    rw [firstPerKeyAux, if_neg (hs (k, v) (by simp))]
    congr 1
    refine ih (k :: seen) hrest ?_
    intro p hp
    simp only [List.mem_cons, not_or]
    have hne := List.all_eq_true.mp hall p hp
    rw [bne_iff_ne] at hne
    exact ⟨hne, hs p (by simp [hp])⟩

theorem firstPerKey_of_nodup {l : List (Str × Str)} (h : nodupKeysB l = true) :
    firstPerKey l = l :=
  firstPerKeyAux_of_nodup [] h (fun p _ => by simp)

end Isekai

namespace Isekai

theorem noDD_of_colonFree {s : Str} (h : ':' ∉ s) : noDD s = true := by
  induction s with
  | nil => rfl
  | cons c rest ih =>
    simp only [List.mem_cons, not_or] at h
    cases rest with
    | nil => rfl
    | cons d rest2 =>
      rw [noDD]
      simp only [Bool.and_eq_true_iff]
      refine ⟨?_, ih h.2⟩
      simp only [Bool.not_and]
      have : d ≠ ':' := by
        intro hd
        exact h.2 (by simp [hd])
      simp [this]

theorem noDD_append_right {a b : Str} (ha : noDD a = true) (hb : ':' ∉ b) :
    noDD (a ++ b) = true := by
  induction a with
  | nil => exact noDD_of_colonFree hb
  | cons c rest ih =>
    cases rest with
    | nil =>
      cases b with
      | nil => rfl
      | cons d b2 =>
        simp only [List.mem_cons, not_or] at hb
        simp only [List.cons_append, List.nil_append]
        rw [noDD]
        simp only [Bool.and_eq_true_iff]
        refine ⟨by simp [Ne.symm hb.1], ?_⟩
        exact noDD_of_colonFree (by simp [hb.1, hb.2] : ':' ∉ d :: b2)
    | cons d rest2 =>
      obtain ⟨h1, h2⟩ := Bool.and_eq_true_iff.mp ha
      simp only [List.cons_append]
      rw [noDD]
      simp only [Bool.and_eq_true_iff]
      exact ⟨h1, ih h2⟩

theorem notMem_joinSep {c : Char} {sep : Char} {parts : List Str}
    (hc : c ≠ sep) (h : ∀ p ∈ parts, c ∉ p) : c ∉ joinSep sep parts := by
  induction parts with
  | nil => simp [joinSep]
  | cons p ps ih =>
    cases ps with
    | nil => simpa [joinSep] using h p (by simp)
    | cons q qs =>
      rw [joinSep_cons₂]
      simp only [List.mem_append, List.mem_cons, not_or]
      exact ⟨h p (by simp), hc, ih (fun r hr => h r (by simp [hr]))⟩

theorem notMem_urlencode {b : Char} {kvs : List (Str × Str)}
    (hb : safeChar b = false) (hb1 : b ≠ '+') (hb2 : b ≠ '%') (hb3 : b ≠ '&')
    (hb4 : b ≠ '=')
    (h : ∀ p ∈ kvs, allAscii p.1 = true ∧ allAscii p.2 = true) :
    b ∉ urlencode kvs := by
  unfold urlencode
  refine notMem_joinSep hb3 ?_
  intro chunk hchunk
  simp only [List.mem_map] at hchunk
  obtain ⟨⟨k, v⟩, hmem, rfl⟩ := hchunk
  obtain ⟨hk, hv⟩ := h (k, v) hmem
  simp only [List.mem_append, List.mem_cons, not_or]
  exact ⟨notMem_quotePlus hb hb1 hb2 hk, hb4, notMem_quotePlus hb hb1 hb2 hv⟩

/-- Serialization-safe `ModelRef`: content type free of `?` and `::`, distinct
ASCII lookup keys, nonempty ASCII lookup values untouched by a second
percent-decoding, dot-free attribute-path components. -/
def ModelRef.wfB (m : ModelRef) : Bool :=
  noDD m.ref_content_type && !('?' ∈ m.ref_content_type) &&
    nodupKeysB m.ref_lookup_kwargs &&
    m.ref_lookup_kwargs.all (fun p =>
      !(p.2 == []) && allAscii p.1 && allAscii p.2 && (unquote p.2 == p.2)) &&
    m.ref_attr_path.all (fun p => !('.' ∈ p))

theorem mem_of_getLast? {l : Str} {a : Char} (h : l.getLast? = some a) :
    a ∈ l := by
  induction l with
  | nil => simp at h
  | cons c rest ih =>
    cases rest with
    | nil =>
      simp only [List.getLast?_singleton, Option.some.injEq] at h
      simp [h]
    | cons d r2 =>
      rw [List.getLast?_cons_cons] at h
      simp [ih h]

theorem ModelRef.fromString_toStr_model {m : ModelRef} (h : m.wfB = true) :
    ModelRef.fromString m.toStr = .ok m := by
  obtain ⟨ct, kwargs, path⟩ := m
  simp only [ModelRef.wfB, Bool.and_eq_true_iff] at h
  obtain ⟨⟨⟨⟨hdd, hq⟩, hnodup⟩, hvals⟩, hdots⟩ := h
  rw [Bool.not_eq_eq_eq_not, Bool.not_true, decide_eq_false_iff_not] at hq
  have hvals2 : ∀ p ∈ kwargs,
      p.2 ≠ [] ∧ allAscii p.1 = true ∧ allAscii p.2 = true ∧ unquote p.2 = p.2 := by
    intro p hp
    have := List.all_eq_true.mp hvals p hp
    simp only [Bool.and_eq_true_iff] at this
    obtain ⟨⟨⟨h1, h2⟩, h3⟩, h4⟩ := this
    refine ⟨?_, h2, h3, ?_⟩
    · intro hnil
      rw [hnil] at h1
      simp at h1
    · exact eq_of_beq h4
  have hascii : ∀ p ∈ kwargs, allAscii p.1 = true ∧ allAscii p.2 = true :=
    fun p hp => ⟨(hvals2 p hp).2.1, (hvals2 p hp).2.2.1⟩
  have hcolon : ':' ∉ '?' :: urlencode kwargs := by
    simp only [List.mem_cons, not_or]
    exact ⟨by decide,
      notMem_urlencode (by decide) (by decide) (by decide) (by decide) (by decide)
        hascii⟩
  have hnddq : noDD (ct ++ '?' :: urlencode kwargs) = true :=
    noDD_append_right hdd hcolon
  have hparse : parseQsl (urlencode kwargs) = kwargs :=
    parseQsl_urlencode (fun p hp =>
      ⟨(hvals2 p hp).1, (hvals2 p hp).2.1, (hvals2 p hp).2.2.1⟩)
  have hmapu : ∀ l : List (Str × Str), (∀ p ∈ l, unquote p.2 = p.2) →
      l.map (fun p => (p.1, unquote p.2)) = l := by
    intro l hl
    induction l with
    | nil => rfl
    | cons x xs ih =>
      simp only [List.map_cons]
      rw [hl x (by simp), ih (fun p hp => hl p (by simp [hp]))]
  have hfinal :
      (firstPerKey (parseQsl (urlencode kwargs))).map
        (fun p => (p.1, unquote p.2)) = kwargs := by
    rw [hparse, firstPerKey_of_nodup hnodup]
    exact hmapu kwargs (fun p hp => (hvals2 p hp).2.2.2)
  by_cases hp : path = []
  · subst hp
    have htok : ModelRef.toStr ⟨ct, kwargs, []⟩ =
        modelPfx ++ (ct ++ '?' :: urlencode kwargs) := by
      simp [ModelRef.toStr]
    rw [htok, ModelRef.fromString, if_pos (hasPfx_self_append _ _),
      dropPfx_self_append]
    simp only [splitDC_of_noDD hnddq]
    rw [splitOnce_append _ hq]
    simp only [hfinal]
  · have hlast : (ct ++ '?' :: urlencode kwargs).getLast? ≠ some ':' := by
      rw [List.getLast?_append_cons]
      intro hcontra
      exact hcolon (mem_of_getLast? hcontra)
    have hdots2 : ∀ p ∈ path, '.' ∉ p := by
      intro p hpmem
      have := List.all_eq_true.mp hdots p hpmem
      simpa using this
    have htok : ModelRef.toStr ⟨ct, kwargs, path⟩ =
        modelPfx ++ ((ct ++ '?' :: urlencode kwargs) ++
          ':' :: ':' :: joinSep '.' path) := by
      simp [ModelRef.toStr, if_neg hp]
    rw [htok, ModelRef.fromString, if_pos (hasPfx_self_append _ _),
      dropPfx_self_append]
    simp only [splitDC_append _ hnddq hlast]
    rw [splitOnce_append _ hq]
    simp only [hfinal, splitAll_joinSep hp hdots2]

end Isekai

namespace Isekai

theorem deserializeStr_res {r : ResourceRef} (h : r.wfB = true) :
    deserializeStr r.toStr = .vres r := by
  have htok : r.toStr = resPfx ++ (r.key.toStr ++
      (if r.ref_attr_path = [] then []
       else ':' :: ':' :: joinSep '.' r.ref_attr_path)) := by
    simp [ResourceRef.toStr]
  rw [deserializeStr, htok, if_pos (hasPfx_self_append _ _), ← htok,
    ResourceRef.fromString_toStr_res h]

theorem deserializeStr_blob {r : BlobRef} (h : r.wfB = true) :
    deserializeStr r.toStr = .vblob r := by
  rw [deserializeStr, BlobRef.toStr,
    if_neg (by simp [hasPfx_res_of_blob]),
    if_pos (hasPfx_self_append _ _), ← BlobRef.toStr,
    BlobRef.fromString_toStr_blob h]

theorem deserializeStr_model {m : ModelRef} (h : m.wfB = true) :
    deserializeStr m.toStr = .vmodel m := by
  have htok : m.toStr = modelPfx ++ (m.ref_content_type ++
      '?' :: urlencode m.ref_lookup_kwargs ++
      (if m.ref_attr_path = [] then []
       else ':' :: ':' :: joinSep '.' m.ref_attr_path)) := by
    simp [ModelRef.toStr]
  rw [deserializeStr, htok,
    if_neg (by simp [hasPfx_res_of_model]),
    if_neg (by simp [hasPfx_blob_of_model]),
    if_pos (hasPfx_self_append _ _), ← htok,
    ModelRef.fromString_toStr_model h]

mutual
/-- Serialization-safe attribute-tree values: literal strings do not carry a
reference prefix, sequences are lists (Python tuples deserialize as lists),
and reference tokens parse back to the reference they came from. -/
def wfValue : Value → Bool
  | .vstr s => !(hasPfx resPfx s || hasPfx blobPfx s || hasPfx modelPfx s)
  | .vint _ => true
  | .vbool _ => true
  | .vnone => true
  | .vlist vs => wfValueList vs
  | .vtuple _ => false
  | .vdict kvs => wfValueKVs kvs
  | .vres r => r.wfB
  | .vblob r => r.wfB
  | .vmodel m => m.wfB

/-- `wfValue` over a list's items. -/
def wfValueList : List Value → Bool
  | [] => true
  | v :: vs => wfValue v && wfValueList vs

/-- `wfValue` over a dict's items. -/
def wfValueKVs : List (Str × Value) → Bool
  | [] => true
  | (_, v) :: kvs => wfValue v && wfValueKVs kvs
end

mutual
theorem deserialize_serialize : ∀ v : Value, wfValue v = true →
    deserializeValue (serializeValue v) = v
  | .vstr s, h => by
    simp only [wfValue, Bool.not_eq_eq_eq_not, Bool.not_true, Bool.or_eq_false_iff] at h
    obtain ⟨⟨h1, h2⟩, h3⟩ := h
    simp [serializeValue, deserializeValue, deserializeStr, h1, h2, h3]
  | .vint n, _ => rfl
  | .vbool b, _ => rfl
  | .vnone, _ => rfl
  | .vlist vs, h => by
    simp only [serializeValue, deserializeValue]
    rw [deserialize_serialize_list vs (by simpa [wfValue] using h)]
  | .vtuple vs, h => by simp [wfValue] at h
  | .vdict kvs, h => by
    simp only [serializeValue, deserializeValue]
    rw [deserialize_serialize_kvs kvs (by simpa [wfValue] using h)]
  | .vres r, h => by
    simp only [serializeValue, deserializeValue]
    rw [deserializeStr_res (by simpa [wfValue] using h)]
  | .vblob r, h => by
    simp only [serializeValue, deserializeValue]
    rw [deserializeStr_blob (by simpa [wfValue] using h)]
  | .vmodel m, h => by
    simp only [serializeValue, deserializeValue]
    rw [deserializeStr_model (by simpa [wfValue] using h)]

theorem deserialize_serialize_list : ∀ vs : List Value, wfValueList vs = true →
    deserializeList (serializeList vs) = vs
  | [], _ => rfl
  | v :: vs, h => by
    obtain ⟨h1, h2⟩ := Bool.and_eq_true_iff.mp (by simpa [wfValueList] using h)
    simp only [serializeList, deserializeList]
    rw [deserialize_serialize v h1, deserialize_serialize_list vs h2]

theorem deserialize_serialize_kvs : ∀ kvs : List (Str × Value),
    wfValueKVs kvs = true → deserializeKVs (serializeKVs kvs) = kvs
  | [], _ => rfl
  | (k, v) :: kvs, h => by
    obtain ⟨h1, h2⟩ := Bool.and_eq_true_iff.mp (by simpa [wfValueKVs] using h)
    simp only [serializeKVs, deserializeKVs]
    rw [deserialize_serialize v h1, deserialize_serialize_kvs kvs h2]
end

/-- Serialization-safe `Spec`: every attribute value is serialization-safe. -/
def Spec.wfB (s : Spec) : Bool := wfValueKVs s.attributes

theorem Spec.fromDict_toDict {s : Spec} (h : s.wfB = true) :
    Spec.fromDict (Spec.toDict s) = s := by
  obtain ⟨ct, attrs⟩ := s
  simp only [Spec.toDict, Spec.fromDict, Spec.mk.injEq, true_and]
  exact deserialize_serialize_kvs attrs h

end Isekai

namespace Isekai

/-! ### Claim C4 — `Spec` serialization round trip -/

/-- The spec used as counterexample: one attribute holding the literal string
`"isekai-blob-ref:\a:b"`. -/
def c4CexSpec : Spec :=
  ⟨"app.M".toList, [("x".toList, .vstr "isekai-blob-ref:\\a:b".toList)]⟩

/-- C4 counterexample: the round trip `Spec.from_dict (spec.to_dict())` is not
the identity on every `Spec`: a literal string attribute that happens to start
with a reference prefix is serialized unchanged but deserialized into a
`BlobRef`, so the round trip of `c4CexSpec` differs from `c4CexSpec`. -/
theorem c4_roundtrip_cex :
    Spec.fromDict (Spec.toDict c4CexSpec) ≠ c4CexSpec := by decide

/-- C4 (amended): for every `Spec` whose attribute tree is serialization-safe
(`Spec.wfB`: sequences are lists rather than tuples, literal strings do not
begin with a recognized reference prefix, and each embedded reference is
well-formed enough that its token parses back to it), serializing to the plain
string-keyed structure and deserializing yields the original `Spec`:
`Spec.from_dict(spec.to_dict()) == spec`. -/
theorem c4_roundtrip (s : Spec) (h : s.wfB = true) :
    Spec.fromDict (Spec.toDict s) = s :=
  Spec.fromDict_toDict h

/-- A serialization-safe spec exercising every value kind: literals, nested
dicts and lists, and the three reference kinds. -/
def c4WitnessSpec : Spec :=
  ⟨"testapp.Article".toList,
    [("title".toList, .vstr "hello world".toList),
     ("count".toList, .vint 3),
     ("flag".toList, .vbool true),
     ("empty".toList, .vnone),
     ("body".toList, .vdict
       [("items".toList, .vlist
         [.vres ⟨⟨"page".toList, "about".toList⟩, []⟩,
          .vres ⟨⟨"page".toList, "about".toList⟩, ["author".toList, "name".toList]⟩,
          .vblob ⟨⟨"image".toList, "logo.png".toList⟩⟩,
          .vmodel ⟨"auth.User".toList,
            [("pk".toList, "42".toList), ("name".toList, "a b".toList)],
            ["profile".toList]⟩,
          .vint (-5)])])]⟩

/-- Witness for C4: `c4WitnessSpec` is serialization-safe and the round trip
reproduces it. -/
theorem c4_roundtrip_witness :
    c4WitnessSpec.wfB = true ∧
      Spec.fromDict (Spec.toDict c4WitnessSpec) = c4WitnessSpec :=
  ⟨by decide, c4_roundtrip c4WitnessSpec (by decide)⟩

end Isekai

namespace Isekai

/-! ### Claim C7 — `Spec.find_refs` -/

mutual
/-- Specification-side traversal: every dependency-creating reference
occurrence (`ResourceRef` or `BlobRef`, never `ModelRef`) in the attribute
tree, in traversal order, duplicates included. -/
def refOccs : Value → List DepRef
  | .vres r => [.res r]
  | .vblob r => [.blob r]
  | .vdict kvs => refOccsKVs kvs
  | .vlist vs => refOccsList vs
  | .vtuple vs => refOccsList vs
  | _ => []

/-- `refOccs` over a list's items. -/
def refOccsList : List Value → List DepRef
  | [] => []
  | v :: vs => refOccs v ++ refOccsList vs

/-- `refOccs` over a dict's values. -/
def refOccsKVs : List (Str × Value) → List DepRef
  | [] => []
  | (_, v) :: kvs => refOccs v ++ refOccsKVs kvs
end

/-- Keep the first occurrence of each serialized token, in order. -/
def dedupByTok (seen : List Str) : List DepRef → List DepRef
  | [] => []
  | r :: rs =>
    if r.toStr ∈ seen then dedupByTok seen rs
    else r :: dedupByTok (r.toStr :: seen) rs

/-- Fold the `seen`/collected state of `collect_refs` over a list of
reference occurrences. -/
def addRefs : List Str × List DepRef → List DepRef → List Str × List DepRef
  | st, [] => st
  | st, r :: rs =>
    addRefs (if r.toStr ∈ st.1 then st else (r.toStr :: st.1, st.2 ++ [r])) rs

theorem addRefs_append (st : List Str × List DepRef) (a b : List DepRef) :
    addRefs st (a ++ b) = addRefs (addRefs st a) b := by
  induction a generalizing st with
  | nil => rfl
  | cons r rs ih => simp [addRefs, ih]

mutual
theorem collectRefs_eq_addRefs : ∀ (v : Value) (st : List Str × List DepRef),
    collectRefs v st = addRefs st (refOccs v)
  | .vstr _, st => rfl
  | .vint _, st => rfl
  | .vbool _, st => rfl
  | .vnone, st => rfl
  | .vmodel _, st => rfl
  | .vres r, st => by
    simp only [collectRefs, refOccs, addRefs]
    rfl
  | .vblob r, st => by
    simp only [collectRefs, refOccs, addRefs]
    rfl
  | .vlist vs, st => by
    simp only [collectRefs, refOccs]
    exact collectRefsList_eq_addRefs vs st
  | .vtuple vs, st => by
    simp only [collectRefs, refOccs]
    exact collectRefsList_eq_addRefs vs st
  | .vdict kvs, st => by
    simp only [collectRefs, refOccs]
    exact collectRefsKVs_eq_addRefs kvs st

theorem collectRefsList_eq_addRefs : ∀ (vs : List Value) (st : List Str × List DepRef),
    collectRefsList vs st = addRefs st (refOccsList vs)
  | [], st => rfl
  | v :: vs, st => by
    simp only [collectRefsList, refOccsList, addRefs_append]
    rw [collectRefs_eq_addRefs v st, collectRefsList_eq_addRefs vs _]

theorem collectRefsKVs_eq_addRefs : ∀ (kvs : List (Str × Value)) (st : List Str × List DepRef),
    collectRefsKVs kvs st = addRefs st (refOccsKVs kvs)
  | [], st => rfl
  | (_, v) :: kvs, st => by
    simp only [collectRefsKVs, refOccsKVs, addRefs_append]
    rw [collectRefs_eq_addRefs v st, collectRefsKVs_eq_addRefs kvs _]
end

theorem addRefs_snd (seen : List Str) (acc : List DepRef) (occs : List DepRef) :
    (addRefs (seen, acc) occs).2 = acc ++ dedupByTok seen occs := by
  induction occs generalizing seen acc with
  | nil => simp [addRefs, dedupByTok]
  | cons r rs ih =>
    by_cases hmem : r.toStr ∈ seen
    · simp [addRefs, dedupByTok, hmem, ih]
    · simp [addRefs, dedupByTok, hmem, ih]

/-- The two distinct references sharing one serialized token. -/
def c7RefA : ResourceRef := ⟨⟨"a".toList, "b::c".toList⟩, []⟩

/-- The second reference of the colliding pair. -/
def c7RefB : ResourceRef := ⟨⟨"a".toList, "b".toList⟩, ["c".toList]⟩

/-- The spec containing both colliding references. -/
def c7CexSpec : Spec :=
  ⟨"app.M".toList,
    [("p".toList, .vres c7RefA), ("q".toList, .vres c7RefB)]⟩

/-- C7 counterexample: `find_refs` deduplicates by the serialized token
`str(ref)`, not by reference equality.  `c7RefA` and `c7RefB` are distinct
references (different key and attribute path) whose tokens coincide, so only
the first is returned even though both occur in the attribute tree: the claim
that every distinct reference appears exactly once fails. -/
theorem c7_findRefs_cex :
    c7CexSpec.findRefs = [.res c7RefA] ∧ c7RefA ≠ c7RefB ∧
      ("q".toList, Value.vres c7RefB) ∈ c7CexSpec.attributes := by decide

/-- C7 (amended): `find_refs` returns exactly the dependency-creating
references (`ResourceRef` and `BlobRef`; `ModelRef` excluded) occurring
anywhere in the attribute tree, nested mappings and sequences included, in
order of first occurrence, deduplicated by serialized token (so of several
distinct references sharing one token only the first occurrence is listed). -/
theorem c7_findRefs (s : Spec) :
    s.findRefs = dedupByTok [] (refOccs (.vdict s.attributes)) := by
  unfold Spec.findRefs
  rw [collectRefs_eq_addRefs]
  exact addRefs_snd [] [] _

end Isekai

namespace Isekai

/-! ### Claim C9 — unrecognized or unparsable strings pass through -/

theorem hasPfx_exists {p s : Str} (h : hasPfx p s = true) : ∃ t, s = p ++ t := by
  induction p generalizing s with
  | nil => exact ⟨s, rfl⟩
  | cons c p ih =>
    cases s with
    | nil => simp [hasPfx] at h
    | cons d rest =>
      simp only [hasPfx, Bool.and_eq_true_iff, decide_eq_true_iff] at h
      obtain ⟨t, ht⟩ := ih h.2
      exact ⟨t, by simp [h.1, ht]⟩

/-- C9: when `Spec.from_dict` deserializes a string attribute value, any
string whose prefix is not one of the three recognized reference prefixes, or
which carries a recognized prefix but whose parse raises `ValueError`, is
returned unchanged as a literal string.  (`deserializeValue` is a total
function: the embedded `try/except ValueError` never lets an error escape on
account of a string attribute value.) -/
theorem c9_string_passthrough (s : Str)
    (h : (hasPfx resPfx s = false ∧ hasPfx blobPfx s = false ∧
            hasPfx modelPfx s = false) ∨
         (hasPfx resPfx s = true ∧ ∃ e, ResourceRef.fromString s = .error e) ∨
         (hasPfx blobPfx s = true ∧ ∃ e, BlobRef.fromString s = .error e) ∨
         (hasPfx modelPfx s = true ∧ ∃ e, ModelRef.fromString s = .error e)) :
    deserializeValue (.vstr s) = .vstr s := by
  have hres : deserializeValue (.vstr s) = deserializeStr s := rfl
  rw [hres, deserializeStr]
  rcases h with ⟨h1, h2, h3⟩ | ⟨h1, e, he⟩ | ⟨h1, e, he⟩ | ⟨h1, e, he⟩
  · rw [h1, h2, h3]
    simp
  · rw [h1, he]
    simp
  · obtain ⟨t, rfl⟩ := hasPfx_exists h1
    rw [hasPfx_res_of_blob, h1, he]
    simp
  · obtain ⟨t, rfl⟩ := hasPfx_exists h1
    rw [hasPfx_res_of_model, hasPfx_blob_of_model, h1, he]
    simp

/-- Witness for C9 at both hypothesis shapes: the plain string `"hello"` (no
recognized prefix) and the string `"isekai-blob-ref:\oops"` (blob prefix but
an unparsable key) both deserialize to themselves. -/
theorem c9_string_passthrough_witness :
    deserializeValue (.vstr "hello".toList) = .vstr "hello".toList ∧
      deserializeValue (.vstr "isekai-blob-ref:\\oops".toList) =
        .vstr "isekai-blob-ref:\\oops".toList :=
  ⟨c9_string_passthrough _ (Or.inl (by decide)),
   c9_string_passthrough _ (Or.inr (Or.inr (Or.inl
     ⟨by decide, "Invalid key format", by rfl⟩)))⟩

end Isekai

namespace Isekai

/-! ### Claim C10 — dynamic attribute capture on references

Python attribute lookup on a `ResourceRef` / `ModelRef` instance finds the
instance slots and the names defined in the class body; for every other name
`__getattr__` runs.  The result of an attribute access is modelled by a sum:
either the stored value of an existing attribute, or the new reference built
by `__getattr__`.  (Attributes inherited from `object` are outside the
model.) -/

/-- Result of `getattr` on a `ResourceRef`. -/
inductive RRefAttrResult : Type where
  | keyVal : Key → RRefAttrResult
  | pathVal : List Str → RRefAttrResult
  | classAttr : RRefAttrResult
  | extended : ResourceRef → RRefAttrResult
deriving DecidableEq

/-- Names found on a `ResourceRef` without invoking `__getattr__`: the two
instance slots and the names defined in the class body. -/
def ResourceRef.existingAttrs : List Str :=
  ["key".toList, "ref_attr_path".toList, "_prefix".toList, "__init__".toList,
   "__getattr__".toList, "__eq__".toList, "__hash__".toList,
   "from_string".toList, "__str__".toList]

/-- Python `getattr(r, n)` on a `ResourceRef` (`ResourceRef.__getattr__`
handles every name that is not an existing attribute and returns a new
reference with the path extended by that name). -/
def ResourceRef.getattr (r : ResourceRef) (n : Str) : RRefAttrResult :=
  if n = "key".toList then .keyVal r.key
  else if n = "ref_attr_path".toList then .pathVal r.ref_attr_path
  else if n ∈ ResourceRef.existingAttrs then .classAttr
  else .extended ⟨r.key, r.ref_attr_path ++ [n]⟩

/-- Result of `getattr` on a `ModelRef`. -/
inductive MRefAttrResult : Type where
  | ctVal : Str → MRefAttrResult
  | kwargsVal : List (Str × Str) → MRefAttrResult
  | pathVal : List Str → MRefAttrResult
  | classAttr : MRefAttrResult
  | extended : ModelRef → MRefAttrResult
deriving DecidableEq

/-- Names found on a `ModelRef` without invoking `__getattr__`. -/
def ModelRef.existingAttrs : List Str :=
  ["ref_content_type".toList, "ref_lookup_kwargs".toList,
   "ref_attr_path".toList, "_prefix".toList, "__init__".toList,
   "__getattr__".toList, "__eq__".toList, "__hash__".toList,
   "from_string".toList, "__str__".toList]

/-- Python `getattr(m, n)` on a `ModelRef`. -/
def ModelRef.getattr (m : ModelRef) (n : Str) : MRefAttrResult :=
  if n = "ref_content_type".toList then .ctVal m.ref_content_type
  else if n = "ref_lookup_kwargs".toList then .kwargsVal m.ref_lookup_kwargs
  else if n = "ref_attr_path".toList then .pathVal m.ref_attr_path
  else if n ∈ ModelRef.existingAttrs then .classAttr
  else .extended ⟨m.ref_content_type, m.ref_lookup_kwargs, m.ref_attr_path ++ [n]⟩

/-- C10: for every `ResourceRef` or `ModelRef` and every attribute name that
is not an existing attribute of the object, `getattr` does not raise
`AttributeError`: it returns a new reference identical to the original except
that its attribute path is extended by the accessed name, and the new
reference is distinct from the original (the original, an immutable value, is
unchanged).  A misspelled attribute silently becomes a longer path. -/
theorem c10_getattr_extends (r : ResourceRef) (m : ModelRef) (n : Str)
    (hr : n ∉ ResourceRef.existingAttrs) (hm : n ∉ ModelRef.existingAttrs) :
    r.getattr n = .extended ⟨r.key, r.ref_attr_path ++ [n]⟩ ∧
      (⟨r.key, r.ref_attr_path ++ [n]⟩ : ResourceRef) ≠ r ∧
      m.getattr n = .extended
        ⟨m.ref_content_type, m.ref_lookup_kwargs, m.ref_attr_path ++ [n]⟩ ∧
      (⟨m.ref_content_type, m.ref_lookup_kwargs, m.ref_attr_path ++ [n]⟩ :
        ModelRef) ≠ m := by
  have hr1 : n ≠ "key".toList := fun hc => hr (by simp [ResourceRef.existingAttrs, hc])
  have hr2 : n ≠ "ref_attr_path".toList := fun hc => hr (by simp [ResourceRef.existingAttrs, hc])
  have hm1 : n ≠ "ref_content_type".toList := fun hc => hm (by simp [ModelRef.existingAttrs, hc])
  have hm2 : n ≠ "ref_lookup_kwargs".toList := fun hc => hm (by simp [ModelRef.existingAttrs, hc])
  have hm3 : n ≠ "ref_attr_path".toList := fun hc => hm (by simp [ModelRef.existingAttrs, hc])
  refine ⟨?_, ?_, ?_, ?_⟩
  · rw [ResourceRef.getattr, if_neg hr1, if_neg hr2, if_neg hr]
  · intro hc
    have := congrArg (fun x : ResourceRef => x.ref_attr_path.length) hc
    simp at this
  · rw [ModelRef.getattr, if_neg hm1, if_neg hm2, if_neg hm3, if_neg hm]
  · intro hc
    have := congrArg (fun x : ModelRef => x.ref_attr_path.length) hc
    simp at this

/-- Witness for C10 at the name `"attr_path"` — not an attribute of either
class (the instance slots are named `ref_attr_path`), so the access is
captured and extends the path. -/
theorem c10_getattr_extends_witness :
    ("attr_path".toList ∉ ResourceRef.existingAttrs) ∧
      (ResourceRef.getattr ⟨⟨"a".toList, "b".toList⟩, []⟩ "attr_path".toList =
        .extended ⟨⟨"a".toList, "b".toList⟩, ["attr_path".toList]⟩) := by
  refine ⟨by decide, ?_⟩
  exact (c10_getattr_extends ⟨⟨"a".toList, "b".toList⟩, []⟩
    ⟨"x.Y".toList, [], []⟩ "attr_path".toList (by decide) (by decide)).1

end Isekai

namespace Isekai

/-! ### `src/isekai/loaders.py` — placeholder policy (claim C6)

`_build_temp_fk_mapping` walks the phase's specs once, giving each `Key` a
temporary primary-key value: a fresh `uuid4()` when the target model's pk is a
`UUIDField`, otherwise the next value of a counter starting at `-1000000` and
decreasing.  `uuid4()` draws are modelled by an injected stream
`u : Nat → Nat` (call number ↦ drawn uuid); distinctness of draws is the
standard idealization of uuid4 stated as an injectivity hypothesis.
`timezone.now()` is modelled by a clock value passed in. -/

/-- A temporary primary-key value: a negative counter value or a uuid draw. -/
inductive TempPk : Type where
  | intId : Int → TempPk
  | uuidId : Nat → TempPk
deriving DecidableEq

/-- `_build_temp_fk_mapping`, fold state: remaining `(key, pk-internal-type)`
pairs, current counter, number of uuid draws made so far. -/
def buildTempFkAux (u : Nat → Nat) :
    List (Key × Str) → Int → Nat → List (Key × TempPk)
  | [], _, _ => []
  | (k, pkType) :: rest, tempId, uidx =>
    if pkType = "UUIDField".toList then
      (k, .uuidId (u uidx)) :: buildTempFkAux u rest tempId (uidx + 1)
    else
      (k, .intId tempId) :: buildTempFkAux u rest (tempId - 1) uidx

/-- `_build_temp_fk_mapping` (each spec key paired with the internal type of
its target model's primary-key field). -/
def buildTempFkMapping (u : Nat → Nat) (specs : List (Key × Str)) :
    List (Key × TempPk) :=
  buildTempFkAux u specs (-1000000) 0

/-- A temporary placeholder value produced by `_get_temp_value_for_field`. -/
inductive TmpVal : Type where
  | fk : TempPk → TmpVal
  | intV : Int → TmpVal
  | strV : Str → TmpVal
  | boolV : Bool → TmpVal
  | nowV : Nat → TmpVal
  | dateV : Nat → TmpVal
  | timeV : Nat → TmpVal
  | ratV : Rat → TmpVal
  | uuidV : Nat → TmpVal
deriving DecidableEq

/-- `_get_temp_value_for_field`: placeholder keyed by the field's internal
type.  `tempFk` is the entry `key_to_temp_fk[ref_key]`; `now` the current
clock; `freshU` the next `uuid4()` draw (used for non-pk UUID fields).
`none` models Python `None` (no placeholder assigned). -/
def getTempValueForField (fieldType : Str) (tempFk : TempPk) (now : Nat)
    (freshU : Nat) : Option TmpVal :=
  if fieldType = "ForeignKey".toList ∨ fieldType = "OneToOneField".toList then
    some (.fk tempFk)
  else if fieldType ∈ ["IntegerField".toList, "PositiveIntegerField".toList,
      "BigIntegerField".toList, "SmallIntegerField".toList] then
    some (.intV (-999999))
  else if fieldType ∈ ["CharField".toList, "TextField".toList,
      "EmailField".toList, "URLField".toList, "SlugField".toList] then
    some (.strV "temp_value".toList)
  else if fieldType = "BooleanField".toList then
    some (.boolV false)
  else if fieldType = "DateTimeField".toList then
    some (.nowV now)
  else if fieldType = "DateField".toList then
    some (.dateV now)
  else if fieldType = "TimeField".toList then
    some (.timeV now)
  else if fieldType ∈ ["FloatField".toList, "DecimalField".toList] then
    some (.ratV (-999999 / 1000 : Rat))
  else if fieldType = "UUIDField".toList then
    some (.uuidV freshU)
  else
    none

end Isekai

namespace Isekai

/-- `_create_object`, internal-reference branch: assign the temp value if one
was produced, silently leave the field unset otherwise (there is no error
branch). -/
def assignTempForInternalRef (objFields : List (Str × TmpVal)) (fieldName : Str)
    (fieldType : Str) (tempFk : TempPk) (now freshU : Nat) :
    List (Str × TmpVal) :=
  match getTempValueForField fieldType tempFk now freshU with
  | some tv => objFields ++ [(fieldName, tv)]
  | none => objFields

theorem buildTempFkAux_fst (u : Nat → Nat) :
    ∀ (l : List (Key × Str)) (tempId : Int) (uidx : Nat),
      (buildTempFkAux u l tempId uidx).map Prod.fst = l.map Prod.fst
  | [], _, _ => rfl
  | (k, t) :: rest, tempId, uidx => by
    unfold buildTempFkAux
    split <;> simp [buildTempFkAux_fst u rest]

theorem buildTempFkAux_mem (u : Nat → Nat) :
    ∀ (l : List (Key × Str)) (tempId : Int) (uidx : Nat) (p : Key × TempPk),
      p ∈ buildTempFkAux u l tempId uidx →
      (∀ n, p.2 = .intId n → n ≤ tempId) ∧
      (∀ x, p.2 = .uuidId x → ∃ i, uidx ≤ i ∧ x = u i) := by
  intro l
  induction l with
  | nil => intro tempId uidx p hp; simp [buildTempFkAux] at hp
  | cons kt rest ih =>
    intro tempId uidx p hp
    obtain ⟨k, t⟩ := kt
    by_cases h : t = "UUIDField".toList
    · simp only [buildTempFkAux, if_pos h, List.mem_cons] at hp
      rcases hp with rfl | hp
      · exact ⟨by simp, fun x hx => ⟨uidx, le_refl _, by simpa using hx.symm⟩⟩
      · obtain ⟨h1, h2⟩ := ih (tempId) (uidx + 1) p hp
        refine ⟨h1, fun x hx => ?_⟩
        obtain ⟨i, hi, rfl⟩ := h2 x hx
        exact ⟨i, by omega, rfl⟩
    · simp only [buildTempFkAux, if_neg h, List.mem_cons] at hp
      rcases hp with rfl | hp
      · exact ⟨fun n hn => by simp at hn; omega, fun x hx => by simp at hx⟩
      · obtain ⟨h1, h2⟩ := ih (tempId - 1) uidx p hp
        refine ⟨fun n hn => ?_, h2⟩
        have := h1 n hn
        omega

theorem buildTempFkAux_snd_nodup (u : Nat → Nat) (hu : Function.Injective u) :
    ∀ (l : List (Key × Str)) (tempId : Int) (uidx : Nat),
      ((buildTempFkAux u l tempId uidx).map Prod.snd).Nodup := by
  intro l
  induction l with
  | nil => intro tempId uidx; simp [buildTempFkAux]
  | cons kt rest ih =>
    intro tempId uidx
    obtain ⟨k, t⟩ := kt
    by_cases h : t = "UUIDField".toList
    · simp only [buildTempFkAux, if_pos h, List.map_cons, List.nodup_cons]
      refine ⟨?_, ih tempId (uidx + 1)⟩
      intro hmem
      simp only [List.mem_map] at hmem
      obtain ⟨p, hp, hp2⟩ := hmem
      obtain ⟨-, h2⟩ := buildTempFkAux_mem u rest tempId (uidx + 1) p hp
      obtain ⟨i, hi, hx⟩ := h2 (u uidx) hp2
      exact absurd (hu hx) (by omega)
    · simp only [buildTempFkAux, if_neg h, List.map_cons, List.nodup_cons]
      refine ⟨?_, ih (tempId - 1) uidx⟩
      intro hmem
      simp only [List.mem_map] at hmem
      obtain ⟨p, hp, hp2⟩ := hmem
      obtain ⟨h1, -⟩ := buildTempFkAux_mem u rest (tempId - 1) uidx p hp
      have := h1 tempId hp2
      omega

/-- C6 counterexample: a field of unknown kind — internal type
`"BinaryField"`, handled by no branch — receives no placeholder and, contrary
to the claim, no configuration error is surfaced for non-nullable fields
either: the field is silently omitted from the constructed kwargs
(nullability is never even consulted). -/
theorem c6_placeholder_cex :
    getTempValueForField "BinaryField".toList (.intId (-1000000)) 0 0 = none ∧
      assignTempForInternalRef [] "payload".toList "BinaryField".toList
        (.intId (-1000000)) 0 0 = [] := by decide

/-- The internal types `_get_temp_value_for_field` handles. -/
def handledFieldTypes : List Str :=
  ["ForeignKey".toList, "OneToOneField".toList, "IntegerField".toList,
   "PositiveIntegerField".toList, "BigIntegerField".toList,
   "SmallIntegerField".toList, "CharField".toList, "TextField".toList,
   "EmailField".toList, "URLField".toList, "SlugField".toList,
   "BooleanField".toList, "DateTimeField".toList, "DateField".toList,
   "TimeField".toList, "FloatField".toList, "DecimalField".toList,
   "UUIDField".toList]

/-- C6 (amended): the placeholder assigned to a same-phase reference is
determined by the field's internal type: identifier-linking (FK / one-to-one)
fields get the synthetic per-key temp identifier — the temp mapping is built
once per phase, covers exactly the phase's keys in order, and (uuid draws
being distinct) assigns pairwise distinct identifiers; text-kind fields get
the reserved string `"temp_value"`; integer fields the sentinel `-999999` and
float/decimal fields `-999.999`; temporal fields the current time; boolean
fields `False`; a field of any unhandled kind gets no placeholder and is
silently omitted — no configuration error is raised, whether or not the field
is nullable. -/
theorem c6_placeholder_policy (u : Nat → Nat) (hu : Function.Injective u)
    (specs : List (Key × Str)) (ft : Str) (tempFk : TempPk) (now freshU : Nat) :
    ((ft = "ForeignKey".toList ∨ ft = "OneToOneField".toList) →
      getTempValueForField ft tempFk now freshU = some (.fk tempFk)) ∧
    ((buildTempFkMapping u specs).map Prod.fst = specs.map Prod.fst) ∧
    ((buildTempFkMapping u specs).map Prod.snd).Nodup ∧
    (ft ∈ ["CharField".toList, "TextField".toList, "EmailField".toList,
        "URLField".toList, "SlugField".toList] →
      getTempValueForField ft tempFk now freshU =
        some (.strV "temp_value".toList)) ∧
    (ft ∈ ["IntegerField".toList, "PositiveIntegerField".toList,
        "BigIntegerField".toList, "SmallIntegerField".toList] →
      getTempValueForField ft tempFk now freshU = some (.intV (-999999))) ∧
    (ft ∈ ["FloatField".toList, "DecimalField".toList] →
      getTempValueForField ft tempFk now freshU =
        some (.ratV (-999999 / 1000 : Rat))) ∧
    (ft = "DateTimeField".toList →
      getTempValueForField ft tempFk now freshU = some (.nowV now)) ∧
    (ft = "BooleanField".toList →
      getTempValueForField ft tempFk now freshU = some (.boolV false)) ∧
    (ft ∉ handledFieldTypes →
      getTempValueForField ft tempFk now freshU = none ∧
        ∀ (objFields : List (Str × TmpVal)) (fieldName : Str),
          assignTempForInternalRef objFields fieldName ft tempFk now freshU =
            objFields) := by
  refine ⟨?_, buildTempFkAux_fst u specs _ _, buildTempFkAux_snd_nodup u hu specs _ _,
    ?_, ?_, ?_, ?_, ?_, ?_⟩
  · rintro (rfl | rfl) <;> rfl
  · intro hft
    fin_cases hft <;> rfl
  · intro hft
    fin_cases hft <;> rfl
  · intro hft
    fin_cases hft <;> rfl
  · rintro rfl
    rfl
  · rintro rfl
    rfl
  · intro hft
    simp only [handledFieldTypes, List.mem_cons, not_or, List.not_mem_nil] at hft
    obtain ⟨h1, h2, h3, h4, h5, h6, h7, h8, h9, h10, h11, h12, h13, h14, h15,
      h16, h17, h18, -⟩ := hft
    have hnone : getTempValueForField ft tempFk now freshU = none := by
      unfold getTempValueForField
      rw [if_neg (by tauto)]
      rw [if_neg (by simp only [List.mem_cons, List.not_mem_nil, or_false]; tauto)]
      rw [if_neg (by simp only [List.mem_cons, List.not_mem_nil, or_false]; tauto)]
      rw [if_neg h12, if_neg h13, if_neg h14, if_neg h15]
      rw [if_neg (by simp only [List.mem_cons, List.not_mem_nil, or_false]; tauto)]
      rw [if_neg h18]
    exact ⟨hnone, fun objFields fieldName => by
      simp [assignTempForInternalRef, hnone]⟩

/-- Witness for C6 with the identity uuid stream and a `CharField`: the text
placeholder conjunct, instantiated and applied. -/
theorem c6_placeholder_policy_witness :
    getTempValueForField "CharField".toList (.intId (-1000000)) 7 0 =
      some (.strV "temp_value".toList) :=
  (c6_placeholder_policy id (fun _ _ h => h)
    [(⟨"page".toList, "a".toList⟩, "AutoField".toList),
     (⟨"page".toList, "b".toList⟩, "UUIDField".toList),
     (⟨"page".toList, "c".toList⟩, "AutoField".toList)]
    "CharField".toList (.intId (-1000000)) 7 0).2.2.2.1 (by decide)

end Isekai

namespace Isekai

/-! ### Claim C5 — scalar backfill pass (`ModelLoader.load`, lines 57–67)

The pass iterates `ref.attr_path`.  `ResourceRef.__init__` stores the path in
the slot named `ref_attr_path`, so the access `ref.attr_path` does not find an
attribute and is intercepted by `__getattr__`, which returns a *new
`ResourceRef`* whose path ends in `"attr_path"`.  `ResourceRef` defines
neither `__iter__` nor `__getitem__` (implicit special-method lookup bypasses
`__getattr__`), so `for attr in ref.attr_path` raises `TypeError`. -/

/-- The value obtained by evaluating the Python expression `ref.attr_path` and
then asking it for an iterator: only a genuine tuple/list value would iterate;
the intercepted access yields a `ResourceRef`, which raises `TypeError`. -/
def iterRefAttrPath (r : ResourceRef) : Except Str (List Str) :=
  match ResourceRef.getattr r "attr_path".toList with
  | .pathVal p => .ok p
  | _ => .error "TypeError: 'ResourceRef' object is not iterable".toList

/-- The scalar backfill loop of `ModelLoader.load`: for each deferred
`(obj_key, field_name, ref)`, look the referenced object up in the identifier
map, iterate the attribute path, then traverse/assign/save — the part after
the iteration is abstracted as `applyBackfill`, because (as proved below) the
iteration raises before it can ever run. -/
def scalarBackfillPass {σ : Type} (keyToObject : List (Key × Nat))
    (applyBackfill : σ → Key → Str → Nat → List Str → σ) :
    List (Key × Str × ResourceRef) → σ → Except Str σ
  | [], s => .ok s
  | (objKey, fieldName, ref) :: rest, s =>
    match List.lookup ref.key keyToObject with
    | none => .error "KeyError".toList
    | some refObj =>
      match iterRefAttrPath ref with
      | .error e => .error e
      | .ok attrs =>
        scalarBackfillPass keyToObject applyBackfill rest
          (applyBackfill s objKey fieldName refObj attrs)

/-- C5 (code bug): whenever the create pass deferred at least one same-phase
scalar reference whose key is in the identifier map, the scalar backfill pass
raises `TypeError` instead of substituting the real value: the access
`ref.attr_path` is intercepted by `__getattr__` (the instance slot is
`ref_attr_path`) and returns a fresh `ResourceRef`, which is not iterable.
No placeholder is ever replaced; the exception aborts the whole phase. -/
theorem c5_scalar_backfill_raises {σ : Type} (keyToObject : List (Key × Nat))
    (applyBackfill : σ → Key → Str → Nat → List Str → σ)
    (objKey : Key) (fieldName : Str) (ref : ResourceRef)
    (rest : List (Key × Str × ResourceRef)) (s : σ) (objId : Nat)
    (hk : List.lookup ref.key keyToObject = some objId) :
    iterRefAttrPath ref =
        .error "TypeError: 'ResourceRef' object is not iterable".toList ∧
      scalarBackfillPass keyToObject applyBackfill
        ((objKey, fieldName, ref) :: rest) s =
        .error "TypeError: 'ResourceRef' object is not iterable".toList := by
  have hiter : iterRefAttrPath ref =
      .error "TypeError: 'ResourceRef' object is not iterable".toList := by
    rw [iterRefAttrPath]
    have : ResourceRef.getattr ref "attr_path".toList =
        .extended ⟨ref.key, ref.ref_attr_path ++ ["attr_path".toList]⟩ := by
      rw [ResourceRef.getattr, if_neg (by decide), if_neg (by decide),
        if_neg (by decide)]
    rw [this]
  refine ⟨hiter, ?_⟩
  rw [scalarBackfillPass, hk]
  simp only [hiter]

/-- Witness for C5: a one-element `pending_refs` with the referenced key in
the identifier map ends in the `TypeError`. -/
theorem c5_scalar_backfill_raises_witness :
    scalarBackfillPass (σ := Unit) [(⟨"page".toList, "b".toList⟩, 1)]
        (fun s _ _ _ _ => s)
        [(⟨"page".toList, "a".toList⟩, "author".toList,
          ⟨⟨"page".toList, "b".toList⟩, []⟩)] () =
      .error "TypeError: 'ResourceRef' object is not iterable".toList :=
  (c5_scalar_backfill_raises [(⟨"page".toList, "b".toList⟩, 1)]
    (fun s _ _ _ _ => s) ⟨"page".toList, "a".toList⟩ "author".toList
    ⟨⟨"page".toList, "b".toList⟩, []⟩ [] () 1 (by rfl)).2

end Isekai

namespace Isekai

/-! ### Claim C8 — structured (JSON) field backfill
(`ModelLoader._update_json_fields` / `_resolve_refs`)

A model instance is only consulted for its primary key here, so resolver
results and identifier-map entries are modelled as records with a single `pk`
field.  The object's JSON fields are modelled as an association list from
field name to stored value. -/

/-- The only attribute `_resolve_refs` reads off a resolved model instance. -/
structure PyObj where
  pk : Int
deriving DecidableEq

mutual
/-- `_resolve_refs`: replace `ResourceRef`s (identifier map first, `resolver`
as fallback) and `ModelRef`s (always `resolver`) by the resolved object's
`pk`, recursing through dicts and lists; everything else — including
`BlobRef`s and the contents of tuples — is returned unchanged. -/
def resolveRefs (kto : Key → Option PyObj) (rr : ResourceRef → PyObj)
    (rm : ModelRef → PyObj) : Value → Value
  | .vres r =>
    .vint (match kto r.key with
           | some o => o.pk
           | none => (rr r).pk)
  | .vmodel m => .vint (rm m).pk
  | .vdict kvs => .vdict (resolveRefsKVs kto rr rm kvs)
  | .vlist vs => .vlist (resolveRefsList kto rr rm vs)
  | v => v

/-- `_resolve_refs` over a list's items. -/
def resolveRefsList (kto : Key → Option PyObj) (rr : ResourceRef → PyObj)
    (rm : ModelRef → PyObj) : List Value → List Value
  | [] => []
  | v :: vs => resolveRefs kto rr rm v :: resolveRefsList kto rr rm vs

/-- `_resolve_refs` over a dict's items. -/
def resolveRefsKVs (kto : Key → Option PyObj) (rr : ResourceRef → PyObj)
    (rm : ModelRef → PyObj) : List (Str × Value) → List (Str × Value)
  | [] => []
  | (k, v) :: kvs => (k, resolveRefs kto rr rm v) :: resolveRefsKVs kto rr rm kvs
end

/-- Python `setattr` on the modelled JSON-field store: overwrite the field if
present, set it otherwise. -/
def setattrJson (l : List (Str × Value)) (k : Str) (v : Value) :
    List (Str × Value) :=
  match l with
  | [] => [(k, v)]
  | (k2, v2) :: rest =>
    if k2 = k then (k2, v) :: rest else (k2, v2) :: setattrJson rest k v

/-- Body of the `_update_json_fields` loop: state is the object's JSON fields
plus the `updated` flag; a JSON field named in the spec's attributes is
resolved and assigned only when the resolved value differs. -/
def ujfStep (kto : Key → Option PyObj) (rr : ResourceRef → PyObj)
    (rm : ModelRef → PyObj) (specAttrs : List (Str × Value))
    (st : List (Str × Value) × Bool) (jf : Str) : List (Str × Value) × Bool :=
  match List.lookup jf specAttrs with
  | none => st
  | some fv =>
    let resolved := resolveRefs kto rr rm fv
    if resolved ≠ fv then (setattrJson st.1 jf resolved, true) else st

/-- `_update_json_fields`: for each JSON field of the model named in the
spec's attributes, resolve the attribute value; assign it only when the
resolved value differs.  The returned boolean is `updated`, i.e. whether
`obj.save()` runs at the end. -/
def updateJsonFields (jsonFields : List Str) (specAttrs : List (Str × Value))
    (objJson : List (Str × Value)) (kto : Key → Option PyObj)
    (rr : ResourceRef → PyObj) (rm : ModelRef → PyObj) :
    List (Str × Value) × Bool :=
  jsonFields.foldl (ujfStep kto rr rm specAttrs) (objJson, false)

mutual
/-- Does the value still contain a `ResourceRef` or `ModelRef`? -/
def hasRM : Value → Bool
  | .vres _ => true
  | .vmodel _ => true
  | .vdict kvs => hasRMKVs kvs
  | .vlist vs => hasRMList vs
  | .vtuple vs => hasRMList vs
  | _ => false

/-- `hasRM` over a list's items. -/
def hasRMList : List Value → Bool
  | [] => false
  | v :: vs => hasRM v || hasRMList vs

/-- `hasRM` over a dict's items. -/
def hasRMKVs : List (Str × Value) → Bool
  | [] => false
  | (_, v) :: kvs => hasRM v || hasRMKVs kvs
end

mutual
/-- Does the value contain a tuple?  `Spec.from_dict` never produces one. -/
def hasTup : Value → Bool
  | .vtuple _ => true
  | .vdict kvs => hasTupKVs kvs
  | .vlist vs => hasTupList vs
  | _ => false

/-- `hasTup` over a list's items. -/
def hasTupList : List Value → Bool
  | [] => false
  | v :: vs => hasTup v || hasTupList vs

/-- `hasTup` over a dict's items. -/
def hasTupKVs : List (Str × Value) → Bool
  | [] => false
  | (_, v) :: kvs => hasTup v || hasTupKVs kvs
end

end Isekai

namespace Isekai

mutual
theorem resolveRefs_no_rm (kto : Key → Option PyObj) (rr : ResourceRef → PyObj)
    (rm : ModelRef → PyObj) : ∀ v : Value, hasTup v = false →
      hasRM (resolveRefs kto rr rm v) = false
  | .vstr _, _ => rfl
  | .vint _, _ => rfl
  | .vbool _, _ => rfl
  | .vnone, _ => rfl
  | .vblob _, _ => rfl
  | .vres r, _ => by
    simp [resolveRefs, hasRM]
  | .vmodel m, _ => by
    simp [resolveRefs, hasRM]
  | .vtuple _, h => by simp [hasTup] at h
  | .vlist vs, h => by
    simp only [resolveRefs]
    show hasRMList (resolveRefsList kto rr rm vs) = false
    exact resolveRefsList_no_rm kto rr rm vs (by simpa [hasTup] using h)
  | .vdict kvs, h => by
    simp only [resolveRefs]
    show hasRMKVs (resolveRefsKVs kto rr rm kvs) = false
    exact resolveRefsKVs_no_rm kto rr rm kvs (by simpa [hasTup] using h)

theorem resolveRefsList_no_rm (kto : Key → Option PyObj)
    (rr : ResourceRef → PyObj) (rm : ModelRef → PyObj) :
    ∀ vs : List Value, hasTupList vs = false →
      hasRMList (resolveRefsList kto rr rm vs) = false
  | [], _ => rfl
  | v :: vs, h => by
    have h2 := Bool.or_eq_false_iff.mp (by simpa [hasTupList] using h)
    simp only [resolveRefsList, hasRMList, Bool.or_eq_false_iff]
    exact ⟨resolveRefs_no_rm kto rr rm v h2.1,
      resolveRefsList_no_rm kto rr rm vs h2.2⟩

theorem resolveRefsKVs_no_rm (kto : Key → Option PyObj)
    (rr : ResourceRef → PyObj) (rm : ModelRef → PyObj) :
    ∀ kvs : List (Str × Value), hasTupKVs kvs = false →
      hasRMKVs (resolveRefsKVs kto rr rm kvs) = false
  | [], _ => rfl
  | (k, v) :: kvs, h => by
    have h2 := Bool.or_eq_false_iff.mp (by simpa [hasTupKVs] using h)
    simp only [resolveRefsKVs, hasRMKVs, Bool.or_eq_false_iff]
    exact ⟨resolveRefs_no_rm kto rr rm v h2.1,
      resolveRefsKVs_no_rm kto rr rm kvs h2.2⟩
end

theorem ujfStep_of_none {kto rr rm specAttrs} {jf : Str}
    (h : List.lookup jf specAttrs = none) (st : List (Str × Value) × Bool) :
    ujfStep kto rr rm specAttrs st jf = st := by
  simp [ujfStep, h]

theorem ujfStep_of_unchanged {kto rr rm specAttrs} {jf : Str} {fv : Value}
    (h : List.lookup jf specAttrs = some fv)
    (he : resolveRefs kto rr rm fv = fv) (st : List (Str × Value) × Bool) :
    ujfStep kto rr rm specAttrs st jf = st := by
  simp [ujfStep, h, he]

theorem ujfStep_of_changed {kto rr rm specAttrs} {jf : Str} {fv : Value}
    (h : List.lookup jf specAttrs = some fv)
    (hne : resolveRefs kto rr rm fv ≠ fv) (st : List (Str × Value) × Bool) :
    ujfStep kto rr rm specAttrs st jf =
      (setattrJson st.1 jf (resolveRefs kto rr rm fv), true) := by
  simp [ujfStep, h, hne]

theorem ujfFold_updated_mono {kto rr rm specAttrs} (l : List Str)
    (st : List (Str × Value) × Bool) (h : st.2 = true) :
    (l.foldl (ujfStep kto rr rm specAttrs) st).2 = true := by
  induction l generalizing st with
  | nil => exact h
  | cons jf rest ih =>
    simp only [List.foldl_cons]
    rcases hl : List.lookup jf specAttrs with _ | fv
    · rw [ujfStep_of_none hl]
      exact ih st h
    · by_cases hc : resolveRefs kto rr rm fv = fv
      · rw [ujfStep_of_unchanged hl hc]
        exact ih st h
      · rw [ujfStep_of_changed hl hc]
        exact ih _ rfl

theorem ujfFold_of_all_unchanged {kto rr rm specAttrs} (l : List Str)
    (st : List (Str × Value) × Bool)
    (h : ∀ jf ∈ l, ∀ fv, List.lookup jf specAttrs = some fv →
      resolveRefs kto rr rm fv = fv) :
    l.foldl (ujfStep kto rr rm specAttrs) st = st := by
  induction l generalizing st with
  | nil => rfl
  | cons jf rest ih =>
    simp only [List.foldl_cons]
    rcases hl : List.lookup jf specAttrs with _ | fv
    · rw [ujfStep_of_none hl]
      exact ih st (fun x hx fv2 hfv => h x (by simp [hx]) fv2 hfv)
    · rw [ujfStep_of_unchanged hl (h jf (by simp) fv hl)]
      exact ih st (fun x hx fv2 hfv => h x (by simp [hx]) fv2 hfv)

theorem ujfFold_false_id {kto rr rm specAttrs} (l : List Str)
    (st : List (Str × Value) × Bool)
    (h : (l.foldl (ujfStep kto rr rm specAttrs) st).2 = false) :
    l.foldl (ujfStep kto rr rm specAttrs) st = st := by
  induction l generalizing st with
  | nil => rfl
  | cons jf rest ih =>
    simp only [List.foldl_cons] at h ⊢
    rcases hl : List.lookup jf specAttrs with _ | fv
    · rw [ujfStep_of_none hl] at h ⊢
      exact ih st h
    · by_cases hc : resolveRefs kto rr rm fv = fv
      · rw [ujfStep_of_unchanged hl hc] at h ⊢
        exact ih st h
      · rw [ujfStep_of_changed hl hc] at h
        rw [ujfFold_updated_mono rest _ rfl] at h
        cases h

/-- The counterexample tree: a dict whose value is a `BlobRef`. -/
def c8CexVal : Value :=
  .vdict [("attachment".toList, .vblob ⟨⟨"image".toList, "logo".toList⟩⟩)]

/-- C8 counterexample: not every reference nested in a JSON-field value is
replaced by an identifier — a `BlobRef` inside the structure is matched by no
branch of `_resolve_refs` and survives resolution unchanged (and the object is
then not re-persisted, the value being unchanged). -/
theorem c8_json_backfill_cex :
    resolveRefs (fun _ => none) (fun _ => ⟨1⟩) (fun _ => ⟨2⟩) c8CexVal =
        c8CexVal ∧
      updateJsonFields ["data".toList] [("data".toList, c8CexVal)] []
        (fun _ => none) (fun _ => ⟨1⟩) (fun _ => ⟨2⟩) = ([], false) := by
  refine ⟨by rfl, by rfl⟩

/-- C8 (amended): during the structured-field backfill, every `ResourceRef`
and `ModelRef` nested inside a (tuple-free) JSON-field value is recursively
replaced by the referenced object's `pk` — same-phase keys through the
identifier map, everything else through the Resolver — while `BlobRef`s are
left in place; and the object is persisted again only if some JSON field's
resolved value differs from the pre-resolution attribute value (when nothing
changed, the object is returned untouched and not saved). -/
theorem c8_json_backfill (kto : Key → Option PyObj) (rr : ResourceRef → PyObj)
    (rm : ModelRef → PyObj) (v : Value) (htup : hasTup v = false)
    (jsonFields : List Str) (specAttrs : List (Str × Value))
    (objJson : List (Str × Value)) :
    hasRM (resolveRefs kto rr rm v) = false ∧
      (∀ r : ResourceRef, ∀ o : PyObj, kto r.key = some o →
        resolveRefs kto rr rm (.vres r) = .vint o.pk) ∧
      (∀ r : ResourceRef, kto r.key = none →
        resolveRefs kto rr rm (.vres r) = .vint (rr r).pk) ∧
      (∀ m : ModelRef, resolveRefs kto rr rm (.vmodel m) = .vint (rm m).pk) ∧
      (updateJsonFields jsonFields specAttrs objJson kto rr rm =
          (objJson, false) ∨
        ∃ jf ∈ jsonFields, ∃ fv, List.lookup jf specAttrs = some fv ∧
          resolveRefs kto rr rm fv ≠ fv) := by
  refine ⟨resolveRefs_no_rm kto rr rm v htup, ?_, ?_, ?_, ?_⟩
  · intro r o hr
    simp [resolveRefs, hr]
  · intro r hr
    simp [resolveRefs, hr]
  · intro m
    simp [resolveRefs]
  · by_cases hex : ∃ jf ∈ jsonFields, ∃ fv, List.lookup jf specAttrs = some fv ∧
        resolveRefs kto rr rm fv ≠ fv
    · exact Or.inr hex
    · left
      push_neg at hex
      exact ujfFold_of_all_unchanged jsonFields (objJson, false)
        (fun jf hjf fv hfv => hex jf hjf fv hfv)

/-- Witness for C8 at a mixed concrete input: a dict holding a same-phase
`ResourceRef`, an external `ModelRef` and a literal. -/
theorem c8_json_backfill_witness :
    hasRM (resolveRefs
      (fun k => if k = ⟨"page".toList, "b".toList⟩ then some ⟨7⟩ else none)
      (fun _ => ⟨8⟩) (fun _ => ⟨9⟩)
      (.vdict [("a".toList, .vres ⟨⟨"page".toList, "b".toList⟩, []⟩),
               ("m".toList, .vmodel ⟨"auth.User".toList, [], []⟩),
               ("t".toList, .vstr "x".toList)])) = false :=
  (c8_json_backfill
    (fun k => if k = ⟨"page".toList, "b".toList⟩ then some ⟨7⟩ else none)
    (fun _ => ⟨8⟩) (fun _ => ⟨9⟩)
    (.vdict [("a".toList, .vres ⟨⟨"page".toList, "b".toList⟩, []⟩),
             ("m".toList, .vmodel ⟨"auth.User".toList, [], []⟩),
             ("t".toList, .vstr "x".toList)])
    (by decide) [] [] []).1

end Isekai

namespace Isekai

/-! ### Claim C3 — `load` (`src/isekai/operations/load.py`) failure semantics

The phase loop is embedded over: a resource table keyed by the resource key
string (status, `target_object_id`, `last_error`, and a `has_data` flag for
`text_data or blob_data`; timestamp columns are read nowhere on these paths
and are elided), an object-store state of abstract type `σ` (the records the
loaders create), and the identifier map `key_to_obj`.  The loader stack
(`for loader in loaders: if created_objects := loader.load(specs, resolver)`)
is an abstract state transformer returning either the created `(key, pk)`
pairs and the new store, or the already-formatted exception message.  The
commit loop then walks `created_objects`: it inserts into `key_to_obj`,
looks the resource up, sets `target_object_id` and calls
`transition_to(Resource.Status.LOADED)` — which is `AbstractResource.
transition_to` of `src/isekai/models.py`, embedded below, and which has no
branch for that transition.  `transaction.atomic()` means that on an
exception the store and the resource rows revert to their values at the
start of the phase (`refresh_from_db` reloads the rolled-back rows), after
which only `last_error` is written for the phase's keys; `key_to_obj` is
plain Python state and keeps the entries added before the exception. -/

/-- `AbstractResource.Status` (src/isekai/models.py). -/
inductive RStatus : Type where
  | seeded
  | extracted
  | mined
  | transformed
  | loaded
deriving DecidableEq

/-- The status value strings (Django `TextChoices` values), as they are
formatted into the `TransitionError` message. -/
def RStatus.toStr : RStatus → Str
  | .seeded => "seeded".toList
  | .extracted => "extracted".toList
  | .mined => "mined".toList
  | .transformed => "transformed".toList
  | .loaded => "loaded".toList

/-- The columns of a resource row that `load` and `transition_to` touch. -/
structure DbRes where
  status : RStatus
  targetObjectId : Option Int
  lastError : Option Str
  hasData : Bool
deriving DecidableEq

/-- The `TransitionError` message
`f"Cannot transition from {self.status} to {next_status}"`. -/
def noTransitionMsg (s next : RStatus) : Str :=
  "Cannot transition from ".toList ++ s.toStr ++ " to ".toList ++ next.toStr

/-- `AbstractResource.transition_to` (src/isekai/models.py:84): only
`seeded → extracted` (requiring data) and `extracted → mined` exist; every
other pair — in particular `transformed → loaded` — raises
`TransitionError`. -/
def transitionTo (r : DbRes) (next : RStatus) : Except Str DbRes :=
  if r.status = .seeded ∧ next = .extracted then
    if r.hasData = false then
      .error "Cannot transition to EXTRACTED without data".toList
    else
      .ok { r with lastError := some [], status := next }
  else if r.status = .extracted ∧ next = .mined then
    .ok { r with lastError := some [], status := next }
  else
    .error (noTransitionMsg r.status next)

/-- `f"{e.__class__.__name__}: {str(e)}"` for a `TransitionError` caught by
the phase loop's `except`. -/
def fmtTransitionError (msg : Str) : Str :=
  "TransitionError: ".toList ++ msg

/-- `f"{e.__class__.__name__}: {str(e)}"` for the `KeyError` raised by
`key_to_resource[str(ckey)]` on an absent key (`str` of a `KeyError` is the
`repr` of the key). -/
def fmtKeyError (k : Str) : Str :=
  "KeyError: '".toList ++ k ++ "'".toList

/-- Result of a run of `load`: the final resource table, store and identifier
map — and for a failure the failing node and recorded error. -/
inductive LoadOutcome (σ : Type) : Type where
  | success (res : List (Str × DbRes)) (store : σ) (keyToObj : List (Str × Int))
  | failure (res : List (Str × DbRes)) (store : σ) (keyToObj : List (Str × Int))
      (node : List Str) (err : Str)

/-- The final resource table of a run. -/
def LoadOutcome.resTable {σ : Type} : LoadOutcome σ → List (Str × DbRes)
  | .success res _ _ => res
  | .failure res _ _ _ _ => res

/-- Update one key's row with a function (rows of other keys untouched). -/
def updateRes (res : List (Str × DbRes)) (k : Str) (f : DbRes → DbRes) :
    List (Str × DbRes) :=
  res.map (fun p => if p.1 = k then (p.1, f p.2) else p)

/-- The commit loop of a phase (operations/load.py:132-137): for every
created `(key, pk)` pair, first insert it into `key_to_obj`, then look up
the resource, set `target_object_id` and call `transition_to(LOADED)`.  An
exception aborts the loop, carrying the `key_to_obj` entries already
added. -/
def commitLoop (res : List (Str × DbRes)) (kto : List (Str × Int)) :
    List (Str × Int) →
      Except (Str × List (Str × Int)) (List (Str × DbRes) × List (Str × Int))
  | [] => .ok (res, kto)
  | (k, pk) :: rest =>
    let kto2 := kto ++ [(k, pk)]
    match List.lookup k res with
    | none => .error (fmtKeyError k, kto2)
    | some r =>
      match transitionTo { r with targetObjectId := some pk } .loaded with
      | .error msg => .error (fmtTransitionError msg, kto2)
      | .ok r2 => commitLoop (updateRes res k (fun _ => r2)) kto2 rest

/-- Failure handling: every key of the failed node gets
`last_error := "{type}: {msg}"` on its rolled-back row; status and
`target_object_id` are as before the phase (`refresh_from_db` after the
rollback). -/
def markFailed (res : List (Str × DbRes)) (node : List Str) (e : Str) :
    List (Str × DbRes) :=
  node.foldl (fun acc k => updateRes acc k (fun r => { r with lastError := some e })) res

/-- The phase loop of `load`: process nodes in build order.  The loaders and
the commit loop run inside `transaction.atomic()`: on an exception from
either, the store and the rows revert to their pre-phase values, the
phase's keys get `last_error` written, and the run stops — later phases are
not attempted — but `key_to_obj` keeps the entries added before the
exception. -/
def runLoad {σ : Type}
    (loader : List Str → σ → Except Str (List (Str × Int) × σ)) :
    List (List Str) → List (Str × DbRes) → σ → List (Str × Int) →
      LoadOutcome σ
  | [], res, store, kto => .success res store kto
  | node :: rest, res, store, kto =>
    match loader node store with
    | .ok (created, store2) =>
      match commitLoop res kto created with
      | .ok (res2, kto2) => runLoad loader rest res2 store2 kto2
      | .error (e, kto2) => .failure (markFailed res node e) store kto2 node e
    | .error e => .failure (markFailed res node e) store kto node e

end Isekai

namespace Isekai

theorem lookup_cons (k k3 : Str) (x : DbRes) (rest : List (Str × DbRes)) :
    List.lookup k ((k3, x) :: rest) =
      if k = k3 then some x else List.lookup k rest := by
  by_cases h : k = k3
  · subst h
    simp [List.lookup]
  · have hb : (k == k3) = false := beq_eq_false_iff_ne.mpr h
    simp [List.lookup, hb, h]

theorem lookup_updateRes (res : List (Str × DbRes)) (k k2 : Str)
    (f : DbRes → DbRes) :
    List.lookup k (updateRes res k2 f) =
      if k = k2 then (List.lookup k res).map f else List.lookup k res := by
  induction res with
  | nil => by_cases h : k = k2 <;> simp [updateRes, List.lookup, h]
  | cons p rest ih =>
    obtain ⟨k3, r⟩ := p
    simp only [updateRes, List.map_cons] at ih ⊢
    by_cases h3 : k3 = k2
    · subst h3
      by_cases hk : k = k3
      · subst hk
        simp [lookup_cons]
      · simp [lookup_cons, hk, ih]
    · by_cases hk : k = k3
      · subst hk
        simp [lookup_cons, h3, ih]
      · simp [lookup_cons, hk, ih, h3]

theorem lookup_markFailed_notMem (res : List (Str × DbRes)) (node : List Str)
    (e : Str) (k : Str) (hk : k ∉ node) :
    List.lookup k (markFailed res node e) = List.lookup k res := by
  induction node generalizing res with
  | nil => rfl
  | cons n rest ih =>
    simp only [List.mem_cons, not_or] at hk
    rw [markFailed, List.foldl_cons]
    have := ih (updateRes res n (fun r => { r with lastError := some e })) hk.2
    rw [markFailed] at this
    rw [this, lookup_updateRes, if_neg hk.1]

theorem lookup_markFailed_mem (res : List (Str × DbRes)) (node : List Str)
    (e : Str) (k : Str) (hk : k ∈ node) :
    List.lookup k (markFailed res node e) =
      (List.lookup k res).map (fun r => { r with lastError := some e }) := by
  induction node generalizing res with
  | nil => simp at hk
  | cons n rest ih =>
    rw [markFailed, List.foldl_cons]
    by_cases hmem : k ∈ rest
    · have := ih (updateRes res n (fun r => { r with lastError := some e })) hmem
      rw [markFailed] at this
      rw [this, lookup_updateRes]
      by_cases hn : k = n
      · rw [if_pos hn, Option.map_map]
        rfl
      · rw [if_neg hn]
    · have hn : k = n := by
        rcases List.mem_cons.mp hk with h | h
        · exact h
        · exact absurd h hmem
      subst hn
      have hframe := lookup_markFailed_notMem
        (updateRes res k (fun r => { r with lastError := some e })) rest e k hmem
      rw [markFailed] at hframe
      rw [hframe, lookup_updateRes, if_pos rfl]

/-- `transition_to(LOADED)` raises for every row: no branch of
`transition_to` accepts `LOADED` as the next status. -/
theorem transitionTo_loaded (r : DbRes) :
    transitionTo r .loaded = .error (noTransitionMsg r.status .loaded) := by
  unfold transitionTo
  rw [if_neg (fun h => absurd h.2 (by decide)),
    if_neg (fun h => absurd h.2 (by decide))]

/-- The commit loop raises a `TransitionError` at its first element. -/
theorem commitLoop_cons_raises {res : List (Str × DbRes)}
    {kto : List (Str × Int)} {k : Str} {pk : Int} {rest : List (Str × Int)}
    {r : DbRes} (hrow : List.lookup k res = some r) :
    commitLoop res kto ((k, pk) :: rest) =
      .error (fmtTransitionError (noTransitionMsg r.status .loaded),
        kto ++ [(k, pk)]) := by
  simp only [commitLoop, hrow, transitionTo_loaded]

/-- The commit loop succeeds only vacuously: on an empty created list, with
the table and identifier map unchanged. -/
theorem commitLoop_ok {res res2 : List (Str × DbRes)}
    {kto kto2 : List (Str × Int)} {created : List (Str × Int)}
    (h : commitLoop res kto created = .ok (res2, kto2)) :
    created = [] ∧ res2 = res ∧ kto2 = kto := by
  cases created with
  | nil =>
    rw [commitLoop] at h
    simp only [Except.ok.injEq, Prod.mk.injEq] at h
    exact ⟨rfl, h.1.symm, h.2.symm⟩
  | cons p rest =>
    obtain ⟨k, pk⟩ := p
    exfalso
    rcases hrow : List.lookup k res with _ | r
    · rw [commitLoop, hrow] at h
      simp at h
    · rw [commitLoop_cons_raises hrow] at h
      simp at h

/-- `markFailed` only writes `last_error`: status and `target_object_id` of
every row are unchanged. -/
theorem lookup_markFailed_view (res : List (Str × DbRes)) (node : List Str)
    (e : Str) (k : Str) :
    (List.lookup k (markFailed res node e)).map
        (fun row => (row.status, row.targetObjectId)) =
      (List.lookup k res).map (fun row => (row.status, row.targetObjectId)) := by
  by_cases hk : k ∈ node
  · rw [lookup_markFailed_mem res node e k hk]
    rcases List.lookup k res with _ | row <;> rfl
  · rw [lookup_markFailed_notMem res node e k hk]

/-- Unfolding the phase loop when the loader raises. -/
theorem runLoad_cons_err {σ : Type}
    {loader : List Str → σ → Except Str (List (Str × Int) × σ)}
    {node : List Str} {rest : List (List Str)} {res : List (Str × DbRes)}
    {store : σ} {kto : List (Str × Int)} {e : Str}
    (hl : loader node store = .error e) :
    runLoad loader (node :: rest) res store kto =
      .failure (markFailed res node e) store kto node e := by
  rw [runLoad, hl]

/-- Unfolding the phase loop when the loader succeeds. -/
theorem runLoad_cons_ok {σ : Type}
    {loader : List Str → σ → Except Str (List (Str × Int) × σ)}
    {node : List Str} {rest : List (List Str)} {res : List (Str × DbRes)}
    {store : σ} {kto : List (Str × Int)} {created : List (Str × Int)}
    {store2 : σ} (hl : loader node store = .ok (created, store2)) :
    runLoad loader (node :: rest) res store kto =
      match commitLoop res kto created with
      | .ok (res2, kto2) => runLoad loader rest res2 store2 kto2
      | .error (e, kto2) =>
        .failure (markFailed res node e) store kto2 node e := by
  rw [runLoad, hl]

/-- Across any run of the phase loop, no row's status or `target_object_id`
ever changes — only `last_error` can be written. -/
theorem runLoad_resTable_frame {σ : Type}
    (loader : List Str → σ → Except Str (List (Str × Int) × σ)) :
    ∀ (phases : List (List Str)) (res : List (Str × DbRes)) (store : σ)
      (kto : List (Str × Int)) (k : Str),
      (List.lookup k ((runLoad loader phases res store kto).resTable)).map
          (fun row => (row.status, row.targetObjectId)) =
        (List.lookup k res).map (fun row => (row.status, row.targetObjectId)) := by
  intro phases
  induction phases with
  | nil =>
    intro res store kto k
    rfl
  | cons node rest ih =>
    intro res store kto k
    rcases hl : loader node store with e | created
    · rw [runLoad_cons_err hl]
      exact lookup_markFailed_view res node e k
    · obtain ⟨created1, store2⟩ := created
      rw [runLoad_cons_ok hl]
      rcases hc : commitLoop res kto created1 with epair | okpair
      · obtain ⟨e, kto2⟩ := epair
        exact lookup_markFailed_view res node e k
      · obtain ⟨res2, kto2⟩ := okpair
        obtain ⟨hnil, hres, hkto⟩ := commitLoop_ok hc
        rw [hres, hkto]
        exact ih res store2 kto k

/-- **C3** [code bug] In the frozen sources the load stage can never
materialize anything: `transition_to` (src/isekai/models.py:84) implements
only `seeded → extracted` and `extracted → mined`, so the commit loop's
`transition_to(Resource.Status.LOADED)` (operations/load.py:136) raises a
`TransitionError` for every created object.  Hence (a) the transition the
commit path needs fails on the row; (b) a phase whose loader creates at
least one object always fails: the transaction rolls back (the failure
carries the pre-phase store), every key of the phase gets the formatted
`TransitionError` as `last_error`, later phases are never attempted — and
`key_to_obj` retains the entry added at load.py:133 before the raise, so
the returned identifier map references a key whose row is not loaded;
(c) the key's row after failure is still `transformed` with only the error
recorded; and (d) over any run whatsoever no row's status or
`target_object_id` changes — nothing is ever marked `loaded`. -/
theorem c3_commit_transition_bug {σ : Type}
    (loader : List Str → σ → Except Str (List (Str × Int) × σ))
    (node : List Str) (rest : List (List Str)) (res : List (Str × DbRes))
    (store : σ) (kto : List (Str × Int)) (k : Str) (pk : Int)
    (created2 : List (Str × Int)) (store2 : σ) (r : DbRes)
    (phases : List (List Str)) (res0 : List (Str × DbRes)) (store0 : σ)
    (kto0 : List (Str × Int))
    (hload : loader node store = .ok ((k, pk) :: created2, store2))
    (hrow : List.lookup k res = some r) (hk : k ∈ node)
    (hstatus : r.status = .transformed) :
    transitionTo { r with targetObjectId := some pk } .loaded =
      .error (noTransitionMsg .transformed .loaded) ∧
    runLoad loader (node :: rest) res store kto =
      .failure
        (markFailed res node
          (fmtTransitionError (noTransitionMsg .transformed .loaded)))
        store (kto ++ [(k, pk)]) node
        (fmtTransitionError (noTransitionMsg .transformed .loaded)) ∧
    (∀ r2, List.lookup k
        (markFailed res node
          (fmtTransitionError (noTransitionMsg .transformed .loaded))) =
          some r2 →
      r2.status = .transformed ∧
      r2.lastError =
        some (fmtTransitionError (noTransitionMsg .transformed .loaded))) ∧
    (∀ k2, (List.lookup k2
        ((runLoad loader phases res0 store0 kto0).resTable)).map
          (fun row => (row.status, row.targetObjectId)) =
      (List.lookup k2 res0).map
        (fun row => (row.status, row.targetObjectId))) := by
  refine ⟨?_, ?_, ?_, ?_⟩
  · calc transitionTo { r with targetObjectId := some pk } .loaded
        = .error (noTransitionMsg r.status .loaded) := transitionTo_loaded _
      _ = .error (noTransitionMsg .transformed .loaded) := by rw [hstatus]
  · simp only [runLoad, hload, commitLoop_cons_raises hrow, hstatus]
  · intro r2 hr2
    rw [lookup_markFailed_mem res node _ k hk, hrow, Option.map_some'] at hr2
    cases hr2
    exact ⟨hstatus, rfl⟩
  · intro k2
    exact runLoad_resTable_frame loader phases res0 store0 kto0 k2

end Isekai

namespace Isekai

/-- Concrete loader for the C3 witness: phase `["a"]` succeeds creating
object 1, everything else raises `"boom"`. -/
def c3Loader : List Str → Nat → Except Str (List (Str × Int) × Nat) :=
  fun node s =>
    if node = ["a".toList] then .ok ([("a".toList, 1)], s + 1)
    else .error "boom".toList

/-- The resource table for the C3 witness. -/
def c3Res0 : List (Str × DbRes) :=
  [("a".toList, ⟨.transformed, none, none, false⟩),
   ("b".toList, ⟨.transformed, none, none, false⟩)]

/-- Witness for C3: with phases `[a], [b]` and the loader creating one
object for `a`, the run fails at the first phase with the formatted
`TransitionError`, the pre-phase store, and the identifier map already
holding `a`. -/
theorem c3_commit_transition_bug_witness :
    runLoad c3Loader [["a".toList], ["b".toList]] c3Res0 0 [] =
      .failure
        (markFailed c3Res0 ["a".toList]
          (fmtTransitionError (noTransitionMsg .transformed .loaded)))
        0 [("a".toList, 1)] ["a".toList]
        (fmtTransitionError (noTransitionMsg .transformed .loaded)) :=
  (c3_commit_transition_bug c3Loader ["a".toList] [["b".toList]] c3Res0 0 []
    "a".toList 1 [] 1 ⟨.transformed, none, none, false⟩
    [["a".toList], ["b".toList]] c3Res0 0 []
    (by rfl) (by decide) (by decide) rfl).2.1

end Isekai

namespace Isekai

/-! ### `src/isekai/graphs.py` — Tarjan's strongly connected components

The Python function uses a recursive inner `strongconnect` over shared
mutable state.  The state is embedded as an explicit environment: the
`indices` / `lowlink` dicts become `visited : α → Bool` (key present) with
`num / low : α → Nat` (stored value), the `on_stack` set a boolean predicate,
the stack a list with its head as the Python list's end (top).  The recursion
is made total with a fuel argument; each recursive call visits a previously
unvisited node, so fuel `|given_order|` (used by `tarjanEnv`) can never run
out — every theorem below carries the corresponding bound. -/

/-- State of Tarjan's traversal. -/
structure TEnv (α : Type) where
  index : Nat
  stack : List α
  onStack : α → Bool
  visited : α → Bool
  num : α → Nat
  low : α → Nat
  comps : List (List α)

variable {α : Type} [DecidableEq α]

/-- The iteration order of the main loop: the given nodes, then any edge
endpoint not yet listed, in edge order (`u` before `v`). -/
def givenOrder (nodes : List α) (edges : List (α × α)) : List α :=
  edges.foldl
    (fun acc p =>
      let acc2 := if p.1 ∈ acc then acc else acc ++ [p.1]
      if p.2 ∈ acc2 then acc2 else acc2 ++ [p.2])
    nodes

/-- Adjacency list of `v`: successors in edge order (the dict-of-lists the
Python code builds by appending). -/
def adjOf (edges : List (α × α)) (v : α) : List α :=
  (edges.filter (fun p => p.1 = v)).map Prod.snd

/-- Pop the stack down to and including `v`: returns the popped component in
pop order and the remaining stack. -/
def popComp (v : α) : List α → List α × List α
  | [] => ([], [])
  | w :: rest =>
    if w = v then ([w], rest)
    else
      let pr := popComp v rest
      (w :: pr.1, pr.2)

/-- Push `v` with a fresh index (the prologue of `strongconnect`). -/
def pushNode (v : α) (e : TEnv α) : TEnv α :=
  { index := e.index + 1
    stack := v :: e.stack
    onStack := fun w => if w = v then true else e.onStack w
    visited := fun w => if w = v then true else e.visited w
    num := fun w => if w = v then e.index else e.num w
    low := fun w => if w = v then e.index else e.low w
    comps := e.comps }

/-- Overwrite `lowlink[v]`. -/
def setLow (v : α) (n : Nat) (e : TEnv α) : TEnv α :=
  { e with low := fun w => if w = v then n else e.low w }

/-- The epilogue of `strongconnect`: when `v` is a root, pop its strongly
connected component off the stack and append it to the output. -/
def popRoot (v : α) (e : TEnv α) : TEnv α :=
  if e.low v = e.num v then
    let pr := popComp v e.stack
    { e with
        stack := pr.2
        onStack := fun w => if w ∈ pr.1 then false else e.onStack w
        comps := e.comps ++ [pr.1] }
  else e

/-- `strongconnect` with fuel (each nested call visits a new node, so fuel
bounded below by the number of unvisited nodes suffices; at fuel 0 the
environment is returned unchanged, a case the sufficiency hypotheses of the
theorems exclude). -/
def sconn (edges : List (α × α)) : Nat → α → TEnv α → TEnv α
  | 0, _, e => e
  | fuel + 1, v, e =>
    let e2 := (adjOf edges v).foldl
      (fun acc w =>
        if acc.visited w = false then
          let acc2 := sconn edges fuel w acc
          setLow v (min (acc2.low v) (acc2.low w)) acc2
        else if acc.onStack w then
          setLow v (min (acc.low v) (acc.num w)) acc
        else acc)
      (pushNode v e)
    popRoot v e2

/-- The initial environment. -/
def initEnv : TEnv α :=
  { index := 0
    stack := []
    onStack := fun _ => false
    visited := fun _ => false
    num := fun _ => 0
    low := fun _ => 0
    comps := [] }

/-- The main loop of `tarjan_scc`: run `strongconnect` from every not yet
visited node of the iteration order. -/
def tarjanEnv (nodes : List α) (edges : List (α × α)) : TEnv α :=
  let order := givenOrder nodes edges
  order.foldl
    (fun e v => if e.visited v = false then sconn edges order.length v e else e)
    initEnv

/-- `comp_id`: node → index of its component in `comps`. -/
def compIdList (comps : List (List α)) : List (α × Nat) :=
  (comps.enum.map (fun p => p.2.map (fun v => (v, p.1)))).flatten

/-- `tarjan_scc`: the list of strongly connected components (each a list of
original nodes) and the node → component-index mapping. -/
def tarjan_scc (nodes : List α) (edges : List (α × α)) :
    List (List α) × List (α × Nat) :=
  let e := tarjanEnv nodes edges
  (e.comps, compIdList e.comps)

/-- One step of the directed edge relation. -/
def EStep (edges : List (α × α)) (u v : α) : Prop := (u, v) ∈ edges

/-- Reachability along directed edges (reflexive–transitive closure). -/
def Reach (edges : List (α × α)) : α → α → Prop :=
  Relation.ReflTransGen (EStep edges)

end Isekai

namespace Isekai

variable {α : Type} [DecidableEq α]

/-- Number of graph nodes not yet visited (the fuel measure). -/
def uvCard (V : List α) (e : TEnv α) : Nat :=
  (V.toFinset.filter (fun w => e.visited w = false)).card

/-- A returned node's adjacency is fully accounted for: every successor is
visited and either already in a completed component or still on the stack
with `low u` at most its index. -/
def RetClosed (edges : List (α × α)) (e : TEnv α) (u : α) : Prop :=
  ∀ w, EStep edges u w → e.visited w = true ∧
    (w ∈ e.comps.flatten ∨ (w ∈ e.stack ∧ e.low u ≤ e.num w))

/-- The invariant of Tarjan's environment. -/
structure WfEnv (edges : List (α × α)) (V : List α) (e : TEnv α) : Prop where
  stack_visited : ∀ w ∈ e.stack, e.visited w = true
  onStack_iff : ∀ w, e.onStack w = true ↔ w ∈ e.stack
  stack_nodup : e.stack.Nodup
  comps_visited : ∀ w ∈ e.comps.flatten, e.visited w = true
  visited_cases : ∀ w, e.visited w = true → w ∈ e.stack ∨ w ∈ e.comps.flatten
  stack_comps_disjoint : ∀ w ∈ e.stack, w ∉ e.comps.flatten
  comps_flat_nodup : e.comps.flatten.Nodup
  visited_sub : ∀ w, e.visited w = true → w ∈ V
  num_lt : ∀ w, e.visited w = true → e.num w < e.index
  num_inj : ∀ x y, e.visited x = true → e.visited y = true →
    e.num x = e.num y → x = y
  low_le : ∀ w, e.visited w = true → e.low w ≤ e.num w
  stack_sorted : e.stack.Chain' (fun a b => e.num b < e.num a)
  witness : ∀ w ∈ e.stack, e.low w = e.num w ∨
    ∃ z ∈ e.stack, e.num z = e.low w ∧ Reach edges w z
  stack_reach : ∀ x ∈ e.stack, ∀ y ∈ e.stack, e.num x ≤ e.num y →
    Reach edges x y
  comps_closed : ∀ i (hi : i < e.comps.length), ∀ u ∈ e.comps.get ⟨i, hi⟩,
    ∀ w, EStep edges u w →
      ∃ j, j ≤ i ∧ ∃ (hj : j < e.comps.length), w ∈ e.comps.get ⟨j, hj⟩
  comps_scc : ∀ c ∈ e.comps, ∀ u ∈ c, ∀ w ∈ c, Reach edges u w
  comps_nonempty : ∀ c ∈ e.comps, c ≠ []

/-- Precondition of a `strongconnect` call on `v`. -/
structure SconnPre (edges : List (α × α)) (V : List α) (v : α) (e : TEnv α) :
    Prop where
  wf : WfEnv edges V e
  unvisited : e.visited v = false
  v_in_V : v ∈ V
  pre_reach : ∀ x ∈ e.stack, Reach edges x v

/-- Postcondition of a `strongconnect` call on `v` taking `e` to `e'`. -/
structure SconnSpec (edges : List (α × α)) (V : List α) (v : α)
    (e e' : TEnv α) : Prop where
  wf : WfEnv edges V e'
  visited_mono : ∀ w, e.visited w = true → e'.visited w = true
  visited_v : e'.visited v = true
  num_frozen : ∀ w, e.visited w = true → e'.num w = e.num w
  low_frozen : ∀ w, e.visited w = true → e'.low w = e.low w
  index_mono : e.index ≤ e'.index
  num_v : e'.num v = e.index
  num_new_ge : ∀ w, e'.visited w = true → e.visited w = false →
    e.index ≤ e'.num w
  stack_split : ∃ s, e'.stack = s ++ e.stack ∧
    ∀ w ∈ s, e.visited w = false
  comps_extend : ∃ cs, e'.comps = e.comps ++ cs
  reach_new : ∀ w, e'.visited w = true → e.visited w = false →
    Reach edges v w
  residue_low : ∀ w ∈ e'.stack, w ∉ e.stack → e'.low v ≤ e'.low w
  residue_closed : ∀ w ∈ e'.stack, w ∉ e.stack → RetClosed edges e' w
  residue_lt : ∀ w ∈ e'.stack, w ∉ e.stack → w ≠ v →
    e'.low w < e'.num w
  v_low_lt : v ∈ e'.stack → e'.low v < e'.num v
  v_popped_low : v ∉ e'.stack → e'.low v = e'.num v
  root_pop : v ∉ e'.stack → e'.stack = e.stack

theorem popComp_eq {v : α} {t r : List α} (hv : v ∉ t) :
    popComp v (t ++ v :: r) = (t ++ [v], r) := by
  induction t with
  | nil => simp [popComp]
  | cons a t2 ih =>
    simp only [List.mem_cons, not_or] at hv
    simp [popComp, Ne.symm hv.1, ih hv.2]
end Isekai

namespace Isekai

variable {α : Type} [DecidableEq α]

/-- The step function of `givenOrder`. -/
def goStep (acc : List α) (p : α × α) : List α :=
  let acc2 := if p.1 ∈ acc then acc else acc ++ [p.1]
  if p.2 ∈ acc2 then acc2 else acc2 ++ [p.2]

theorem givenOrder_eq_foldl (nodes : List α) (edges : List (α × α)) :
    givenOrder nodes edges = edges.foldl goStep nodes := rfl

theorem goStep_sub (acc : List α) (p : α × α) : acc ⊆ goStep acc p := by
  intro x hx
  unfold goStep
  dsimp only
  split <;> split <;> simp_all

theorem mem_goStep_fst (acc : List α) (p : α × α) : p.1 ∈ goStep acc p := by
  by_cases h1 : p.1 ∈ acc
  · by_cases h2 : p.2 ∈ acc
    · simp [goStep, h1, h2]
    · simp [goStep, h1, h2]
  · by_cases h2 : p.2 ∈ acc ++ [p.1]
    · simp [goStep, h1, h2]
    · simp [goStep, h1, h2]

theorem mem_goStep_snd (acc : List α) (p : α × α) : p.2 ∈ goStep acc p := by
  by_cases h1 : p.1 ∈ acc
  · by_cases h2 : p.2 ∈ acc
    · simp [goStep, h1, h2]
    · simp [goStep, h1, h2]
  · by_cases h2 : p.2 ∈ acc ++ [p.1]
    · simp [goStep, h1, h2]
    · simp [goStep, h1, h2]

theorem foldl_goStep_sub : ∀ (l : List (α × α)) (acc : List α),
    acc ⊆ l.foldl goStep acc
  | [], acc => fun x hx => hx
  | p :: rest, acc => by
    intro x hx
    rw [List.foldl_cons]
    exact foldl_goStep_sub rest (goStep acc p) (goStep_sub acc p hx)

theorem givenOrder_sub (nodes : List α) (edges : List (α × α)) :
    nodes ⊆ givenOrder nodes edges :=
  foldl_goStep_sub edges nodes

theorem givenOrder_endpoints (nodes : List α) (edges : List (α × α)) :
    ∀ p ∈ edges, p.1 ∈ givenOrder nodes edges ∧
      p.2 ∈ givenOrder nodes edges := by
  rw [givenOrder_eq_foldl]
  induction edges generalizing nodes with
  | nil => simp
  | cons q rest ih =>
    intro p hp
    rw [List.foldl_cons]
    rcases List.mem_cons.mp hp with rfl | hp2
    · exact ⟨foldl_goStep_sub rest _ (mem_goStep_fst nodes p),
        foldl_goStep_sub rest _ (mem_goStep_snd nodes p)⟩
    · exact ih _ p hp2

theorem adjOf_mem_edges {edges : List (α × α)} {v w : α}
    (h : w ∈ adjOf edges v) : EStep edges v w := by
  unfold adjOf at h
  simp only [List.mem_map, List.mem_filter] at h
  obtain ⟨p, ⟨hp, hfst⟩, rfl⟩ := h
  have : p.1 = v := by simpa using hfst
  unfold EStep
  rw [← this]
  exact hp

theorem adjOf_sub_order {nodes : List α} {edges : List (α × α)} {v w : α}
    (h : w ∈ adjOf edges v) : w ∈ givenOrder nodes edges := by
  have h2 := adjOf_mem_edges h
  exact (givenOrder_endpoints nodes edges _ h2).2

theorem estep_mem_adjOf {edges : List (α × α)} {v w : α}
    (h : EStep edges v w) : w ∈ adjOf edges v := by
  unfold adjOf
  simp only [List.mem_map, List.mem_filter]
  exact ⟨(v, w), ⟨h, by simp⟩, rfl⟩

theorem uvCard_mono {V : List α} {e e2 : TEnv α}
    (h : ∀ w, e.visited w = true → e2.visited w = true) :
    uvCard V e2 ≤ uvCard V e := by
  apply Finset.card_le_card
  intro w hw
  simp only [uvCard, Finset.mem_filter] at hw ⊢
  refine ⟨hw.1, ?_⟩
  by_contra hc
  rw [Bool.not_eq_false] at hc
  rw [h w hc] at hw
  cases hw.2

theorem uvCard_push {V : List α} {e : TEnv α} {v : α} (hv : v ∈ V)
    (hunv : e.visited v = false) :
    uvCard V (pushNode v e) < uvCard V e := by
  apply Finset.card_lt_card
  constructor
  · intro w hw
    simp only [uvCard, Finset.mem_filter, pushNode] at hw ⊢
    refine ⟨hw.1, ?_⟩
    have := hw.2
    by_cases hwv : w = v
    · simp [hwv] at this
    · simpa [hwv] using this
  · intro hsub
    have hv2 : v ∈ Finset.filter (fun w => e.visited w = false) V.toFinset := by
      simp [Finset.mem_filter, List.mem_toFinset.mpr hv, hunv]
    have := hsub hv2
    simp [Finset.mem_filter, pushNode] at this

end Isekai
namespace Isekai

variable {α : Type} [DecidableEq α]

theorem setLow_stack (v : α) (n : Nat) (e : TEnv α) :
    (setLow v n e).stack = e.stack := rfl

theorem setLow_visited (v : α) (n : Nat) (e : TEnv α) :
    (setLow v n e).visited = e.visited := rfl

theorem setLow_num (v : α) (n : Nat) (e : TEnv α) :
    (setLow v n e).num = e.num := rfl

theorem setLow_onStack (v : α) (n : Nat) (e : TEnv α) :
    (setLow v n e).onStack = e.onStack := rfl

theorem setLow_comps (v : α) (n : Nat) (e : TEnv α) :
    (setLow v n e).comps = e.comps := rfl

theorem setLow_index (v : α) (n : Nat) (e : TEnv α) :
    (setLow v n e).index = e.index := rfl

theorem setLow_low_self (v : α) (n : Nat) (e : TEnv α) :
    (setLow v n e).low v = n := by simp [setLow]

theorem setLow_low_other (v : α) (n : Nat) (e : TEnv α) {w : α} (h : w ≠ v) :
    (setLow v n e).low w = e.low w := by simp [setLow, h]

/-- Monotone evolution of the environment, as seen by an already visited node:
visitedness, stored indices, completed components and stack membership are
preserved. -/
structure Extends (e1 e2 : TEnv α) : Prop where
  visited_mono : ∀ w, e1.visited w = true → e2.visited w = true
  num_frozen : ∀ w, e1.visited w = true → e2.num w = e1.num w
  stack_tail : ∃ s, e2.stack = s ++ e1.stack
  comps_prefix : ∃ cs, e2.comps = e1.comps ++ cs

theorem Extends.stack_mem {e1 e2 : TEnv α} (h : Extends e1 e2) {w : α}
    (hw : w ∈ e1.stack) : w ∈ e2.stack := by
  obtain ⟨s, hs⟩ := h.stack_tail
  rw [hs]
  exact List.mem_append.mpr (Or.inr hw)

theorem Extends.flatten_mem {e1 e2 : TEnv α} (h : Extends e1 e2) {w : α}
    (hw : w ∈ e1.comps.flatten) : w ∈ e2.comps.flatten := by
  obtain ⟨cs, hcs⟩ := h.comps_prefix
  rw [hcs, List.flatten_append]
  exact List.mem_append.mpr (Or.inl hw)

theorem retClosed_mono {edges : List (α × α)} {e1 e2 : TEnv α} {u : α}
    (hru : RetClosed edges e1 u) (hx : Extends e1 e2)
    (hlow : e2.low u ≤ e1.low u) :
    RetClosed edges e2 u := by
  intro w hw
  obtain ⟨hwv, hcase⟩ := hru w hw
  refine ⟨hx.visited_mono w hwv, ?_⟩
  rcases hcase with h | ⟨hstk, hle⟩
  · exact Or.inl (hx.flatten_mem h)
  · refine Or.inr ⟨hx.stack_mem hstk, ?_⟩
    rw [hx.num_frozen w hwv]
    exact le_trans hlow hle

/-- The witness-descent lemma: if `v` is on the stack and every stack node
with a larger index has a strictly smaller lowlink (every such node is a
returned, unpopped residue), then every stack node reaches `v`. -/
theorem reach_to_v {edges : List (α × α)} {V : List α} {e : TEnv α} {v : α}
    (hwf : WfEnv edges V e) (hv : v ∈ e.stack)
    (hres : ∀ w ∈ e.stack, e.num v < e.num w → e.low w < e.num w) :
    ∀ r ∈ e.stack, Reach edges r v := by
  suffices h : ∀ n r, r ∈ e.stack → e.num r = n → Reach edges r v by
    intro r hr
    exact h (e.num r) r hr rfl
  intro n
  induction n using Nat.strong_induction_on with
  | _ n ih =>
    intro r hr hn
    by_cases hle : e.num r ≤ e.num v
    · exact hwf.stack_reach r hr v hv hle
    · push_neg at hle
      have hlow := hres r hr hle
      rcases hwf.witness r hr with heq | ⟨z, hz, hnz, hrz⟩
      · omega
      · have hzn : e.num z < n := by omega
        exact Relation.ReflTransGen.trans hrz (ih (e.num z) hzn z hz rfl)

end Isekai

namespace Isekai

variable {α : Type} [DecidableEq α]

/-- The child-processing step of the loop `for w in adj[v]`. -/
def kidStep (edges : List (α × α)) (fuel : Nat) (v : α) (acc : TEnv α)
    (w : α) : TEnv α :=
  if acc.visited w = false then
    let acc2 := sconn edges fuel w acc
    setLow v (min (acc2.low v) (acc2.low w)) acc2
  else if acc.onStack w then
    setLow v (min (acc.low v) (acc.num w)) acc
  else acc

theorem sconn_succ (edges : List (α × α)) (fuel : Nat) (v : α) (e : TEnv α) :
    sconn edges (fuel + 1) v e =
      popRoot v ((adjOf edges v).foldl (kidStep edges fuel v) (pushNode v e)) :=
  rfl

/-- Invariant threaded through the child loop of `strongconnect v`, relative
to the environment `e` at the call (`done` is the processed prefix of the
adjacency list). -/
structure FoldInv (edges : List (α × α)) (V : List α) (v : α) (e : TEnv α)
    (done : List α) (acc : TEnv α) : Prop where
  wf0 : WfEnv edges V e
  unvisited_v : e.visited v = false
  wf : WfEnv edges V acc
  visited_mono : ∀ w, e.visited w = true → acc.visited w = true
  visited_v : acc.visited v = true
  v_stack : v ∈ acc.stack
  num_frozen : ∀ w, e.visited w = true → acc.num w = e.num w
  low_frozen : ∀ w, e.visited w = true → acc.low w = e.low w
  index_mono : e.index + 1 ≤ acc.index
  num_v : acc.num v = e.index
  num_new_ge : ∀ w, acc.visited w = true → e.visited w = false →
    e.index ≤ acc.num w
  stack_split : ∃ t, acc.stack = t ++ v :: e.stack ∧
    ∀ w ∈ t, e.visited w = false ∧ w ≠ v
  comps_extend : ∃ cs, acc.comps = e.comps ++ cs
  reach_new : ∀ w, acc.visited w = true → e.visited w = false →
    Reach edges v w
  residue_low : ∀ w ∈ acc.stack, e.visited w = false → w ≠ v →
    acc.low v ≤ acc.low w
  residue_closed : ∀ w ∈ acc.stack, e.visited w = false → w ≠ v →
    RetClosed edges acc w
  residue_lt : ∀ w ∈ acc.stack, e.visited w = false → w ≠ v →
    acc.low w < acc.num w
  done_closed : ∀ w ∈ done, acc.visited w = true ∧
    (w ∈ acc.comps.flatten ∨ (w ∈ acc.stack ∧ acc.low v ≤ acc.num w))

theorem chain'_num_congr {f g : α → Nat} : ∀ {l : List α},
    (∀ x ∈ l, f x = g x) → l.Chain' (fun a b => f b < f a) →
      l.Chain' (fun a b => g b < g a)
  | [], _, _ => List.chain'_nil
  | [a], _, _ => List.chain'_singleton a
  | a :: b :: rest, h, hch => by
    rw [List.chain'_cons] at hch ⊢
    refine ⟨?_, chain'_num_congr (fun x hx => h x (by simp [hx])) hch.2⟩
    rw [← h a (by simp), ← h b (by simp)]
    exact hch.1

/-- Entering `strongconnect v` establishes the loop invariant. -/
theorem foldInv_push {edges : List (α × α)} {V : List α} {v : α} {e : TEnv α}
    (hpre : SconnPre edges V v e) :
    FoldInv edges V v e [] (pushNode v e) := by
  obtain ⟨hwf, hunv, hvV, hreach⟩ := hpre
  have hvstk : v ∉ e.stack := fun hmem => by
    rw [hwf.stack_visited v hmem] at hunv
    cases hunv
  have hvflat : v ∉ e.comps.flatten := fun hmem => by
    rw [hwf.comps_visited v hmem] at hunv
    cases hunv
  have hnumv : (pushNode v e).num v = e.index := by simp [pushNode]
  have hnumo : ∀ w, w ≠ v → (pushNode v e).num w = e.num w := by
    intro w hwv
    simp [pushNode, hwv]
  have hlowo : ∀ w, w ≠ v → (pushNode v e).low w = e.low w := by
    intro w hwv
    simp [pushNode, hwv]
  have hviso : ∀ w, w ≠ v → (pushNode v e).visited w = e.visited w := by
    intro w hwv
    simp [pushNode, hwv]
  have hstkmem : ∀ {w}, w ∈ e.stack → w ≠ v := fun hw hc => hvstk (hc ▸ hw)
  have hwf2 : WfEnv edges V (pushNode v e) := by
    refine ⟨?_, ?_, ?_, ?_, ?_, ?_, ?_, ?_, ?_, ?_, ?_, ?_, ?_, ?_, ?_, ?_, ?_⟩
    · intro w hw
      rcases List.mem_cons.mp hw with rfl | hw2
      · simp [pushNode]
      · rw [hviso w (hstkmem hw2)]
        exact hwf.stack_visited w hw2
    · intro w
      simp only [pushNode]
      by_cases hwv : w = v
      · subst hwv
        simp
      · simp only [if_neg hwv, List.mem_cons]
        rw [hwf.onStack_iff w]
        constructor
        · exact Or.inr
        · rintro (rfl | h2)
          · exact absurd rfl hwv
          · exact h2
    · exact List.nodup_cons.mpr ⟨hvstk, hwf.stack_nodup⟩
    · intro w hw
      simp only [pushNode] at hw ⊢
      by_cases hwv : w = v
      · subst hwv
        exact absurd hw hvflat
      · simp only [if_neg hwv]
        exact hwf.comps_visited w hw
    · intro w hw
      simp only [pushNode] at hw ⊢
      by_cases hwv : w = v
      · subst hwv
        exact Or.inl (List.mem_cons_self _ _)
      · simp only [if_neg hwv] at hw
        rcases hwf.visited_cases w hw with h | h
        · exact Or.inl (List.mem_cons.mpr (Or.inr h))
        · exact Or.inr h
    · intro w hw
      simp only [pushNode] at hw
      rcases List.mem_cons.mp hw with rfl | hw2
      · exact hvflat
      · exact hwf.stack_comps_disjoint w hw2
    · exact hwf.comps_flat_nodup
    · intro w hw
      simp only [pushNode] at hw
      by_cases hwv : w = v
      · subst hwv
        exact hvV
      · simp only [if_neg hwv] at hw
        exact hwf.visited_sub w hw
    · intro w hw
      simp only [pushNode] at hw ⊢
      by_cases hwv : w = v
      · subst hwv
        simp
      · simp only [if_neg hwv] at hw ⊢
        exact Nat.lt_succ_of_lt (hwf.num_lt w hw)
    · intro x y hx hy hxy
      simp only [pushNode] at hx hy hxy
      by_cases hxv : x = v <;> by_cases hyv : y = v
      · rw [hxv, hyv]
      · subst hxv
        simp only [if_pos rfl, if_neg hyv] at hxy
        simp only [if_neg hyv] at hy
        exact absurd hxy.symm (Nat.ne_of_lt (hwf.num_lt y hy))
      · subst hyv
        simp only [if_neg hxv, if_pos rfl] at hxy
        simp only [if_neg hxv] at hx
        exact absurd hxy (Nat.ne_of_lt (hwf.num_lt x hx))
      · simp only [if_neg hxv, if_neg hyv] at hx hy hxy
        exact hwf.num_inj x y hx hy hxy
    · intro w hw
      simp only [pushNode] at hw ⊢
      by_cases hwv : w = v
      · simp [hwv]
      · simp only [if_neg hwv] at hw ⊢
        exact hwf.low_le w hw
    · show ((pushNode v e).stack).Chain'
        (fun a b => (pushNode v e).num b < (pushNode v e).num a)
      have hrest : (e.stack).Chain'
          (fun a b => (pushNode v e).num b < (pushNode v e).num a) := by
        refine chain'_num_congr (f := e.num) ?_ hwf.stack_sorted
        intro x hx
        exact (hnumo x (hstkmem hx)).symm
      show (v :: e.stack).Chain' _
      cases hstk : e.stack with
      | nil => simp
      | cons a rest =>
        rw [List.chain'_cons]
        constructor
        · rw [hnumv, hnumo a (hstkmem (hstk ▸ List.mem_cons_self a rest))]
          exact hwf.num_lt a
            (hwf.stack_visited a (hstk ▸ List.mem_cons_self a rest))
        · rw [← hstk]
          exact hrest
    · intro w hw
      rcases List.mem_cons.mp hw with rfl | hw2
      · left
        simp [pushNode]
      · have hwv := hstkmem hw2
        rcases hwf.witness w hw2 with heq | ⟨z, hz, hnz, hrz⟩
        · left
          rw [hlowo w hwv, hnumo w hwv]
          exact heq
        · right
          refine ⟨z, List.mem_cons.mpr (Or.inr hz), ?_, hrz⟩
          rw [hnumo z (hstkmem hz), hlowo w hwv]
          exact hnz
    · intro x hx y hy hxy
      rcases List.mem_cons.mp hx with rfl | hx2 <;>
        rcases List.mem_cons.mp hy with h | hy2
      · rw [h]
        exact Relation.ReflTransGen.refl
      · rw [hnumv, hnumo y (hstkmem hy2)] at hxy
        have := hwf.num_lt y (hwf.stack_visited y hy2)
        omega
      · subst h
        exact hreach x hx2
      · rw [hnumo x (hstkmem hx2), hnumo y (hstkmem hy2)] at hxy
        exact hwf.stack_reach x hx2 y hy2 hxy
    · intro i hi u hu w hw
      exact hwf.comps_closed i hi u hu w hw
    · exact hwf.comps_scc
    · exact hwf.comps_nonempty
  refine ⟨hwf, hunv, hwf2, ?_, by simp [pushNode], List.mem_cons_self v _,
    ?_, ?_, le_refl _, hnumv, ?_, ⟨[], by simp [pushNode], by simp⟩,
    ⟨[], by simp [pushNode]⟩, ?_, ?_, ?_, ?_, by simp⟩
  · intro w hw
    by_cases hwv : w = v
    · simp [pushNode, hwv]
    · rw [hviso w hwv]
      exact hw
  · intro w hw
    exact hnumo w (fun hc => by rw [hc, hunv] at hw; cases hw)
  · intro w hw
    exact hlowo w (fun hc => by rw [hc, hunv] at hw; cases hw)
  · intro w hw hw2
    by_cases hwv : w = v
    · subst hwv
      rw [hnumv]
    · rw [hviso w hwv] at hw
      rw [hw] at hw2
      cases hw2
  · intro w hw hw2
    by_cases hwv : w = v
    · subst hwv
      exact Relation.ReflTransGen.refl
    · rw [hviso w hwv] at hw
      rw [hw] at hw2
      cases hw2
  · intro w hw hnv hwv
    rcases List.mem_cons.mp hw with rfl | hw2
    · exact absurd rfl hwv
    · rw [hwf.stack_visited w hw2] at hnv
      cases hnv
  · intro w hw hnv hwv
    rcases List.mem_cons.mp hw with rfl | hw2
    · exact absurd rfl hwv
    · rw [hwf.stack_visited w hw2] at hnv
      cases hnv
  · intro w hw hnv hwv
    rcases List.mem_cons.mp hw with rfl | hw2
    · exact absurd rfl hwv
    · rw [hwf.stack_visited w hw2] at hnv
      cases hnv

theorem retClosed_setLow {edges : List (α × α)} {e : TEnv α} {u v : α}
    {m : Nat} (huv : u ≠ v) (h : RetClosed edges e u) :
    RetClosed edges (setLow v m e) u := by
  intro x hx
  obtain ⟨h1, h2⟩ := h x hx
  refine ⟨h1, ?_⟩
  rcases h2 with h3 | ⟨h3, h4⟩
  · exact Or.inl h3
  · refine Or.inr ⟨h3, ?_⟩
    show (setLow v m e).low u ≤ e.num x
    rw [setLow_low_other v m e huv]
    exact h4

/-- `setLow v m` keeps the environment invariant, provided `m` does not rise
and is witnessed on the stack. -/
theorem wfEnv_setLow_v {edges : List (α × α)} {V : List α} {e : TEnv α}
    {v : α} {m : Nat} (hwf : WfEnv edges V e) (hv : v ∈ e.stack)
    (hle : m ≤ e.low v)
    (hwit : m = e.num v ∨ ∃ z ∈ e.stack, e.num z = m ∧ Reach edges v z) :
    WfEnv edges V (setLow v m e) := by
  refine ⟨hwf.stack_visited, hwf.onStack_iff, hwf.stack_nodup,
    hwf.comps_visited, hwf.visited_cases, hwf.stack_comps_disjoint,
    hwf.comps_flat_nodup, hwf.visited_sub, hwf.num_lt, hwf.num_inj, ?_,
    hwf.stack_sorted, ?_, hwf.stack_reach, hwf.comps_closed, hwf.comps_scc,
    hwf.comps_nonempty⟩
  · intro u hu
    by_cases huv : u = v
    · subst huv
      show (setLow u m e).low u ≤ e.num u
      rw [setLow_low_self]
      exact le_trans hle (hwf.low_le u hu)
    · show (setLow v m e).low u ≤ e.num u
      rw [setLow_low_other v m e huv]
      exact hwf.low_le u hu
  · intro u hu
    by_cases huv : u = v
    · subst huv
      rcases hwit with heq | ⟨z, hz, hnz, hrz⟩
      · left
        show (setLow u m e).low u = e.num u
        rw [setLow_low_self]
        exact heq
      · right
        refine ⟨z, hz, ?_, hrz⟩
        show e.num z = (setLow u m e).low u
        rw [setLow_low_self]
        exact hnz
    · rcases hwf.witness u hu with heq | ⟨z, hz, hnz, hrz⟩
      · left
        show (setLow v m e).low u = e.num u
        rw [setLow_low_other v m e huv]
        exact heq
      · right
        refine ⟨z, hz, ?_, hrz⟩
        show e.num z = (setLow v m e).low u
        rw [setLow_low_other v m e huv]
        exact hnz

theorem uvCard_pos {V : List α} {e : TEnv α} {v : α} (hv : v ∈ V)
    (h : e.visited v = false) : 0 < uvCard V e :=
  Finset.card_pos.mpr
    ⟨v, by simp [uvCard, Finset.mem_filter, List.mem_toFinset.mpr hv, h]⟩

theorem uvCard_le_length (V : List α) (e : TEnv α) :
    uvCard V e ≤ V.length :=
  le_trans (Finset.card_filter_le _ _) (List.toFinset_card_le V)

theorem kidStep_unvis {edges : List (α × α)} {fuel : Nat} {v : α}
    {acc : TEnv α} {w : α} (h : acc.visited w = false) :
    kidStep edges fuel v acc w =
      setLow v (min ((sconn edges fuel w acc).low v)
        ((sconn edges fuel w acc).low w)) (sconn edges fuel w acc) := by
  unfold kidStep
  rw [if_pos h]

theorem kidStep_onstack {edges : List (α × α)} {fuel : Nat} {v : α}
    {acc : TEnv α} {w : α} (h1 : acc.visited w = true)
    (h2 : acc.onStack w = true) :
    kidStep edges fuel v acc w =
      setLow v (min (acc.low v) (acc.num w)) acc := by
  unfold kidStep
  rw [if_neg (by simp [h1]), if_pos h2]

theorem kidStep_off {edges : List (α × α)} {fuel : Nat} {v : α}
    {acc : TEnv α} {w : α} (h1 : acc.visited w = true)
    (h2 : acc.onStack w = false) :
    kidStep edges fuel v acc w = acc := by
  unfold kidStep
  rw [if_neg (by simp [h1]), if_neg (by simp [h2])]

end Isekai

namespace Isekai

variable {α : Type} [DecidableEq α]

/-- One iteration of the child loop preserves the loop invariant. -/
theorem foldInv_step {edges : List (α × α)} {V : List α} {fuel : Nat}
    {v : α} {e : TEnv α} {done : List α} {acc : TEnv α} {w : α}
    (hIH : ∀ u a, SconnPre edges V u a → uvCard V a ≤ fuel →
      SconnSpec edges V u a (sconn edges fuel u a))
    (hfuel : uvCard V e ≤ fuel + 1) (hvV : v ∈ V) (hwV : w ∈ V)
    (hedge : EStep edges v w) (hinv : FoldInv edges V v e done acc) :
    FoldInv edges V v e (done ++ [w]) (kidStep edges fuel v acc w) := by
  obtain ⟨t, htstack, htprop⟩ := hinv.stack_split
  have hvvis : acc.visited v = true := hinv.visited_v
  have hmem_t : ∀ {u}, u ∈ acc.stack → e.visited u = false → u ≠ v →
      u ∈ t := by
    intro u hu hunv hne
    rw [htstack] at hu
    rcases List.mem_append.mp hu with h | h
    · exact h
    · rcases List.mem_cons.mp h with rfl | h2
      · exact absurd rfl hne
      · rw [hinv.wf0.stack_visited u h2] at hunv
        cases hunv
  by_cases hA : acc.visited w = false
  · -- unvisited child: recursive call
    have hres : ∀ u ∈ acc.stack, acc.num v < acc.num u →
        acc.low u < acc.num u := by
      intro u hu hn
      by_cases hunv : e.visited u = true
      · rw [hinv.num_frozen u hunv, hinv.num_v] at hn
        have h2 := hinv.wf0.num_lt u hunv
        omega
      · rw [Bool.not_eq_true] at hunv
        have hne : u ≠ v := fun hc => absurd (hc ▸ hn) (lt_irrefl _)
        exact hinv.residue_lt u hu hunv hne
    have hreach_all : ∀ r ∈ acc.stack, Reach edges r v :=
      reach_to_v hinv.wf hinv.v_stack hres
    have hpre : SconnPre edges V w acc :=
      ⟨hinv.wf, hA, hwV,
        fun x hx => Relation.ReflTransGen.tail (hreach_all x hx) hedge⟩
    have hmono_pe : ∀ x, (pushNode v e).visited x = true →
        acc.visited x = true := by
      intro x hx
      by_cases hxv : x = v
      · subst hxv
        exact hvvis
      · simp only [pushNode, if_neg hxv] at hx
        exact hinv.visited_mono x hx
    have h1 := uvCard_mono (V := V) hmono_pe
    have h2 := uvCard_push hvV hinv.unvisited_v
    have hfuel2 : uvCard V acc ≤ fuel := by omega
    have hS := hIH w acc hpre hfuel2
    rw [kidStep_unvis hA]
    set S := sconn edges fuel w acc with hSdef
    obtain ⟨s, hsstack, hsprop⟩ := hS.stack_split
    have hvS : v ∈ S.stack := by
      rw [hsstack]
      exact List.mem_append.mpr (Or.inr hinv.v_stack)
    have hSnumv : S.num v = e.index := by
      rw [hS.num_frozen v hvvis, hinv.num_v]
    have hSlowv : S.low v = acc.low v := hS.low_frozen v hvvis
    have hxt : Extends acc S :=
      ⟨hS.visited_mono, hS.num_frozen, ⟨s, hsstack⟩, hS.comps_extend⟩
    have hwitv : min (S.low v) (S.low w) = S.num v ∨
        ∃ z ∈ S.stack, S.num z = min (S.low v) (S.low w) ∧
          Reach edges v z := by
      by_cases hm : S.low v ≤ S.low w
      · rw [min_eq_left hm]
        exact hS.wf.witness v hvS
      · push_neg at hm
        rw [min_eq_right (le_of_lt hm)]
        by_cases hws : w ∈ S.stack
        · rcases hS.wf.witness w hws with heq | ⟨z, hz, hnz, hrz⟩
          · exact Or.inr ⟨w, hws, heq.symm,
              Relation.ReflTransGen.single hedge⟩
          · exact Or.inr ⟨z, hz, hnz,
              Relation.ReflTransGen.head hedge hrz⟩
        · exfalso
          have hp1 := hS.v_popped_low hws
          have hp2 := hS.num_v
          have hp3 := hinv.wf.low_le v hvvis
          have hp4 := hinv.num_v
          have hp5 := hinv.index_mono
          rw [hSlowv] at hm
          omega
    refine ⟨hinv.wf0, hinv.unvisited_v, ?_, ?_, ?_, ?_, ?_, ?_, ?_, ?_, ?_,
      ?_, ?_, ?_, ?_, ?_, ?_, ?_⟩
    · exact wfEnv_setLow_v hS.wf hvS (min_le_left _ _) hwitv
    · exact fun u hu => hS.visited_mono u (hinv.visited_mono u hu)
    · exact hS.visited_mono v hvvis
    · exact hvS
    · intro u hu
      show S.num u = e.num u
      rw [hS.num_frozen u (hinv.visited_mono u hu), hinv.num_frozen u hu]
    · intro u hu
      have hne : u ≠ v := fun hc => by
        rw [hc, hinv.unvisited_v] at hu
        cases hu
      show (setLow v _ S).low u = e.low u
      rw [setLow_low_other _ _ _ hne,
        hS.low_frozen u (hinv.visited_mono u hu), hinv.low_frozen u hu]
    · exact le_trans hinv.index_mono (Nat.le_trans (le_refl _) hS.index_mono)
    · exact hSnumv
    · intro u hu hu2
      by_cases hacc : acc.visited u = true
      · show e.index ≤ S.num u
        rw [hS.num_frozen u hacc]
        exact hinv.num_new_ge u hacc hu2
      · rw [Bool.not_eq_true] at hacc
        have hg1 := hS.num_new_ge u hu hacc
        have hg2 := hinv.index_mono
        show e.index ≤ S.num u
        omega
    · refine ⟨s ++ t, ?_, ?_⟩
      · show S.stack = (s ++ t) ++ v :: e.stack
        rw [hsstack, htstack, List.append_assoc]
      · intro u hu
        rcases List.mem_append.mp hu with h | h
        · have h3 := hsprop u h
          have hne : e.visited u ≠ true := fun hc => by
            rw [hinv.visited_mono u hc] at h3
            cases h3
          refine ⟨Bool.eq_false_iff.mpr hne, ?_⟩
          intro hc
          rw [hc, hvvis] at h3
          cases h3
        · exact htprop u h
    · obtain ⟨cs1, hc1⟩ := hinv.comps_extend
      obtain ⟨cs2, hc2⟩ := hS.comps_extend
      refine ⟨cs1 ++ cs2, ?_⟩
      show S.comps = e.comps ++ (cs1 ++ cs2)
      rw [hc2, hc1, List.append_assoc]
    · intro u hu hu2
      by_cases hacc : acc.visited u = true
      · exact hinv.reach_new u hacc hu2
      · rw [Bool.not_eq_true] at hacc
        exact Relation.ReflTransGen.head hedge (hS.reach_new u hu hacc)
    · intro u hu hunv hne
      replace hu : u ∈ S.stack := hu
      show (setLow v _ S).low v ≤ (setLow v _ S).low u
      rw [setLow_low_self, setLow_low_other _ _ _ hne]
      by_cases hacc : u ∈ acc.stack
      · have huv : acc.visited u = true := hinv.wf.stack_visited u hacc
        rw [hS.low_frozen u huv]
        calc min (S.low v) (S.low w) ≤ S.low v := min_le_left _ _
          _ = acc.low v := hSlowv
          _ ≤ acc.low u := hinv.residue_low u hacc hunv hne
      · exact le_trans (min_le_right _ _) (hS.residue_low u hu hacc)
    · intro u hu hunv hne
      replace hu : u ∈ S.stack := hu
      apply retClosed_setLow hne
      by_cases hacc : u ∈ acc.stack
      · have huv : acc.visited u = true := hinv.wf.stack_visited u hacc
        have hrc := hinv.residue_closed u hacc hunv hne
        refine retClosed_mono hrc hxt ?_
        rw [hS.low_frozen u huv]
      · exact hS.residue_closed u hu hacc
    · intro u hu hunv hne
      replace hu : u ∈ S.stack := hu
      show (setLow v _ S).low u < (setLow v _ S).num u
      rw [setLow_low_other _ _ _ hne]
      show S.low u < S.num u
      by_cases hacc : u ∈ acc.stack
      · have huv : acc.visited u = true := hinv.wf.stack_visited u hacc
        rw [hS.low_frozen u huv, hS.num_frozen u huv]
        exact hinv.residue_lt u hacc hunv hne
      · by_cases huw : u = w
        · subst huw
          exact hS.v_low_lt hu
        · exact hS.residue_lt u hu hacc huw
    · intro u hu
      rcases List.mem_append.mp hu with h | h
      · obtain ⟨h1, h2⟩ := hinv.done_closed u h
        refine ⟨hS.visited_mono u h1, ?_⟩
        rcases h2 with h3 | ⟨h3, h4⟩
        · exact Or.inl (hxt.flatten_mem h3)
        · right
          have huv : acc.visited u = true := hinv.wf.stack_visited u h3
          refine ⟨hxt.stack_mem h3, ?_⟩
          show (setLow v _ S).low v ≤ (setLow v _ S).num u
          rw [setLow_low_self]
          show _ ≤ S.num u
          rw [hS.num_frozen u huv]
          calc min (S.low v) (S.low w) ≤ S.low v := min_le_left _ _
            _ = acc.low v := hSlowv
            _ ≤ acc.num u := h4
      · have hw2 : u = w := by simpa using h
        subst hw2
        refine ⟨hS.visited_v, ?_⟩
        by_cases hws : u ∈ S.stack
        · right
          refine ⟨hws, ?_⟩
          show (setLow v _ S).low v ≤ (setLow v _ S).num u
          rw [setLow_low_self]
          exact le_trans (min_le_right _ _)
            (hS.wf.low_le u (hS.wf.stack_visited u hws))
        · left
          rcases hS.wf.visited_cases u hS.visited_v with h5 | h5
          · exact absurd h5 hws
          · exact h5
  · rw [Bool.not_eq_false] at hA
    by_cases hB : acc.onStack w = true
    · -- visited child still on the stack: lowlink update
      rw [kidStep_onstack hA hB]
      have hws : w ∈ acc.stack := (hinv.wf.onStack_iff w).mp hB
      have hwitv : min (acc.low v) (acc.num w) = acc.num v ∨
          ∃ z ∈ acc.stack, acc.num z = min (acc.low v) (acc.num w) ∧
            Reach edges v z := by
        by_cases hm : acc.low v ≤ acc.num w
        · rw [min_eq_left hm]
          exact hinv.wf.witness v hinv.v_stack
        · push_neg at hm
          rw [min_eq_right (le_of_lt hm)]
          exact Or.inr ⟨w, hws, rfl, Relation.ReflTransGen.single hedge⟩
      refine ⟨hinv.wf0, hinv.unvisited_v,
        wfEnv_setLow_v hinv.wf hinv.v_stack (min_le_left _ _) hwitv,
        fun u hu => hinv.visited_mono u hu, hinv.visited_v, hinv.v_stack,
        fun u hu => hinv.num_frozen u hu, ?_, hinv.index_mono, hinv.num_v,
        fun u hu hu2 => hinv.num_new_ge u hu hu2, ⟨t, htstack, htprop⟩,
        hinv.comps_extend, fun u hu hu2 => hinv.reach_new u hu hu2,
        ?_, ?_, ?_, ?_⟩
      · intro u hu
        have hne : u ≠ v := fun hc => by
          rw [hc, hinv.unvisited_v] at hu
          cases hu
        show (setLow v _ acc).low u = e.low u
        rw [setLow_low_other _ _ _ hne]
        exact hinv.low_frozen u hu
      · intro u hu hunv hne
        replace hu : u ∈ acc.stack := hu
        show (setLow v _ acc).low v ≤ (setLow v _ acc).low u
        rw [setLow_low_self, setLow_low_other _ _ _ hne]
        exact le_trans (min_le_left _ _) (hinv.residue_low u hu hunv hne)
      · intro u hu hunv hne
        replace hu : u ∈ acc.stack := hu
        exact retClosed_setLow hne (hinv.residue_closed u hu hunv hne)
      · intro u hu hunv hne
        replace hu : u ∈ acc.stack := hu
        show (setLow v _ acc).low u < (setLow v _ acc).num u
        rw [setLow_low_other _ _ _ hne]
        exact hinv.residue_lt u hu hunv hne
      · intro u hu
        rcases List.mem_append.mp hu with h | h
        · obtain ⟨h1, h2⟩ := hinv.done_closed u h
          refine ⟨h1, ?_⟩
          rcases h2 with h3 | ⟨h3, h4⟩
          · exact Or.inl h3
          · right
            refine ⟨h3, ?_⟩
            show (setLow v _ acc).low v ≤ (setLow v _ acc).num u
            rw [setLow_low_self]
            exact le_trans (min_le_left _ _) h4
        · have hw2 : u = w := by simpa using h
          subst hw2
          refine ⟨hA, Or.inr ⟨hws, ?_⟩⟩
          show (setLow v _ acc).low v ≤ (setLow v _ acc).num u
          rw [setLow_low_self]
          exact min_le_right _ _
    · -- visited child no longer on the stack: no change
      rw [Bool.not_eq_true] at hB
      rw [kidStep_off hA hB]
      refine ⟨hinv.wf0, hinv.unvisited_v, hinv.wf, hinv.visited_mono,
        hinv.visited_v, hinv.v_stack, hinv.num_frozen, hinv.low_frozen,
        hinv.index_mono, hinv.num_v, hinv.num_new_ge, ⟨t, htstack, htprop⟩,
        hinv.comps_extend, hinv.reach_new, hinv.residue_low,
        hinv.residue_closed, hinv.residue_lt, ?_⟩
      intro u hu
      rcases List.mem_append.mp hu with h | h
      · exact hinv.done_closed u h
      · have hw2 : u = w := by simpa using h
        subst hw2
        refine ⟨hA, Or.inl ?_⟩
        have hns : u ∉ acc.stack := fun hc => by
          rw [(hinv.wf.onStack_iff u).mpr hc] at hB
          cases hB
        rcases hinv.wf.visited_cases u hA with h5 | h5
        · exact absurd h5 hns
        · exact h5

end Isekai

namespace Isekai

variable {α : Type} [DecidableEq α]

/-- The child loop preserves the loop invariant across a suffix. -/
theorem foldInv_fold {edges : List (α × α)} {V : List α} {fuel : Nat}
    {v : α} {e : TEnv α}
    (hIH : ∀ u a, SconnPre edges V u a → uvCard V a ≤ fuel →
      SconnSpec edges V u a (sconn edges fuel u a))
    (hfuel : uvCard V e ≤ fuel + 1) (hvV : v ∈ V) :
    ∀ (ws done : List α) (acc : TEnv α),
      (∀ w ∈ ws, w ∈ V ∧ EStep edges v w) →
      FoldInv edges V v e done acc →
      FoldInv edges V v e (done ++ ws)
        (ws.foldl (kidStep edges fuel v) acc)
  | [], done, acc, _, hinv => by simpa using hinv
  | w :: rest, done, acc, hws, hinv => by
    rw [List.foldl_cons]
    have h1 := foldInv_step hIH hfuel hvV (hws w (List.mem_cons_self w rest)).1
      (hws w (List.mem_cons_self w rest)).2 hinv
    have h2 := foldInv_fold hIH hfuel hvV rest (done ++ [w])
      (kidStep edges fuel v acc w)
      (fun x hx => hws x (List.mem_cons.mpr (Or.inr hx))) h1
    simpa using h2

theorem mem_flatten_iff_get {l : List (List α)} {x : α} :
    x ∈ l.flatten ↔ ∃ i, ∃ hi : i < l.length, x ∈ l.get ⟨i, hi⟩ := by
  rw [List.mem_flatten]
  constructor
  · rintro ⟨c, hc, hx⟩
    obtain ⟨⟨i, hi⟩, hg⟩ := List.mem_iff_get.mp hc
    exact ⟨i, hi, hg ▸ hx⟩
  · rintro ⟨i, hi, hx⟩
    exact ⟨l.get ⟨i, hi⟩, List.get_mem l i hi, hx⟩

/-- Exiting `strongconnect v` after the child loop: `popRoot` establishes the
postcondition. -/
theorem foldInv_popRoot {edges : List (α × α)} {V : List α} {v : α}
    {e F : TEnv α} (hinv : FoldInv edges V v e (adjOf edges v) F) :
    SconnSpec edges V v e (popRoot v F) := by
  have hunv : e.visited v = false := hinv.unvisited_v
  have hvF : v ∈ F.stack := hinv.v_stack
  have hvFvis : F.visited v = true := hinv.visited_v
  have hrcv : RetClosed edges F v :=
    fun x hx => hinv.done_closed x (estep_mem_adjOf hx)
  obtain ⟨t, htstack, htprop⟩ := hinv.stack_split
  have hvnots : v ∉ e.stack := fun h => by
    rw [hinv.wf0.stack_visited v h] at hunv
    cases hunv
  have hvt : v ∉ t := fun h => (htprop v h).2 rfl
  have hmem_t_F : ∀ u ∈ t, u ∈ F.stack := by
    intro u hu
    rw [htstack]
    exact List.mem_append.mpr (Or.inl hu)
  have hmem_e_F : ∀ u ∈ e.stack, u ∈ F.stack := by
    intro u hu
    rw [htstack]
    exact List.mem_append.mpr (Or.inr (List.mem_cons.mpr (Or.inr hu)))
  have hFstk_cases : ∀ u ∈ F.stack, u ∈ t ∨ u = v ∨ u ∈ e.stack := by
    intro u hu
    rw [htstack] at hu
    rcases List.mem_append.mp hu with h | h
    · exact Or.inl h
    · rcases List.mem_cons.mp h with h | h
      · exact Or.inr (Or.inl h)
      · exact Or.inr (Or.inr h)
  have htvis : ∀ u ∈ t, F.visited u = true :=
    fun u hu => hinv.wf.stack_visited u (hmem_t_F u hu)
  have htnum : ∀ u ∈ t, e.index ≤ F.num u :=
    fun u hu => hinv.num_new_ge u (htvis u hu) (htprop u hu).1
  have hFnumv : F.num v = e.index := hinv.num_v
  have hestk_vis : ∀ u ∈ e.stack, F.visited u = true :=
    fun u hu => hinv.wf.stack_visited u (hmem_e_F u hu)
  have hestk_num : ∀ u ∈ e.stack, F.num u = e.num u :=
    fun u hu => hinv.num_frozen u (hinv.wf0.stack_visited u hu)
  have hestk_lt : ∀ u ∈ e.stack, F.num u < e.index := by
    intro u hu
    rw [hestk_num u hu]
    exact hinv.wf0.num_lt u (hinv.wf0.stack_visited u hu)
  have hlowle : F.low v ≤ F.num v :=
    hinv.wf.low_le v hvFvis
  by_cases hroot : F.low v = F.num v
  · -- pop: a new component t ++ [v] is emitted
    have hpr : popComp v F.stack = (t ++ [v], e.stack) := by
      rw [htstack]
      exact popComp_eq hvt
    have hE : popRoot v F =
        { F with
            stack := e.stack
            onStack := fun w => if w ∈ t ++ [v] then false else F.onStack w
            comps := F.comps ++ [t ++ [v]] } := by
      unfold popRoot
      rw [if_pos hroot]
      show ({ F with
          stack := (popComp v F.stack).2
          onStack := fun w =>
            if w ∈ (popComp v F.stack).1 then false else F.onStack w
          comps := F.comps ++ [(popComp v F.stack).1] } : TEnv α) = _
      rw [hpr]
    rw [hE]
    have hFlowv : F.low v = e.index := by rw [hroot, hFnumv]
    have htlowv : ∀ u ∈ t, e.index ≤ F.low u := by
      intro u hu
      rw [← hFlowv]
      exact hinv.residue_low u (hmem_t_F u hu) (htprop u hu).1 (htprop u hu).2
    have hnd : (t ++ v :: e.stack).Nodup := htstack ▸ hinv.wf.stack_nodup
    obtain ⟨hndt, hndv, hdisj0⟩ := List.nodup_append.mp hnd
    have hdisj : ∀ u ∈ t ++ [v], u ∉ e.stack := by
      intro u hu hc
      rcases List.mem_append.mp hu with h | h
      · exact hdisj0 h (List.mem_cons.mpr (Or.inr hc))
      · have : u = v := by simpa using h
        exact hvnots (this ▸ hc)
    have hCstk : ∀ u ∈ t ++ [v], u ∈ F.stack := by
      intro u hu
      rcases List.mem_append.mp hu with h | h
      · exact hmem_t_F u h
      · have : u = v := by simpa using h
        exact this ▸ hvF
    have hCvis : ∀ u ∈ t ++ [v], F.visited u = true :=
      fun u hu => hinv.wf.stack_visited u (hCstk u hu)
    have hrcC : ∀ u ∈ t ++ [v], RetClosed edges F u := by
      intro u hu
      rcases List.mem_append.mp hu with h | h
      · exact hinv.residue_closed u (hmem_t_F u h) (htprop u h).1
          (htprop u h).2
      · have : u = v := by simpa using h
        exact this ▸ hrcv
    have hClow : ∀ u ∈ t ++ [v], e.index ≤ F.low u := by
      intro u hu
      rcases List.mem_append.mp hu with h | h
      · exact htlowv u h
      · have : u = v := by simpa using h
        rw [this, hFlowv]
    have hres2 : ∀ u ∈ F.stack, F.num v < F.num u → F.low u < F.num u := by
      intro u hu hn
      rcases hFstk_cases u hu with h | h | h
      · exact hinv.residue_lt u hu (htprop u h).1 (htprop u h).2
      · exact absurd (h ▸ hn) (lt_irrefl _)
      · have := hestk_lt u h
        rw [hFnumv] at hn
        omega
    have hreach_v : ∀ u ∈ F.stack, Reach edges u v :=
      reach_to_v hinv.wf hvF hres2
    have hreach_from_v : ∀ u ∈ t ++ [v], Reach edges v u := by
      intro u hu
      rcases List.mem_append.mp hu with h | h
      · refine hinv.wf.stack_reach v hvF u (hmem_t_F u h) ?_
        rw [hFnumv]
        exact htnum u h
      · have : u = v := by simpa using h
        exact this ▸ Relation.ReflTransGen.refl
    have hwf2 : WfEnv edges V
        { F with
            stack := e.stack
            onStack := fun w => if w ∈ t ++ [v] then false else F.onStack w
            comps := F.comps ++ [t ++ [v]] } := by
      refine ⟨?_, ?_, ?_, ?_, ?_, ?_, ?_, hinv.wf.visited_sub,
        hinv.wf.num_lt, hinv.wf.num_inj, hinv.wf.low_le, ?_, ?_, ?_, ?_, ?_,
        ?_⟩
      · exact hestk_vis
      · intro w
        show (if w ∈ t ++ [v] then false else F.onStack w) = true ↔
          w ∈ e.stack
        by_cases hw : w ∈ t ++ [v]
        · rw [if_pos hw]
          simp only [Bool.false_eq_true, false_iff]
          exact hdisj w hw
        · rw [if_neg hw, hinv.wf.onStack_iff w]
          constructor
          · intro h
            rcases hFstk_cases w h with h2 | h2 | h2
            · exact absurd (List.mem_append.mpr (Or.inl h2)) hw
            · exact absurd (List.mem_append.mpr (Or.inr (by simp [h2]))) hw
            · exact h2
          · exact hmem_e_F w
      · exact hndv.of_cons
      · intro w hw
        show F.visited w = true
        rw [List.flatten_append] at hw
        rcases List.mem_append.mp hw with h | h
        · exact hinv.wf.comps_visited w h
        · have : w ∈ t ++ [v] := by simpa using h
          exact hCvis w this
      · intro w hw
        rcases hinv.wf.visited_cases w hw with h | h
        · rcases hFstk_cases w h with h2 | h2 | h2
          · right
            rw [List.flatten_append]
            refine List.mem_append.mpr (Or.inr ?_)
            simp [h2]
          · right
            rw [List.flatten_append]
            refine List.mem_append.mpr (Or.inr ?_)
            simp [h2]
          · exact Or.inl h2
        · right
          rw [List.flatten_append]
          exact List.mem_append.mpr (Or.inl h)
      · intro w hw
        show w ∉ ((F.comps ++ [t ++ [v]])).flatten
        rw [List.flatten_append]
        intro hc
        rcases List.mem_append.mp hc with h | h
        · exact hinv.wf.stack_comps_disjoint w (hmem_e_F w hw) h
        · have : w ∈ t ++ [v] := by simpa using h
          exact hdisj w this hw
      · show ((F.comps ++ [t ++ [v]])).flatten.Nodup
        rw [List.flatten_append]
        refine List.nodup_append.mpr ⟨hinv.wf.comps_flat_nodup, ?_, ?_⟩
        · have hndC : (t ++ [v]).Nodup := by
            refine List.nodup_append.mpr ⟨hndt, List.nodup_singleton v, ?_⟩
            intro u hu hc
            have : u = v := by simpa using hc
            exact hvt (this ▸ hu)
          simpa using hndC
        · intro u hu hc
          have hC : u ∈ t ++ [v] := by simpa using hc
          exact hinv.wf.stack_comps_disjoint u (hCstk u hC) hu
      · show e.stack.Chain' (fun a b => F.num b < F.num a)
        have h1 := hinv.wf.stack_sorted
        rw [htstack] at h1
        exact (List.Chain'.right_of_append h1).tail
      · intro w hw
        rcases hinv.wf.witness w (hmem_e_F w hw) with heq | ⟨z, hz, hnz, hrz⟩
        · exact Or.inl heq
        · right
          refine ⟨z, ?_, hnz, hrz⟩
          have hlow_w : F.low w ≤ F.num w :=
            hinv.wf.low_le w (hestk_vis w hw)
          have hnum_w : F.num w < e.index := hestk_lt w hw
          rcases hFstk_cases z hz with h | h | h
          · have := htnum z h
            omega
          · rw [h, hFnumv] at hnz
            omega
          · exact h
      · intro x hx y hy hxy
        exact hinv.wf.stack_reach x (hmem_e_F x hx) y (hmem_e_F y hy) hxy
      · intro i hi u hu w hw
        show ∃ j, j ≤ i ∧
          ∃ hj : j < ((F.comps ++ [t ++ [v]])).length,
            w ∈ ((F.comps ++ [t ++ [v]])).get ⟨j, hj⟩
        have hlen : ((F.comps ++ [t ++ [v]])).length =
            F.comps.length + 1 := by simp
        by_cases hiF : i < F.comps.length
        · have hgu : ((F.comps ++ [t ++ [v]])).get ⟨i, hi⟩ =
              F.comps.get ⟨i, hiF⟩ := by
            simp [List.getElem_append_left hiF]
          rw [hgu] at hu
          obtain ⟨j, hj1, hj2, hj3⟩ := hinv.wf.comps_closed i hiF u hu w hw
          refine ⟨j, hj1, by omega, ?_⟩
          have : ((F.comps ++ [t ++ [v]])).get
              ⟨j, by omega⟩ = F.comps.get ⟨j, hj2⟩ := by
            simp [List.getElem_append_left hj2]
          rw [this]
          exact hj3
        · have hieq : i = F.comps.length := by
            have := hi
            rw [hlen] at this
            omega
          have hgu : ((F.comps ++ [t ++ [v]])).get ⟨i, hi⟩ =
              t ++ [v] := by
            subst hieq
            simp
          rw [hgu] at hu
          obtain ⟨hwvis, hcase⟩ := hrcC u hu w hw
          rcases hcase with h | ⟨hstk, hle⟩
          · obtain ⟨j, hj, hj2⟩ := mem_flatten_iff_get.mp h
            refine ⟨j, by omega, by omega, ?_⟩
            have : ((F.comps ++ [t ++ [v]])).get
                ⟨j, by omega⟩ = F.comps.get ⟨j, hj⟩ := by
              simp [List.getElem_append_left hj]
            rw [this]
            exact hj2
          · rcases hFstk_cases w hstk with h2 | h2 | h2
            · refine ⟨i, le_refl i, hi, ?_⟩
              rw [hgu]
              exact List.mem_append.mpr (Or.inl h2)
            · refine ⟨i, le_refl i, hi, ?_⟩
              rw [hgu]
              exact List.mem_append.mpr (Or.inr (by simp [h2]))
            · exfalso
              have h3 := hClow u hu
              have h4 := hestk_lt w h2
              omega
      · intro c hc u hu w hw
        rcases List.mem_append.mp hc with h | h
        · exact hinv.wf.comps_scc c h u hu w hw
        · have : c = t ++ [v] := by simpa using h
          subst this
          exact Relation.ReflTransGen.trans
            (hreach_v u (hCstk u hu)) (hreach_from_v w hw)
      · intro c hc
        rcases List.mem_append.mp hc with h | h
        · exact hinv.wf.comps_nonempty c h
        · have : c = t ++ [v] := by simpa using h
          subst this
          simp
    obtain ⟨cs, hcs⟩ := hinv.comps_extend
    refine ⟨hwf2, hinv.visited_mono, hinv.visited_v, hinv.num_frozen,
      hinv.low_frozen, le_trans (Nat.le_succ _) hinv.index_mono, hinv.num_v,
      hinv.num_new_ge, ⟨[], by simp, by simp⟩, ⟨cs ++ [t ++ [v]], ?_⟩,
      hinv.reach_new, ?_, ?_, ?_, ?_, ?_, ?_⟩
    · show (F.comps ++ [t ++ [v]]) = e.comps ++ (cs ++ [t ++ [v]])
      rw [← List.append_assoc, ← hcs]
    · intro u hu hu2
      exact absurd hu hu2
    · intro u hu hu2
      exact absurd hu hu2
    · intro u hu hu2
      exact absurd hu hu2
    · intro h
      exact absurd h hvnots
    · intro _
      exact hroot
    · intro _
      rfl
  · -- no pop: v stays on the stack as a residue
    have hE : popRoot v F = F := by
      unfold popRoot
      rw [if_neg hroot]
    rw [hE]
    refine ⟨hinv.wf, hinv.visited_mono, hinv.visited_v, hinv.num_frozen,
      hinv.low_frozen, le_trans (Nat.le_succ _) hinv.index_mono, hinv.num_v,
      hinv.num_new_ge, ⟨t ++ [v], ?_, ?_⟩, hinv.comps_extend,
      hinv.reach_new, ?_, ?_, ?_, ?_, ?_, ?_⟩
    · rw [htstack]
      simp
    · intro u hu
      rcases List.mem_append.mp hu with h | h
      · exact (htprop u h).1
      · have : u = v := by simpa using h
        exact this ▸ hunv
    · intro u hu hne
      rcases hFstk_cases u hu with h | h | h
      · exact hinv.residue_low u hu (htprop u h).1 (htprop u h).2
      · rw [h]
      · exact absurd h hne
    · intro u hu hne
      rcases hFstk_cases u hu with h | h | h
      · exact hinv.residue_closed u hu (htprop u h).1 (htprop u h).2
      · exact h ▸ hrcv
      · exact absurd h hne
    · intro u hu hne hnev
      rcases hFstk_cases u hu with h | h | h
      · exact hinv.residue_lt u hu (htprop u h).1 (htprop u h).2
      · exact absurd h hnev
      · exact absurd h hne
    · intro _
      exact lt_of_le_of_ne hlowle hroot
    · intro h
      exact absurd hvF h
    · intro h
      exact absurd hvF h

end Isekai

namespace Isekai

variable {α : Type} [DecidableEq α]

/-- Full correctness of one `strongconnect` call, by induction on fuel. -/
theorem sconn_spec {edges : List (α × α)} {V : List α}
    (hV : ∀ p ∈ edges, p.2 ∈ V) :
    ∀ (fuel : Nat) (v : α) (e : TEnv α), SconnPre edges V v e →
      uvCard V e ≤ fuel → SconnSpec edges V v e (sconn edges fuel v e)
  | 0, v, e, hpre, hfuel => by
    exfalso
    have := uvCard_pos hpre.v_in_V hpre.unvisited
    omega
  | fuel + 1, v, e, hpre, hfuel => by
    rw [sconn_succ]
    have h1 := foldInv_push hpre
    have hws : ∀ w ∈ adjOf edges v, w ∈ V ∧ EStep edges v w := by
      intro w hw
      have he := adjOf_mem_edges hw
      exact ⟨hV (v, w) he, he⟩
    have h2 := foldInv_fold (fun u a hp hf => sconn_spec hV fuel u a hp hf)
      hfuel hpre.v_in_V (adjOf edges v) [] (pushNode v e) hws h1
    exact foldInv_popRoot (by simpa using h2)

theorem wfEnv_init {edges : List (α × α)} {V : List α} :
    WfEnv edges V (initEnv : TEnv α) := by
  refine ⟨?_, ?_, ?_, ?_, ?_, ?_, ?_, ?_, ?_, ?_, ?_, ?_, ?_, ?_, ?_, ?_,
    ?_⟩
  · intro w hw
    simp [initEnv] at hw
  · intro w
    simp [initEnv]
  · simp [initEnv]
  · intro w hw
    simp [initEnv] at hw
  · intro w hw
    simp [initEnv] at hw
  · intro w hw
    simp [initEnv] at hw
  · simp [initEnv]
  · intro w hw
    simp [initEnv] at hw
  · intro w hw
    simp [initEnv] at hw
  · intro x y hx
    simp [initEnv] at hx
  · intro w hw
    simp [initEnv] at hw
  · simp [initEnv]
  · intro w hw
    simp [initEnv] at hw
  · intro x hx
    simp [initEnv] at hx
  · intro i hi
    simp [initEnv] at hi
  · intro c hc
    simp [initEnv] at hc
  · intro c hc
    simp [initEnv] at hc

/-- The main loop keeps the stack empty, keeps the invariant, and visits
every processed node. -/
theorem tarjanEnv_fold {edges : List (α × α)} {V : List α}
    (hV : ∀ p ∈ edges, p.2 ∈ V) :
    ∀ (todo : List α) (e : TEnv α), (∀ x ∈ todo, x ∈ V) →
      WfEnv edges V e → e.stack = [] →
      WfEnv edges V (todo.foldl
        (fun a v => if a.visited v = false then sconn edges V.length v a
          else a) e) ∧
      (todo.foldl (fun a v => if a.visited v = false then
        sconn edges V.length v a else a) e).stack = [] ∧
      ∀ u, e.visited u = true ∨ u ∈ todo →
        (todo.foldl (fun a v => if a.visited v = false then
          sconn edges V.length v a else a) e).visited u = true
  | [], e, _, hwf, hstk => by
    refine ⟨hwf, hstk, ?_⟩
    intro u hu
    rcases hu with h | h
    · exact h
    · exact absurd h (List.not_mem_nil u)
  | v :: rest, e, hsub, hwf, hstk => by
    rw [List.foldl_cons]
    by_cases hv : e.visited v = false
    · rw [if_pos hv]
      have hpre : SconnPre edges V v e :=
        ⟨hwf, hv, hsub v (List.mem_cons_self v rest),
          fun x hx => absurd (hstk ▸ hx) (List.not_mem_nil x)⟩
      have hS := sconn_spec hV V.length v e hpre (uvCard_le_length V e)
      set S := sconn edges V.length v e
      have hvnotS : v ∉ S.stack := by
        intro h
        have hlt := hS.v_low_lt h
        rcases hS.wf.witness v h with heq | ⟨z, hz, hnz, _⟩
        · omega
        · obtain ⟨s, hsstack, hsprop⟩ := hS.stack_split
          rw [hstk, List.append_nil] at hsstack
          have hz2 : z ∈ s := hsstack ▸ hz
          have hz3 := hsprop z hz2
          have hz4 := hS.wf.stack_visited z hz
          have hz5 := hS.num_new_ge z hz4 hz3
          have hz6 := hS.num_v
          omega
      have hSstk : S.stack = [] := by rw [hS.root_pop hvnotS, hstk]
      obtain ⟨hwf2, hstk2, hvis2⟩ := tarjanEnv_fold hV rest S
        (fun x hx => hsub x (List.mem_cons.mpr (Or.inr hx))) hS.wf hSstk
      refine ⟨hwf2, hstk2, ?_⟩
      intro u hu
      rcases hu with h | h
      · exact hvis2 u (Or.inl (hS.visited_mono u h))
      · rcases List.mem_cons.mp h with rfl | h2
        · exact hvis2 u (Or.inl hS.visited_v)
        · exact hvis2 u (Or.inr h2)
    · rw [if_neg hv]
      rw [Bool.not_eq_false] at hv
      obtain ⟨hwf2, hstk2, hvis2⟩ := tarjanEnv_fold hV rest e
        (fun x hx => hsub x (List.mem_cons.mpr (Or.inr hx))) hwf hstk
      refine ⟨hwf2, hstk2, ?_⟩
      intro u hu
      rcases hu with h | h
      · exact hvis2 u (Or.inl h)
      · rcases List.mem_cons.mp h with rfl | h2
        · exact hvis2 u (Or.inl hv)
        · exact hvis2 u (Or.inr h2)

/-- The state of Tarjan's algorithm after the main loop: the invariant holds,
the stack is empty, and every node of the iteration order was visited. -/
theorem tarjanEnv_spec (nodes : List α) (edges : List (α × α)) :
    WfEnv edges (givenOrder nodes edges) (tarjanEnv nodes edges) ∧
    (tarjanEnv nodes edges).stack = [] ∧
    ∀ u ∈ givenOrder nodes edges, (tarjanEnv nodes edges).visited u = true := by
  have hV : ∀ p ∈ edges, p.2 ∈ givenOrder nodes edges :=
    fun p hp => (givenOrder_endpoints nodes edges p hp).2
  obtain ⟨h1, h2, h3⟩ := tarjanEnv_fold hV (givenOrder nodes edges) initEnv
    (fun x hx => hx) wfEnv_init rfl
  exact ⟨h1, h2, fun u hu => h3 u (Or.inr hu)⟩

end Isekai

namespace Isekai

variable {α : Type} [DecidableEq α]

theorem mem_goStep_cases {acc : List α} {p : α × α} {x : α}
    (h : x ∈ goStep acc p) : x ∈ acc ∨ x = p.1 ∨ x = p.2 := by
  by_cases h1 : p.1 ∈ acc
  · simp only [goStep, if_pos h1] at h
    by_cases h2 : p.2 ∈ acc
    · rw [if_pos h2] at h
      exact Or.inl h
    · rw [if_neg h2] at h
      simp only [List.mem_append, List.mem_singleton] at h
      tauto
  · simp only [goStep, if_neg h1] at h
    by_cases h2 : p.2 ∈ acc ++ [p.1]
    · rw [if_pos h2] at h
      simp only [List.mem_append, List.mem_singleton] at h
      tauto
    · rw [if_neg h2] at h
      simp only [List.mem_append, List.mem_singleton] at h
      tauto

theorem mem_foldl_goStep_cases : ∀ {l : List (α × α)} {acc : List α} {x : α},
    x ∈ l.foldl goStep acc → x ∈ acc ∨ ∃ p ∈ l, p.1 = x ∨ p.2 = x
  | [], _, _, h => Or.inl h
  | p :: rest, acc, x, h => by
    rw [List.foldl_cons] at h
    rcases mem_foldl_goStep_cases h with h2 | ⟨q, hq, hx⟩
    · rcases mem_goStep_cases h2 with h3 | h3 | h3
      · exact Or.inl h3
      · exact Or.inr ⟨p, List.mem_cons_self p rest, Or.inl h3.symm⟩
      · exact Or.inr ⟨p, List.mem_cons_self p rest, Or.inr h3.symm⟩
    · exact Or.inr ⟨q, List.mem_cons.mpr (Or.inr hq), hx⟩

/-- Every member of the iteration order is a listed node or an edge
endpoint. -/
theorem mem_givenOrder_cases {nodes : List α} {edges : List (α × α)} {x : α}
    (h : x ∈ givenOrder nodes edges) :
    x ∈ nodes ∨ ∃ p ∈ edges, p.1 = x ∨ p.2 = x := by
  rw [givenOrder_eq_foldl] at h
  exact mem_foldl_goStep_cases h

/-- Completed components are closed under reachability, moving only to
components of smaller or equal index. -/
theorem comps_closed_reach {edges : List (α × α)} {V : List α} {e : TEnv α}
    (hwf : WfEnv edges V e) {u w : α} (hr : Reach edges u w) :
    ∀ i, ∀ hi : i < e.comps.length, u ∈ e.comps.get ⟨i, hi⟩ →
      ∃ j, j ≤ i ∧ ∃ hj : j < e.comps.length, w ∈ e.comps.get ⟨j, hj⟩ := by
  have hr2 : Relation.ReflTransGen (EStep edges) u w := hr
  clear hr
  induction hr2 with
  | refl =>
    intro i hi hu
    exact ⟨i, le_refl i, hi, hu⟩
  | tail hab hbc ih =>
    intro i hi hu
    obtain ⟨j, hj1, hj2, hj3⟩ := ih i hi hu
    obtain ⟨k, hk1, hk2, hk3⟩ := hwf.comps_closed j hj2 _ hj3 _ hbc
    exact ⟨k, le_trans hk1 hj1, hk2, hk3⟩

/-- In a duplicate-free flattening, an element determines its component
index. -/
theorem nodup_flatten_unique : ∀ {l : List (List α)}, l.flatten.Nodup →
    ∀ (x : α) (i j : Nat), ∀ hi : i < l.length, ∀ hj : j < l.length,
      x ∈ l.get ⟨i, hi⟩ → x ∈ l.get ⟨j, hj⟩ → i = j
  | [], _ => by
    intro x i j hi
    simp at hi
  | c :: rest, h => by
    intro x i j hi hj hxi hxj
    rw [List.flatten_cons, List.nodup_append] at h
    obtain ⟨h1, h2, h3⟩ := h
    rcases i with _ | i2 <;> rcases j with _ | j2
    · rfl
    · exfalso
      have hx1 : x ∈ c := hxi
      have hx2 : x ∈ rest.flatten :=
        mem_flatten_iff_get.mpr ⟨j2, Nat.lt_of_succ_lt_succ hj, hxj⟩
      exact h3 hx1 hx2
    · exfalso
      have hx1 : x ∈ c := hxj
      have hx2 : x ∈ rest.flatten :=
        mem_flatten_iff_get.mpr ⟨i2, Nat.lt_of_succ_lt_succ hi, hxi⟩
      exact h3 hx1 hx2
    · exact congrArg Nat.succ (nodup_flatten_unique h2 x i2 j2
        (Nat.lt_of_succ_lt_succ hi) (Nat.lt_of_succ_lt_succ hj) hxi hxj)

theorem nodup_of_mem_flatten {l : List (List α)} {c : List α}
    (hc : c ∈ l) (h : l.flatten.Nodup) : c.Nodup := by
  obtain ⟨s, t, rfl⟩ := List.append_of_mem hc
  rw [List.flatten_append, List.flatten_cons] at h
  exact (List.nodup_append.mp ((List.nodup_append.mp h).2.1)).1

theorem flatten_length_singletons : ∀ {l : List (List α)},
    (∀ c ∈ l, ∃ x, c = [x]) → l.flatten.length = l.length
  | [], _ => rfl
  | c :: rest, h => by
    obtain ⟨x, hx⟩ := h c (List.mem_cons_self c rest)
    rw [List.flatten_cons, List.length_append,
      flatten_length_singletons (fun d hd => h d (List.mem_cons.mpr (Or.inr hd))),
      hx]
    simp [Nat.add_comm]

/-- A node belongs to the output components exactly when it belongs to the
iteration order. -/
theorem tarjan_flatten_iff (nodes : List α) (edges : List (α × α)) {v : α} :
    v ∈ (tarjanEnv nodes edges).comps.flatten ↔
      v ∈ givenOrder nodes edges := by
  obtain ⟨hwf, hstk, hvis⟩ := tarjanEnv_spec nodes edges
  constructor
  · intro h
    exact hwf.visited_sub v (hwf.comps_visited v h)
  · intro h
    rcases hwf.visited_cases v (hvis v h) with h2 | h2
    · rw [hstk] at h2
      exact absurd h2 (List.not_mem_nil v)
    · exact h2

/-- Every node of the iteration order occurs exactly once across all output
components. -/
theorem tarjan_count_one (nodes : List α) (edges : List (α × α)) {v : α}
    (h : v ∈ givenOrder nodes edges) :
    List.count v (tarjanEnv nodes edges).comps.flatten = 1 :=
  List.count_eq_one_of_mem (tarjanEnv_spec nodes edges).1.comps_flat_nodup
    ((tarjan_flatten_iff nodes edges).mpr h)

/-- Two nodes of the iteration order share an output component exactly when
they are mutually reachable. -/
theorem tarjan_same_comp_iff (nodes : List α) (edges : List (α × α))
    {u w : α} (hu : u ∈ givenOrder nodes edges)
    (hw : w ∈ givenOrder nodes edges) :
    (∃ c ∈ (tarjanEnv nodes edges).comps, u ∈ c ∧ w ∈ c) ↔
      (Reach edges u w ∧ Reach edges w u) := by
  obtain ⟨hwf, hstk, hvis⟩ := tarjanEnv_spec nodes edges
  constructor
  · rintro ⟨c, hc, hcu, hcw⟩
    exact ⟨hwf.comps_scc c hc u hcu w hcw, hwf.comps_scc c hc w hcw u hcu⟩
  · rintro ⟨h1, h2⟩
    obtain ⟨i, hi, hui⟩ := mem_flatten_iff_get.mp
      ((tarjan_flatten_iff nodes edges).mpr hu)
    obtain ⟨j, hj, hwj⟩ := mem_flatten_iff_get.mp
      ((tarjan_flatten_iff nodes edges).mpr hw)
    obtain ⟨j2, hj2le, hj2, hwj2⟩ := comps_closed_reach hwf h1 i hi hui
    obtain ⟨i2, hi2le, hi2, hui2⟩ := comps_closed_reach hwf h2 j hj hwj
    have e1 : j2 = j :=
      nodup_flatten_unique hwf.comps_flat_nodup w j2 j hj2 hj hwj2 hwj
    have e2 : i2 = i :=
      nodup_flatten_unique hwf.comps_flat_nodup u i2 i hi2 hi hui2 hui
    have hij : i = j := by omega
    subst hij
    exact ⟨(tarjanEnv nodes edges).comps.get ⟨i, hi⟩,
      List.get_mem _ i hi, hui, hwj⟩

end Isekai

namespace Isekai

variable {α : Type} [DecidableEq α]

/-- **C1** For every input node collection and edge list, `tarjan_scc`
returns a partition in which every supplied node — listed nodes as well as
nodes appearing only as edge endpoints — occurs exactly once across the
returned components, and two supplied nodes lie in a common component iff
each is reachable from the other along directed edges. -/
theorem c1_tarjan_scc (nodes : List α) (edges : List (α × α)) :
    (∀ v, (v ∈ nodes ∨ ∃ p ∈ edges, p.1 = v ∨ p.2 = v) →
      List.count v (tarjan_scc nodes edges).1.flatten = 1) ∧
    (∀ u w, (u ∈ nodes ∨ ∃ p ∈ edges, p.1 = u ∨ p.2 = u) →
      (w ∈ nodes ∨ ∃ p ∈ edges, p.1 = w ∨ p.2 = w) →
      ((∃ c ∈ (tarjan_scc nodes edges).1, u ∈ c ∧ w ∈ c) ↔
        (Reach edges u w ∧ Reach edges w u))) := by
  have hsup : ∀ v : α, (v ∈ nodes ∨ ∃ p ∈ edges, p.1 = v ∨ p.2 = v) →
      v ∈ givenOrder nodes edges := by
    intro v hv
    rcases hv with h | ⟨p, hp, h | h⟩
    · exact givenOrder_sub nodes edges h
    · exact h ▸ (givenOrder_endpoints nodes edges p hp).1
    · exact h ▸ (givenOrder_endpoints nodes edges p hp).2
  constructor
  · intro v hv
    exact tarjan_count_one nodes edges (hsup v hv)
  · intro u w hu hw
    exact tarjan_same_comp_iff nodes edges (hsup u hu) (hsup w hw)

theorem c1_tarjan_scc_witness :
    List.count 1 (tarjan_scc [1, 2, 3] [(1, 2), (2, 3), (3, 1)]).1.flatten
      = 1 ∧
    ((∃ c ∈ (tarjan_scc [1, 2, 3] [(1, 2), (2, 3), (3, 1)]).1,
        1 ∈ c ∧ 3 ∈ c) ↔
      (Reach [(1, 2), (2, 3), (3, 1)] 1 3 ∧
        Reach [(1, 2), (2, 3), (3, 1)] 3 1)) :=
  ⟨(c1_tarjan_scc [1, 2, 3] [(1, 2), (2, 3), (3, 1)]).1 1
      (Or.inl (by decide)),
    (c1_tarjan_scc [1, 2, 3] [(1, 2), (2, 3), (3, 1)]).2 1 3
      (Or.inl (by decide)) (Or.inl (by decide))⟩

/-- Modelled from the spec: the Build Order Resolver (the load operation
imports `resolve_build_order` from a module that is not part of this tree)
must emit the SCC phases in some valid reverse topological order of the
condensation, dependency-first. `tarjan_scc` already emits its components
in such an order — every edge lands in a component no later than its
source's — so the resolver is the component list of `tarjan_scc`. -/
def resolve_build_order (nodes : List α) (edges : List (α × α)) :
    List (List α) :=
  (tarjan_scc nodes edges).1

/-- A dependency cycle of size `N`: node `i` references node `(i+1) % N`. -/
def cycleEdges (N : Nat) : List (Nat × Nat) :=
  (List.range N).map (fun i => (i, (i + 1) % N))

/-- An acyclic dependency chain of length `N`: node `i` references `i+1`. -/
def chainEdges (N : Nat) : List (Nat × Nat) :=
  (List.range (N - 1)).map (fun i => (i, i + 1))

theorem cycle_estep {N i : Nat} (h : i < N) :
    EStep (cycleEdges N) i ((i + 1) % N) := by
  unfold EStep cycleEdges
  exact List.mem_map.mpr ⟨i, List.mem_range.mpr h, rfl⟩

theorem cycle_reach_add {N : Nat} (a : Nat) (ha : a < N) :
    ∀ k, Reach (cycleEdges N) a ((a + k) % N)
  | 0 => by
    have h0 : (a + 0) % N = a := by
      rw [Nat.add_zero, Nat.mod_eq_of_lt ha]
    rw [h0]
    exact Relation.ReflTransGen.refl
  | k + 1 => by
    have h1 := cycle_reach_add a ha k
    have hmod : (a + k) % N < N := Nat.mod_lt _ (by omega)
    have h2 := cycle_estep hmod
    have h3 : ((a + k) % N + 1) % N = (a + (k + 1)) % N := by
      rw [Nat.mod_add_mod, Nat.add_assoc]
    exact Relation.ReflTransGen.tail h1 (h3 ▸ h2)

theorem cycle_reach {N a b : Nat} (ha : a < N) (hb : b < N) :
    Reach (cycleEdges N) a b := by
  have h := cycle_reach_add a ha (b + N - a)
  have h2 : (a + (b + N - a)) % N = b := by
    have h3 : a + (b + N - a) = b + N := by omega
    rw [h3, Nat.add_mod_right, Nat.mod_eq_of_lt hb]
  rwa [h2] at h

theorem cycleEdges_mem {N : Nat} {p : Nat × Nat} (h : p ∈ cycleEdges N) :
    p.1 < N ∧ p.2 < N := by
  unfold cycleEdges at h
  obtain ⟨i, hi, rfl⟩ := List.mem_map.mp h
  have h2 := List.mem_range.mp hi
  exact ⟨h2, Nat.mod_lt _ (by omega)⟩

theorem cycle_order_lt {N x : Nat}
    (h : x ∈ givenOrder (List.range N) (cycleEdges N)) : x < N := by
  rcases mem_givenOrder_cases h with h2 | ⟨p, hp, h2 | h2⟩
  · exact List.mem_range.mp h2
  · exact h2 ▸ (cycleEdges_mem hp).1
  · exact h2 ▸ (cycleEdges_mem hp).2

theorem chainEdges_mem {N : Nat} {p : Nat × Nat} (h : p ∈ chainEdges N) :
    p.2 = p.1 + 1 ∧ p.1 + 1 < N := by
  unfold chainEdges at h
  obtain ⟨i, hi, rfl⟩ := List.mem_map.mp h
  have h2 := List.mem_range.mp hi
  exact ⟨rfl, by omega⟩

theorem chain_reach_le {N a b : Nat} (h : Reach (chainEdges N) a b) :
    a ≤ b := by
  have h2 : Relation.ReflTransGen (EStep (chainEdges N)) a b := h
  clear h
  induction h2 with
  | refl => exact le_refl a
  | tail hab hbc ih =>
    have h3 := (chainEdges_mem hbc).1
    omega

theorem chain_order_lt {N x : Nat}
    (h : x ∈ givenOrder (List.range N) (chainEdges N)) : x < N := by
  rcases mem_givenOrder_cases h with h2 | ⟨p, hp, h2 | h2⟩
  · exact List.mem_range.mp h2
  · have h3 := (chainEdges_mem hp).2
    omega
  · have h3 := chainEdges_mem hp
    omega

/-- **C2** For a dependency cycle of size `N` the build-order resolver emits
exactly one phase, containing all `N` keys; for an acyclic chain of length
`N` it emits `N` singleton phases ordered dependency-first (the referenced
node's phase strictly precedes the referencing node's phase); and on any,
possibly disconnected, graph every supplied node appears in exactly one
emitted phase exactly once. -/
theorem c2_resolve_build_order :
    (∀ N : Nat, 1 ≤ N →
      (resolve_build_order (List.range N) (cycleEdges N)).length = 1 ∧
      ∀ i < N, ∀ c ∈ resolve_build_order (List.range N) (cycleEdges N),
        i ∈ c) ∧
    (∀ N : Nat,
      (resolve_build_order (List.range N) (chainEdges N)).length = N ∧
      (∀ c ∈ resolve_build_order (List.range N) (chainEdges N),
        ∃ i, i < N ∧ c = [i]) ∧
      (∀ k, k + 1 < N → ∀ i j,
        ∀ hi : i <
          (resolve_build_order (List.range N) (chainEdges N)).length,
        ∀ hj : j <
          (resolve_build_order (List.range N) (chainEdges N)).length,
        k ∈ (resolve_build_order (List.range N) (chainEdges N)).get
          ⟨i, hi⟩ →
        k + 1 ∈ (resolve_build_order (List.range N) (chainEdges N)).get
          ⟨j, hj⟩ →
        j < i)) ∧
    (∀ (β : Type) [DecidableEq β], ∀ (nodes : List β)
      (edges : List (β × β)) (v : β),
      (v ∈ nodes ∨ ∃ p ∈ edges, p.1 = v ∨ p.2 = v) →
      List.count v (resolve_build_order nodes edges).flatten = 1) := by
  refine ⟨?_, ?_, ?_⟩
  · intro N hN
    have hrb : resolve_build_order (List.range N) (cycleEdges N) =
        (tarjanEnv (List.range N) (cycleEdges N)).comps := rfl
    rw [hrb]
    obtain ⟨hwf, hstk, hvis⟩ := tarjanEnv_spec (List.range N) (cycleEdges N)
    have hmem : ∀ i, i < N →
        i ∈ (tarjanEnv (List.range N) (cycleEdges N)).comps.flatten :=
      fun i hi => (tarjan_flatten_iff _ _).mpr
        (givenOrder_sub _ _ (List.mem_range.mpr hi))
    have h0 := hmem 0 (by omega)
    obtain ⟨j0, hj0, h0j⟩ := mem_flatten_iff_get.mp h0
    have hall : ∀ i, ∀ hi :
        i < (tarjanEnv (List.range N) (cycleEdges N)).comps.length,
        i = j0 := by
      intro i hi
      obtain ⟨x, hx⟩ := List.exists_mem_of_ne_nil _
        (hwf.comps_nonempty _ (List.get_mem _ i hi))
      have hxF : x ∈ (tarjanEnv (List.range N) (cycleEdges N)).comps.flatten :=
        mem_flatten_iff_get.mpr ⟨i, hi, hx⟩
      have hxN : x < N := cycle_order_lt ((tarjan_flatten_iff _ _).mp hxF)
      obtain ⟨j, hjle, hj, h0mem⟩ :=
        comps_closed_reach hwf (cycle_reach hxN (show (0 : Nat) < N by omega))
          i hi hx
      have hjj0 : j = j0 :=
        nodup_flatten_unique hwf.comps_flat_nodup 0 j j0 hj hj0 h0mem h0j
      obtain ⟨i2, hi2le, hi2, hxmem⟩ :=
        comps_closed_reach hwf (cycle_reach (show (0 : Nat) < N by omega) hxN)
          j0 hj0 h0j
      have hii2 : i2 = i :=
        nodup_flatten_unique hwf.comps_flat_nodup x i2 i hi2 hi hxmem hx
      omega
    have hlen : (tarjanEnv (List.range N) (cycleEdges N)).comps.length = 1 := by
      have h1 : 0 < (tarjanEnv (List.range N) (cycleEdges N)).comps.length :=
        Nat.lt_of_le_of_lt (Nat.zero_le j0) hj0
      by_contra hc
      have h2 : 2 ≤ (tarjanEnv (List.range N) (cycleEdges N)).comps.length :=
        by omega
      have e0 := hall 0 (by omega)
      have e1 := hall 1 (by omega)
      omega
    refine ⟨hlen, ?_⟩
    intro i hi c hc
    have hiF := hmem i hi
    obtain ⟨k, hk, hik⟩ := mem_flatten_iff_get.mp hiF
    obtain ⟨⟨k2, hk2⟩, hg⟩ := List.mem_iff_get.mp hc
    have hkk : k2 = k := by
      have e1 := hall k hk
      have e2 := hall k2 hk2
      omega
    subst hkk
    rw [← hg]
    exact hik
  · intro N
    have hrb : resolve_build_order (List.range N) (chainEdges N) =
        (tarjanEnv (List.range N) (chainEdges N)).comps := rfl
    rw [hrb]
    obtain ⟨hwf, hstk, hvis⟩ := tarjanEnv_spec (List.range N) (chainEdges N)
    have hsingle : ∀ c ∈ (tarjanEnv (List.range N) (chainEdges N)).comps,
        ∃ i, i < N ∧ c = [i] := by
      intro c hc
      have hne := hwf.comps_nonempty c hc
      obtain ⟨x, hx⟩ := List.exists_mem_of_ne_nil c hne
      have hxF : x ∈ (tarjanEnv (List.range N) (chainEdges N)).comps.flatten :=
        List.mem_flatten.mpr ⟨c, hc, hx⟩
      have hxN : x < N := chain_order_lt ((tarjan_flatten_iff _ _).mp hxF)
      refine ⟨x, hxN, ?_⟩
      have hcd : c.Nodup := nodup_of_mem_flatten hc hwf.comps_flat_nodup
      have hall : ∀ y ∈ c, y = x := by
        intro y hy
        have h1 := chain_reach_le (hwf.comps_scc c hc x hx y hy)
        have h2 := chain_reach_le (hwf.comps_scc c hc y hy x hx)
        omega
      cases c with
      | nil => exact absurd rfl hne
      | cons a rest =>
        have ha : a = x := hall a (List.mem_cons_self a rest)
        have hrest : rest = [] := by
          cases rest with
          | nil => rfl
          | cons b r2 =>
            exfalso
            have hb : b = x := hall b
              (List.mem_cons.mpr (Or.inr (List.mem_cons_self b r2)))
            have hnd2 := List.nodup_cons.mp hcd
            apply hnd2.1
            rw [ha, ← hb]
            exact List.mem_cons_self b r2
        rw [ha, hrest]
    have hlen : (tarjanEnv (List.range N) (chainEdges N)).comps.length = N := by
      have hmemiff : ∀ x,
          x ∈ (tarjanEnv (List.range N) (chainEdges N)).comps.flatten ↔
            x ∈ List.range N := by
        intro x
        rw [tarjan_flatten_iff]
        constructor
        · intro h
          exact List.mem_range.mpr (chain_order_lt h)
        · intro h
          exact givenOrder_sub _ _ h
      have hperm_len :
          (tarjanEnv (List.range N) (chainEdges N)).comps.flatten.length
            = N := by
        have hts :
            (tarjanEnv (List.range N) (chainEdges N)).comps.flatten.toFinset
              = (List.range N).toFinset := by
          ext a
          simp only [List.mem_toFinset]
          exact hmemiff a
        have h1 := List.toFinset_card_of_nodup hwf.comps_flat_nodup
        have h2 : (List.range N).toFinset.card = N := by
          rw [List.toFinset_card_of_nodup (List.nodup_range N)]
          exact List.length_range N
        rw [hts, h2] at h1
        exact h1.symm
      have hsingle2 : ∀ c ∈ (tarjanEnv (List.range N) (chainEdges N)).comps,
          ∃ x, c = [x] := by
        intro c hc
        obtain ⟨i, _, hi⟩ := hsingle c hc
        exact ⟨i, hi⟩
      rw [← flatten_length_singletons hsingle2]
      exact hperm_len
    refine ⟨hlen, hsingle, ?_⟩
    intro k hk i j hi hj hki hkj
    have hedge : EStep (chainEdges N) k (k + 1) := by
      unfold EStep chainEdges
      exact List.mem_map.mpr ⟨k, List.mem_range.mpr (by omega), rfl⟩
    obtain ⟨j2, hj2le, hj2, hmem2⟩ :=
      hwf.comps_closed i hi k hki (k + 1) hedge
    have hjj : j2 = j :=
      nodup_flatten_unique hwf.comps_flat_nodup (k + 1) j2 j hj2 hj hmem2 hkj
    have hne : j ≠ i := by
      intro hc
      subst hc
      obtain ⟨x, hxN, hx⟩ :=
        hsingle _ (List.get_mem (tarjanEnv (List.range N) (chainEdges N)).comps
          j hj)
      rw [hx] at hki hkj
      have e1 : k = x := by simpa using hki
      have e2 : k + 1 = x := by simpa using hkj
      omega
    omega
  · intro β instβ nodes edges v hv
    have hsup : v ∈ givenOrder nodes edges := by
      rcases hv with h | ⟨p, hp, h | h⟩
      · exact givenOrder_sub nodes edges h
      · exact h ▸ (givenOrder_endpoints nodes edges p hp).1
      · exact h ▸ (givenOrder_endpoints nodes edges p hp).2
    exact tarjan_count_one nodes edges hsup

theorem c2_resolve_build_order_witness :
    (resolve_build_order (List.range 3) (cycleEdges 3)).length = 1 ∧
    (resolve_build_order (List.range 4) (chainEdges 4)).length = 4 ∧
    List.count 2 (resolve_build_order [1, 2] [(1, 2)]).flatten = 1 :=
  ⟨(c2_resolve_build_order.1 3 (by decide)).1,
    (c2_resolve_build_order.2.1 4).1,
    c2_resolve_build_order.2.2 Nat [1, 2] [(1, 2)] 2 (Or.inl (by decide))⟩

end Isekai
